import Mathlib

/-!
# Wordle rule engine (`wordle.c`): shallow embedding and verified properties

A C string is modelled as the list of the characters that precede its
terminating NUL.  An array together with its element count
(`guesses`/`results`/`num_guesses`, `word_list`/`num_words`) is modelled as a
list; the two parallel arrays `guesses` and `results` are modelled as one list
of records `(guesses[i], results[i])`.

Every function returns an `Option`: `none` stands for a run that does not
produce a result, because an `assert` of the source fails or because the
behaviour of the run is undefined: a read or a write outside an array, or the
overflow of the `int` sum `low + high` of the binary search.  The lengths of
strings and the counts `num_guesses` and `max_solutions` are natural numbers;
`num_words` is bounded by `INT_MAX` in `find_in_list` and by the size of
`int sol[10000]` in `find_solution`.
-/

namespace Wordle

/-! ## Characters -/

/-- The array index `c - 'a'` of a letter. -/
def letter_index (c : Char) : Nat := c.toNat - 'a'.toNat

/-- The expression `c - 'a' + 'A'` (change to upper case). -/
def to_upper (c : Char) : Char := Char.ofNat (c.toNat - 'a'.toNat + 'A'.toNat)

/-- The test `(cur >= 'a') && (cur <= 'z')`. -/
def is_lower (cur : Char) : Bool :=
  decide ('a'.toNat ≤ cur.toNat) && decide (cur.toNat ≤ 'z'.toNat)

/-- The test `(cur >= 'A') && (cur <= 'Z')`. -/
def is_upper (cur : Char) : Bool :=
  decide ('A'.toNat ≤ cur.toNat) && decide (cur.toNat ≤ 'Z'.toNat)

/-- `assert_lower(guess, length)`: `true` when the assertion holds for every letter. -/
def assert_lower (guess : List Char) : Bool := guess.all is_lower

/-- `assert_result(result, length)`: `true` when every character is a lowercase
letter, an uppercase letter or a period. -/
def assert_result (result : List Char) : Bool :=
  result.all (fun cur => is_lower cur || is_upper cur || decide (cur = '.'))

/-- Sign of `strcmp(a, b)`: negative, zero or positive as `a` is smaller than,
equal to or greater than `b` in the byte-wise lexicographic order. -/
def strcmp : List Char → List Char → Int
  | [], [] => 0
  | [], _ :: _ => -1
  | _ :: _, [] => 1
  | a :: as, b :: bs => if a = b then strcmp as bs else (a.toNat : Int) - (b.toNat : Int)

/-! ## `evaluate_guess` -/

/-- The counting loops `c[cur - 'a'] += 1` over a string, on a zeroed `int[30]`. -/
def count_letters (s : List Char) : List Nat :=
  s.foldl (fun c cur => c.set (letter_index cur) (c.getD (letter_index cur) 0 + 1))
    (List.replicate 30 0)

/-- The loop over `k < 30` that fills `common`. -/
def common_letters (c_sec c_guess : List Nat) : List Nat :=
  (List.range 30).map (fun k =>
    if 1 ≤ c_sec.getD k 0 ∧ 1 ≤ c_guess.getD k 0 then c_sec.getD k 0 else 0)

/-- The body of the loop "modify result" at one position `m`, given
`secret[m]` and `guess[m]`. -/
def result_char (common : List Nat) (secret_m guess_m : Char) : Char :=
  if secret_m = guess_m then to_upper guess_m
  else if common.getD (letter_index guess_m) 0 ≠ 0 then guess_m
  else '.'

/-- A character of `secret` whose index `cur_s - 'a'` lies inside `c_sec[30]`. -/
def in_table (cur_s : Char) : Bool :=
  decide ('a'.toNat ≤ cur_s.toNat) && decide (cur_s.toNat - 'a'.toNat < 30)

/-- The part of `evaluate_guess` that does not depend on the buffer `result`:
the assertions on `secret` and `guess` (`wordle.c` lines 40 and 41), the three
counting loops, the loop "modify result" and the final `strcmp`.  The value is
the returned boolean and the characters written to `result[0 .. length-1]`;
`none` when an assertion fails or a character of `secret` is counted outside
`c_sec[30]`.  It is the call of `evaluate_guess` on a zeroed buffer
(`evaluate_guess_zeroed`). -/
def evaluate (secret guess : List Char) : Option (Bool × List Char) :=
  if secret.length ≠ guess.length then none
  else if assert_lower guess = false then none
  else if secret.all in_table = false then none
  else
    let c_sec := count_letters secret
    let c_guess := count_letters guess
    let common := common_letters c_sec c_guess
    some (decide (strcmp secret guess = 0), List.zipWith (result_char common) secret guess)

/-- `strlen(s)` on the contents of a buffer: the index of its first NUL; `none`
when the buffer holds no NUL (the scan leaves the buffer). -/
def strlen : List Char → Option Nat
  | [] => none
  | c :: rest => if c = Char.ofNat 0 then some 0 else (strlen rest).map (fun n => n + 1)

/-- `evaluate_guess(secret, guess, result)`: the returned boolean and the
contents of the buffer `result` after the call, given its contents before the
call.  The source asserts `assert_result(result, strlen(result))` on the
previous contents (line 42); it writes `result[0 .. length-1]` and no
terminating NUL, so the buffer keeps its previous contents from index `length`
on.  `none` when `strlen` finds no NUL in the buffer, when an assertion fails
or when the buffer is shorter than the guess (a write outside the buffer);
every failure is the same `none`, so the order of the checks is immaterial. -/
def evaluate_guess (secret guess result : List Char) : Option (Bool × List Char) :=
  match strlen result with
  | none => none
  | some len_result =>
    if assert_result (result.take len_result) = false then none
    else if result.length < guess.length then none
    else
      match evaluate secret guess with
      | none => none
      | some (is_match, written) => some (is_match, written ++ result.drop guess.length)

/-! ## `find_in_list` -/

/-- The `while (low <= high)` loop of the binary search.  The first argument
bounds the number of iterations; `none` is returned when it is used up, when
the `int` sum `low + high` exceeds `INT_MAX = 2147483647` (signed overflow,
undefined behaviour) or when `word_list[mid]` would be read outside the list.
Inside the loop `0 <= low <= high`, so that the truncating division of C is
the floor. -/
def find_in_list_loop (guess : List Char) (word_list : List (List Char)) :
    Nat → Int → Int → Option Int
  | 0, low, high => if low ≤ high then none else some (-1)
  | fuel + 1, low, high =>
    if low ≤ high then
      if 2147483647 < low + high then none
      else
        let mid := (low + high) / 2
        if mid < 0 then none
        else
          match word_list[mid.toNat]? with
          | none => none
          | some word =>
            let is_equal := strcmp guess word
            if is_equal = 0 then some mid
            else if is_equal > 0 then find_in_list_loop guess word_list fuel (mid + 1) high
            else find_in_list_loop guess word_list fuel low (mid - 1)
    else some (-1)

/-- `find_in_list(guess, word_list, num_words)`, with `num_words` the length of
the list; `num_words` is an `int`, so the list has at most `INT_MAX` words.
Each iteration removes at least one index from `low .. high`, so `num_words`
iterations are allowed. -/
def find_in_list (guess : List Char) (word_list : List (List Char)) : Option Int :=
  if assert_lower guess = false then none
  else if 2147483647 < word_list.length then none
  else find_in_list_loop guess word_list word_list.length 0 ((word_list.length : Int) - 1)

/-! ## Guess histories -/

/-- A guess history: record `i` is the pair `(guesses[i], results[i])`,
for `i < num_guesses`. -/
abbrev History := List (List Char × List Char)

/-- The assertions made on one record by `available_letters` and
`valid_hard_guess`: equal lengths, lowercase guess, result characters. -/
def assert_record (rec : List Char × List Char) : Bool :=
  decide (rec.1.length = rec.2.length) && assert_lower rec.1 && assert_result rec.2

/-! ## `available_letters` -/

/-- One iteration of the loop over the letters of a guess: `guess_j` is
`guesses[i][j]` and `result_j` is `results[i][j]`. -/
def mark_letter (alphabet : List Char) (p : Char × Char) : List Char :=
  if p.2 = '.' then alphabet.set (letter_index p.1) '.'
  else alphabet.set (letter_index p.1) (to_upper p.1)

/-- The loop over the letters of one guess. -/
def mark_record (alphabet : List Char) (rec : List Char × List Char) : List Char :=
  (rec.1.zip rec.2).foldl mark_letter alphabet

/-- The loop "initialize the letters": `alphabet[i] = 'a' + i` for `i < 26`. -/
def init_alphabet (alphabet : List Char) : List Char :=
  (List.range 26).foldl (fun a i => a.set i (Char.ofNat ('a'.toNat + i))) alphabet

/-- `available_letters(guesses, results, num_guesses, alphabet)`: the contents
of the buffer `alphabet` after the call, given its contents before the call.
The buffer must hold at least 27 characters. -/
def available_letters (history : History) (alphabet : List Char) : Option (List Char) :=
  if alphabet.length < 27 then none
  else if history.all assert_record = false then none
  else some ((history.foldl mark_record (init_alphabet alphabet)).set 26 (Char.ofNat 0))

/-! ## `valid_hard_guess` -/

/-- The inner search `for (k = 0; k < len_next; k++) if (next_guess[k] == forbid)`. -/
def has_forbidden (next_guess : List Char) (forbid : Char) : Bool :=
  next_guess.any (fun c => decide (c = forbid))

/-- The inner search for `letter` at a position `k != j` of `next_guess`. -/
def is_in_elsewhere (next_guess : List Char) (letter : Char) (j : Nat) : Bool :=
  (List.range next_guess.length).any
    (fun k => decide (next_guess[k]? = some letter) && decide (k ≠ j))

/-- The body of the loop over `j` for one record: `false` when the body
executes `return false`. -/
def hard_position_ok (guess result next_guess : List Char) (j : Nat) : Bool :=
  let g := guess.getD j (Char.ofNat 0)
  let r := result.getD j (Char.ofNat 0)
  let n := next_guess.getD j (Char.ofNat 0)
  if r = '.' then !(has_forbidden next_guess g)
  else if r.toNat ≤ 'Z'.toNat then decide (n = g)
  else if n = r then false
  else is_in_elsewhere next_guess r j

/-- The loop over the positions `j < len` of one record. -/
def hard_record_ok (rec : List Char × List Char) (next_guess : List Char) : Bool :=
  (List.range rec.1.length).all (hard_position_ok rec.1 rec.2 next_guess)

/-- `valid_hard_guess(guesses, results, num_guesses, next_guess)`.  The records
are visited in order; the assertions on a record are made when it is reached. -/
def valid_hard_guess : History → List Char → Option Bool
  | [], _ => some true
  | rec :: rest, next_guess =>
    if assert_record rec = false then none
    else if decide (rec.1.length = next_guess.length) = false then none
    else if assert_lower next_guess = false then none
    else if hard_record_ok rec next_guess = false then some false
    else valid_hard_guess rest next_guess

/-! ## `find_solution` -/

/-- The variables that the first pass of `find_solution` updates while it scans
one word of the list: the arrays `must_have[30]` and `not_exist[30]`, the entry
`sol[i]` of the current word and the flag `is_possible`. -/
structure Scan where
  must_have : List Nat
  not_exist : List Nat
  sol_i : Nat
  is_possible : Bool
deriving DecidableEq

/-- The loop over `k < len_word` for one word and one record, with its `break`s:
the three lists are what is left of `word_list[i]`, `guesses[j]` and
`results[j]` from position `k` on. -/
def scan_letters : List Char → List Char → List Char → Scan → Scan
  | wk :: word, gk :: guess, rk :: result, st =>
    if rk = '.' then
      let st1 := { st with not_exist := st.not_exist.set (letter_index gk) 1 }
      if wk ≠ gk ∧ st1.is_possible = true then
        scan_letters word guess result { st1 with sol_i := 1 }
      else { st1 with sol_i := 0, is_possible := false }
    else if rk.toNat ≤ 'Z'.toNat then
      if wk = gk ∧ st.is_possible = true then
        scan_letters word guess result { st with sol_i := 1 }
      else { st with sol_i := 0, is_possible := false }
    else
      if wk ≠ gk ∧ st.is_possible = true then
        scan_letters word guess result
          { st with sol_i := 1, must_have := st.must_have.set (letter_index gk) 1 }
      else { st with sol_i := 0, is_possible := false }
  | _, _, _, st => st

/-- The loop over the guesses `j < num_guesses` for one word. -/
def scan_guesses (word : List Char) (history : History) (st : Scan) : Scan :=
  history.foldl (fun st rec => scan_letters word rec.1 rec.2 st) st

/-- The first pass, over the words of the list: it returns the final
`must_have` and `not_exist` and the entries `sol[i]` of the words. -/
def first_pass (history : History) :
    List (List Char) → List Nat → List Nat → List Nat × List Nat × List Nat
  | [], must_have, not_exist => (must_have, not_exist, [])
  | word :: rest, must_have, not_exist =>
    let st := scan_guesses word history
      { must_have := must_have, not_exist := not_exist, sol_i := 0, is_possible := true }
    let out := first_pass history rest st.must_have st.not_exist
    (out.1, out.2.1, st.sol_i :: out.2.2)

/-- The search `for (k = 0; k < len_word; k++) if (word_list[i][k] == j + 'a')`. -/
def has_letter (word : List Char) (len_word j : Nat) : Bool :=
  (word.take len_word).any (fun c => decide (c.toNat = j + 'a'.toNat))

/-- The second pass for one word: the new value of `sol[i]`. -/
def second_pass_word (must_have not_exist : List Nat) (len_word : Nat)
    (word : List Char) (sol_i : Nat) : Nat :=
  if sol_i ≠ 0 then
    let s1 := (List.range 30).foldl (fun s j =>
      if must_have.getD j 0 ≠ 0 then (if has_letter word len_word j = false then 0 else s)
      else s) sol_i
    (List.range 30).foldl (fun s j =>
      if not_exist.getD j 0 ≠ 0 then (if has_letter word len_word j then 0 else s)
      else s) s1
  else sol_i

/-- The last loop: the words stored in `solutions`, given the pairs
`(word_list[i], sol[i])` from index `i` on and the current `solution_index`. -/
def store_solutions (max_solutions : Nat) : List (List Char × Nat) → Nat → List (List Char)
  | [], _ => []
  | (word, sol_i) :: rest, solution_index =>
    if solution_index = max_solutions then []
    else if sol_i ≠ 0 then word :: store_solutions max_solutions rest (solution_index + 1)
    else store_solutions max_solutions rest solution_index

/-- The assertions of the first pass, made for every word `i` and every
guess `j`: equal lengths of word, guess and result, lowercase guess, result
characters. -/
def assert_solution (history : History) (word_list : List (List Char)) : Bool :=
  word_list.all (fun word => history.all (fun rec =>
    decide (rec.1.length = word.length) && assert_record rec))

/-- `find_solution(guesses, results, num_guesses, word_list, num_words,
solutions, max_solutions)`: the returned count and the words stored in
`solutions[0 .. count-1]`.  The array `sol[10000]` is read at every index
below `num_words`, so a longer list gives no result. -/
def find_solution (history : History) (word_list : List (List Char)) (max_solutions : Nat) :
    Option (Nat × List (List Char)) :=
  if max_solutions < 1 then none
  else if 10000 < word_list.length then none
  else if assert_solution history word_list = false then none
  else
    let pass := first_pass history word_list (List.replicate 30 0) (List.replicate 30 0)
    let len_word := (word_list.getLast?.getD []).length
    let sol := List.zipWith (second_pass_word pass.1 pass.2.1 len_word) word_list pass.2.2
    let solutions := store_solutions max_solutions (word_list.zip sol) 0
    some (solutions.length, solutions)

/-! ## Specification vocabulary -/

/-- A well-formed record: a lowercase guess and a result of the same length
whose `k`-th character is a period (Absent), the `k`-th letter of the guess
(Present) or that letter in upper case (Correct). -/
def well_formed (rec : List Char × List Char) : Bool :=
  decide (rec.1.length = rec.2.length) && assert_lower rec.1 &&
    (rec.1.zip rec.2).all (fun p =>
      decide (p.2 = '.') || decide (p.2 = p.1) || decide (p.2 = to_upper p.1))

/-- The letter occurrences of a history in the order in which
`available_letters` visits them: the pairs `(guesses[i][j], results[i][j])`. -/
def occurrences (history : History) : List (Char × Char) :=
  (history.map (fun rec => rec.1.zip rec.2)).flatten

/-- The last occurrence of the letter `c` in a history, if there is one. -/
def last_occurrence (history : History) (c : Char) : Option (Char × Char) :=
  ((occurrences history).filter (fun p => decide (p.1 = c))).getLast?

/-- The test that the first pass of `find_solution` makes at one position:
`wk`, `gk`, `rk` are `word_list[i][k]`, `guesses[j][k]`, `results[j][k]`. -/
def position_ok (wk gk rk : Char) : Bool :=
  if rk = '.' then decide (wk ≠ gk)
  else if rk.toNat ≤ 'Z'.toNat then decide (wk = gk)
  else decide (wk ≠ gk)

/-- A word passes a record when the test holds at every position. -/
def passes : List Char → List Char → List Char → Bool
  | wk :: word, gk :: guess, rk :: result => position_ok wk gk rk && passes word guess result
  | _, _, _ => true

/-- Feedback that `find_solution` treats as Present: neither a period nor a
character up to `'Z'`. -/
def is_present_mark (p : Char × Char) : Bool :=
  !decide (p.2 = '.') && !decide (p.2.toNat ≤ 'Z'.toNat)

/-- The must-appear set: the letters that are Present somewhere in the history. -/
def present_letters (history : History) : List Char :=
  ((occurrences history).filter is_present_mark).map Prod.fst

/-- The must-not-appear set: the letters that are Absent somewhere in the history. -/
def absent_letters (history : History) : List Char :=
  ((occurrences history).filter (fun p => decide (p.2 = '.'))).map Prod.fst

/-- Phase 1 of the filter: the word is tested at some position (non-empty
history and non-empty word) and passes every record position by position. -/
def phase_one (history : History) (word : List Char) : Bool :=
  !history.isEmpty && !word.isEmpty && history.all (fun rec => passes word rec.1 rec.2)

/-- Phase 2 of the filter: the word contains every must-appear letter and no
must-not-appear letter. -/
def phase_two (history : History) (word : List Char) : Bool :=
  (present_letters history).all (fun c => decide (c ∈ word)) &&
    (absent_letters history).all (fun c => !decide (c ∈ word))

/-- The two-phase filter. -/
def two_phase (history : History) (word : List Char) : Bool :=
  phase_one history word && phase_two history word

/-- A word is a consistent candidate for a history when `evaluate_guess`, run
with the word as the secret on each recorded guess, writes the recorded result. -/
def consistent (history : History) (word : List Char) : Bool :=
  history.all (fun rec =>
    match evaluate word rec.1 with
    | some (_, result) => decide (result = rec.2)
    | none => false)

/-- The entry `k` of a marking array (`must_have` or `not_exist`) is set. -/
def marked (m : List Nat) (k : Nat) : Prop := m.getD k 0 ≠ 0

/-! ## Characters and `strcmp`: basic facts -/

theorem char_eq_of_toNat_eq {c d : Char} (h : c.toNat = d.toNat) : c = d := by
  rw [← Char.ofNat_toNat c, ← Char.ofNat_toNat d, h]

theorem is_lower_iff (c : Char) : is_lower c = true ↔ 97 ≤ c.toNat ∧ c.toNat ≤ 122 := by
  simp [is_lower]

theorem letter_index_inj {c d : Char} (hc : is_lower c = true) (hd : 97 ≤ d.toNat)
    (h : letter_index c = letter_index d) : c = d := by
  rw [is_lower_iff] at hc
  apply char_eq_of_toNat_eq
  simp [letter_index] at h
  omega

theorem lower_cases (P : Char → Prop) (h : ∀ n, 97 ≤ n → n ≤ 122 → P (Char.ofNat n))
    (c : Char) (hc : is_lower c = true) : P c := by
  rw [is_lower_iff] at hc
  rw [← Char.ofNat_toNat c]
  exact h _ hc.1 hc.2

theorem to_upper_ne_self (c : Char) (hc : is_lower c = true) : to_upper c ≠ c := by
  revert c
  apply lower_cases
  intro n h1 h2
  interval_cases n <;> decide

theorem to_upper_facts (c : Char) (hc : is_lower c = true) :
    to_upper c ≠ c ∧ to_upper c ≠ '.' ∧ c ≠ '.' ∧ (to_upper c).toNat ≤ 'Z'.toNat ∧
      ¬ c.toNat ≤ 'Z'.toNat ∧ is_upper (to_upper c) = true ∧ (to_upper c).toNat + 32 = c.toNat := by
  revert c
  apply lower_cases
  intro n h1 h2
  interval_cases n <;> decide

theorem strcmp_eq_zero_iff (a b : List Char) : strcmp a b = 0 ↔ a = b := by
  induction a generalizing b with
  | nil => cases b <;> simp [strcmp]
  | cons x xs ih =>
    cases b with
    | nil => simp [strcmp]
    | cons y ys =>
      simp only [strcmp]
      split
      · rename_i h; subst h; simp [ih]
      · rename_i h
        constructor
        · intro h0
          exact absurd (char_eq_of_toNat_eq (by omega)) h
        · intro h0; simp at h0; exact absurd h0.1 h


/-! ## `evaluate_guess`: lemmas -/

theorem count_letters_aux (s : List Char) (hs : s.all in_table = true) (c : List Nat)
    (hc : c.length = 30) (k : Nat) :
    (s.foldl (fun c cur => c.set (letter_index cur) (c.getD (letter_index cur) 0 + 1)) c).getD k 0
      = c.getD k 0 + s.countP (fun cur => decide (letter_index cur = k)) := by
  induction s generalizing c with
  | nil => simp
  | cons x xs ih =>
    simp only [List.all_cons, Bool.and_eq_true] at hs
    rw [List.foldl_cons, ih hs.2 _ (by simp [hc])]
    have hx : letter_index x < 30 := by
      have := hs.1
      simp [in_table] at this
      simp [letter_index]; omega
    simp only [List.countP_cons]
    by_cases hk : letter_index x = k
    · subst hk
      simp [List.getD_eq_getElem?_getD, List.getElem?_set, hc, hx]
      omega
    · simp [List.getD_eq_getElem?_getD, List.getElem?_set, hk]

theorem replicate_zero_getD (n k : Nat) : (List.replicate n 0).getD k 0 = 0 := by
  rw [List.getD_eq_getElem?_getD, List.getElem?_replicate]
  split <;> rfl

theorem count_letters_getD (s : List Char) (hs : s.all in_table = true) (k : Nat) :
    (count_letters s).getD k 0 = s.countP (fun cur => decide (letter_index cur = k)) := by
  unfold count_letters
  rw [count_letters_aux s hs _ (List.length_replicate _ _), replicate_zero_getD]
  simp

theorem in_table_of_lower {s : List Char} (hs : assert_lower s = true) :
    s.all in_table = true := by
  simp only [assert_lower, List.all_eq_true] at hs ⊢
  intro c hc
  have := (is_lower_iff c).1 (hs c hc)
  simp [in_table]; omega

theorem count_letters_pos (s : List Char) (hs : assert_lower s = true) (g : Char)
    (hg : is_lower g = true) :
    1 ≤ (count_letters s).getD (letter_index g) 0 ↔ g ∈ s := by
  rw [count_letters_getD s (in_table_of_lower hs), Nat.succ_le_iff, List.countP_pos_iff]
  simp only [assert_lower, List.all_eq_true] at hs
  constructor
  · rintro ⟨c, hc, h⟩
    have h1 : letter_index c = letter_index g := by simpa using h
    have := letter_index_inj (hs c hc) ((is_lower_iff g).1 hg).1 h1
    exact this ▸ hc
  · intro h
    exact ⟨g, h, by simp⟩

theorem letter_index_lt (g : Char) (hg : is_lower g = true) : letter_index g < 26 := by
  have := (is_lower_iff g).1 hg
  simp [letter_index]; omega

/-- The entry of `common` for a letter of the guess is non-zero exactly when
the letter occurs in the secret. -/
theorem common_letters_ne_zero (secret guess : List Char) (hs : assert_lower secret = true)
    (hgs : assert_lower guess = true) (g : Char) (hg : g ∈ guess) :
    (common_letters (count_letters secret) (count_letters guess)).getD (letter_index g) 0 ≠ 0
      ↔ g ∈ secret := by
  have hgl : is_lower g = true := by
    simp only [assert_lower, List.all_eq_true] at hgs
    exact hgs g hg
  have hlt : letter_index g < 30 := by have := letter_index_lt g hgl; omega
  have h1 := count_letters_pos secret hs g hgl
  have h2 := (count_letters_pos guess hgs g hgl).2 hg
  unfold common_letters
  rw [List.getD_eq_getElem?_getD, List.getElem?_map, List.getElem?_range hlt]
  simp only [Option.map_some', Option.getD_some]
  split
  · rename_i h
    rw [← h1]
    constructor
    · intro _; exact h.1
    · intro _; omega
  · rename_i h
    rw [← h1]
    constructor
    · intro h0; exact absurd rfl h0
    · intro h0; exact absurd ⟨h0, h2⟩ h

/-- What `evaluate_guess` computes for a lowercase secret and a lowercase guess
of the same length. -/
theorem evaluate_eq (secret guess : List Char) (hs : assert_lower secret = true)
    (hg : assert_lower guess = true) (hlen : secret.length = guess.length) :
    evaluate secret guess = some (decide (secret = guess),
      List.zipWith (fun s g => if s = g then to_upper g else if g ∈ secret then g else '.')
        secret guess) := by
  unfold evaluate
  simp only [hlen, hg, in_table_of_lower hs, ne_eq, not_true_eq_false, if_false,
    Bool.true_eq_false, strcmp_eq_zero_iff]
  congr 2
  apply List.ext_getElem?
  intro i
  simp only [List.getElem?_zipWith]
  cases hsi : secret[i]? with
  | none => simp
  | some s =>
    cases hgi : guess[i]? with
    | none => simp
    | some g =>
      have hmem : g ∈ guess := List.mem_iff_getElem?.2 ⟨i, hgi⟩
      have := common_letters_ne_zero secret guess hs hg g hmem
      simp only [result_char, Option.map_some', Option.bind_some]
      by_cases h : s = g
      · rw [if_pos h, if_pos h]
      · rw [if_neg h, if_neg h]
        by_cases h2 : g ∈ secret
        · rw [if_pos h2, if_pos (this.2 h2)]
        · rw [if_neg h2, if_neg (fun hh => h2 (this.1 hh))]

/-- The character written at one position, decided by the three cases. -/
theorem feedback_char_cases (secret : List Char) (s g : Char) (hs : s ∈ secret)
    (hg : is_lower g = true) :
    ((if s = g then to_upper g else if g ∈ secret then g else '.') = to_upper g ↔ g = s) ∧
    ((if s = g then to_upper g else if g ∈ secret then g else '.') = g ↔ g ≠ s ∧ g ∈ secret) ∧
    ((if s = g then to_upper g else if g ∈ secret then g else '.') = '.' ↔ g ∉ secret) := by
  obtain ⟨h1, h2, h3, -⟩ := to_upper_facts g hg
  by_cases h : s = g
  · subst h
    rw [if_pos rfl]
    exact ⟨⟨fun _ => rfl, fun _ => rfl⟩, ⟨fun h => absurd h h1, fun h => absurd rfl h.1⟩,
      ⟨fun h => absurd h h2, fun h => absurd hs h⟩⟩
  · have h' : g ≠ s := fun e => h e.symm
    by_cases hm : g ∈ secret
    · rw [if_neg h, if_pos hm]
      exact ⟨⟨fun e => absurd e.symm h1, fun e => absurd e h'⟩, ⟨fun _ => ⟨h', hm⟩, fun _ => rfl⟩,
        ⟨fun e => absurd e h3, fun e => absurd hm e⟩⟩
    · rw [if_neg h, if_neg hm]
      exact ⟨⟨fun e => absurd e.symm h2, fun e => absurd e h'⟩,
        ⟨fun e => absurd e.symm h3, fun e => absurd e.2 hm⟩, ⟨fun _ => hm, fun _ => rfl⟩⟩

/-- For a lowercase secret `S` and a lowercase guess `G` of the same length, the
characters that `evaluate_guess` writes: there are as many as the guess has
letters, and position `i` holds the uppercase of `G[i]` iff `G[i] = S[i]`, holds
`G[i]` itself iff `G[i] ≠ S[i]` and `G[i]` occurs in `S`, and holds a period iff
`G[i]` does not occur in `S`. -/
theorem evaluate_feedback (S G : List Char) (hS : assert_lower S = true)
    (hG : assert_lower G = true) (hlen : S.length = G.length) :
    ∃ b res, evaluate S G = some (b, res) ∧ res.length = G.length ∧
      ∀ (i : Nat) (g s : Char), G[i]? = some g → S[i]? = some s →
        (res[i]? = some (to_upper g) ↔ g = s) ∧
        (res[i]? = some g ↔ g ≠ s ∧ g ∈ S) ∧
        (res[i]? = some '.' ↔ g ∉ S) := by
  refine ⟨_, _, evaluate_eq S G hS hG hlen, by simp [hlen], ?_⟩
  intro i g s hg hs
  have hgl : is_lower g = true := by
    simp only [assert_lower, List.all_eq_true] at hG
    exact hG g (List.mem_iff_getElem?.2 ⟨i, hg⟩)
  have hsm : s ∈ S := List.mem_iff_getElem?.2 ⟨i, hs⟩
  simp only [List.getElem?_zipWith, hs, hg, Option.map_some', Option.bind_some,
    Option.some.injEq]
  exact feedback_char_cases S s g hsm hgl

/-- The returned boolean is true iff the secret equals the guess, and then
every written character is the uppercase of the guess letter. -/
theorem evaluate_exact_match (S G : List Char) (hS : assert_lower S = true)
    (hG : assert_lower G = true) (hlen : S.length = G.length) :
    ∃ b res, evaluate S G = some (b, res) ∧ (b = true ↔ S = G) ∧
      (b = true → res = G.map to_upper) := by
  refine ⟨_, _, evaluate_eq S G hS hG hlen, by simp, ?_⟩
  intro h
  have h : S = G := by simpa using h
  subst h
  apply List.ext_getElem?
  intro i
  simp only [List.getElem?_zipWith, List.getElem?_map]
  cases S[i]? <;> simp

/-- A call of `evaluate_guess` has a result exactly when the previous contents
of the buffer pass the assertion of line 42, the buffer has room for the
characters of the guess and the assertions on `secret` and `guess` hold; the
buffer then holds the written characters followed by its previous contents
from index `length` on. -/
theorem evaluate_guess_iff (S G buffer out : List Char) (b : Bool) :
    evaluate_guess S G buffer = some (b, out) ↔
      (∃ n, strlen buffer = some n ∧ assert_result (buffer.take n) = true) ∧
      G.length ≤ buffer.length ∧
      ∃ written, evaluate S G = some (b, written) ∧
        out = written ++ buffer.drop G.length := by
  unfold evaluate_guess
  cases hn : strlen buffer with
  | none => simp
  | some n =>
    by_cases ha : assert_result (buffer.take n) = false
    · simp [ha]
    · have ha' : assert_result (buffer.take n) = true := by simpa using ha
      by_cases hsz : buffer.length < G.length
      · simp only [ha', hsz, if_true, Bool.true_eq_false, if_false]
        constructor
        · intro h; exact absurd h (by simp)
        · rintro ⟨-, h, -⟩; omega
      · simp only [ha', hsz, if_false, Bool.true_eq_false]
        cases he : evaluate S G with
        | none => simp
        | some p =>
          obtain ⟨b', written⟩ := p
          constructor
          · intro h
            simp only [Option.some.injEq, Prod.mk.injEq] at h
            exact ⟨⟨n, rfl, ha'⟩, by omega, written, by rw [h.1], h.2.symm⟩
          · rintro ⟨-, -, w, hw, hout⟩
            simp only [Option.some.injEq, Prod.mk.injEq] at hw
            rw [hout, hw.1, hw.2]

/-- `strlen` of a buffer that starts with a NUL. -/
theorem strlen_zeroed (n : Nat) : strlen (List.replicate (n + 1) (Char.ofNat 0)) = some 0 := by
  rw [List.replicate_succ, strlen, if_pos rfl]

/-- The two-argument `evaluate` is the call of `evaluate_guess` on a zeroed
buffer `char result[length + 1]`: the call leaves the written characters
followed by the NUL at index `length`. -/
theorem evaluate_guess_zeroed (S G res : List Char) (b : Bool) :
    evaluate_guess S G (List.replicate (G.length + 1) (Char.ofNat 0))
      = some (b, res ++ [Char.ofNat 0]) ↔ evaluate S G = some (b, res) := by
  have hdrop : (List.replicate (G.length + 1) (Char.ofNat 0)).drop G.length
      = [Char.ofNat 0] := by
    rw [List.drop_replicate]
    have h1 : G.length + 1 - G.length = 1 := by omega
    rw [h1]
    rfl
  rw [evaluate_guess_iff, hdrop]
  constructor
  · rintro ⟨-, -, written, hw, hout⟩
    rw [← List.append_cancel_right hout] at hw
    exact hw
  · intro h
    exact ⟨⟨0, strlen_zeroed G.length, rfl⟩, by rw [List.length_replicate]; omega, res, h, rfl⟩

/-- A character of the guess range of the buffer after the call is the
character written there. -/
theorem getElem?_written (written rest : List Char) (i : Nat) (c : Char)
    (h : i < written.length) : (written ++ rest)[i]? = some c ↔ written[i]? = some c := by
  rw [List.getElem?_append_left h]

/-- What `evaluate_guess` does when the previous contents of the buffer pass the
assertion of line 42 and the buffer has room for the guess: for a lowercase
secret `S` and a lowercase guess `G` of the same length the call has a result,
the buffer keeps its size and its contents from index `length` on, and
position `i` of the guess range holds the uppercase of `G[i]` iff
`G[i] = S[i]`, holds `G[i]` itself iff `G[i] ≠ S[i]` and `G[i]` occurs in `S`,
and holds a period iff `G[i]` does not occur in `S`. -/
theorem evaluate_guess_feedback (S G buffer : List Char) (n : Nat)
    (hS : assert_lower S = true) (hG : assert_lower G = true) (hlen : S.length = G.length)
    (hn : strlen buffer = some n) (hres : assert_result (buffer.take n) = true)
    (hsize : G.length ≤ buffer.length) :
    ∃ b out, evaluate_guess S G buffer = some (b, out) ∧ out.length = buffer.length ∧
      (∀ (i : Nat), G.length ≤ i → out[i]? = buffer[i]?) ∧
      ∀ (i : Nat) (g s : Char), G[i]? = some g → S[i]? = some s →
        (out[i]? = some (to_upper g) ↔ g = s) ∧
        (out[i]? = some g ↔ g ≠ s ∧ g ∈ S) ∧
        (out[i]? = some '.' ↔ g ∉ S) := by
  obtain ⟨b, res, hres', hrl, hpos⟩ := evaluate_feedback S G hS hG hlen
  refine ⟨b, res ++ buffer.drop G.length,
    (evaluate_guess_iff S G buffer _ b).2 ⟨⟨n, hn, hres⟩, hsize, res, hres', rfl⟩, ?_, ?_, ?_⟩
  · rw [List.length_append, List.length_drop, hrl]; omega
  · intro i hi
    rw [List.getElem?_append_right (by omega), List.getElem?_drop, hrl]
    congr 1
    omega
  · intro i g s hg hs
    have hi : i < res.length := by
      rw [hrl]
      by_contra hc
      rw [List.getElem?_eq_none (by omega)] at hg
      exact absurd hg (by simp)
    rw [getElem?_written res _ i _ hi, getElem?_written res _ i _ hi,
      getElem?_written res _ i _ hi]
    exact hpos i g s hg hs

/-- The examples of `wordle.h` on a buffer `char result[6]` that holds the empty
string, and the second call on the buffer left by the first. -/
theorem evaluate_guess_feedback_examples :
    evaluate_guess "apple".toList "paper".toList (List.replicate 6 (Char.ofNat 0))
      = some (false, "paPe.".toList ++ [Char.ofNat 0]) ∧
    evaluate_guess "place".toList "paper".toList ("paPe.".toList ++ [Char.ofNat 0])
      = some (false, "Pape.".toList ++ [Char.ofNat 0]) ∧
    ∃ b out, evaluate_guess "apple".toList "paper".toList (List.replicate 6 (Char.ofNat 0))
        = some (b, out) ∧
      out.length = (List.replicate 6 (Char.ofNat 0)).length ∧
      (∀ (i : Nat), "paper".toList.length ≤ i →
        out[i]? = (List.replicate 6 (Char.ofNat 0))[i]?) ∧
      ∀ (i : Nat) (g s : Char), "paper".toList[i]? = some g → "apple".toList[i]? = some s →
        (out[i]? = some (to_upper g) ↔ g = s) ∧
        (out[i]? = some g ↔ g ≠ s ∧ g ∈ "apple".toList) ∧
        (out[i]? = some '.' ↔ g ∉ "apple".toList) :=
  ⟨by decide, by decide,
    evaluate_guess_feedback "apple".toList "paper".toList (List.replicate 6 (Char.ofNat 0)) 0
      (by decide) (by decide) (by decide) (by decide) (by decide) (by decide)⟩

/-- C2 fails on the code.  With secret "apple" and guess "paper", both lowercase
and of length 5, the claim and `wordle.h` give the result "paPe."; but on a
buffer `char result[6]` that holds "!!" the call stops at the assertion on the
previous contents of the buffer and writes nothing, on a buffer without a NUL
`strlen` leaves the buffer, and on a buffer that holds "ABCDEFGH" the call
writes five characters and no NUL, which leaves the string "paPe.FGH" of
length 8. -/
theorem evaluate_guess_feedback_fails :
    assert_lower "apple".toList = true ∧ assert_lower "paper".toList = true ∧
    evaluate_guess "apple".toList "paper".toList
      ("!!".toList ++ List.replicate 4 (Char.ofNat 0)) = none ∧
    evaluate_guess "apple".toList "paper".toList "ABCDEF".toList = none ∧
    evaluate_guess "apple".toList "paper".toList ("ABCDEFGH".toList ++ [Char.ofNat 0])
      = some (false, "paPe.FGH".toList ++ [Char.ofNat 0]) ∧
    strlen ("paPe.FGH".toList ++ [Char.ofNat 0]) = some 8 := by
  decide

/-- What `evaluate_guess` returns when the previous contents of the buffer pass
the assertion of line 42 and the buffer has room for the guess: true iff the
secret equals the guess, and then every position of the guess range holds the
uppercase of the guess letter. -/
theorem evaluate_guess_exact_match (S G buffer : List Char) (n : Nat)
    (hS : assert_lower S = true) (hG : assert_lower G = true) (hlen : S.length = G.length)
    (hn : strlen buffer = some n) (hres : assert_result (buffer.take n) = true)
    (hsize : G.length ≤ buffer.length) :
    ∃ b out, evaluate_guess S G buffer = some (b, out) ∧ (b = true ↔ S = G) ∧
      (b = true → out.take G.length = G.map to_upper) := by
  obtain ⟨b, res, hres', hb, hup⟩ := evaluate_exact_match S G hS hG hlen
  refine ⟨b, res ++ buffer.drop G.length,
    (evaluate_guess_iff S G buffer _ b).2 ⟨⟨n, hn, hres⟩, hsize, res, hres', rfl⟩, hb, ?_⟩
  intro h
  rw [hup h]
  have hl : G.length = (G.map to_upper).length := by simp
  rw [hl, List.take_left]

/-- The call with secret "place" and guess "place" on a buffer that holds the
empty string. -/
theorem evaluate_guess_exact_match_examples :
    evaluate_guess "place".toList "place".toList (List.replicate 6 (Char.ofNat 0))
      = some (true, "PLACE".toList ++ [Char.ofNat 0]) ∧
    ∃ b out, evaluate_guess "place".toList "place".toList (List.replicate 6 (Char.ofNat 0))
        = some (b, out) ∧
      (b = true ↔ "place".toList = "place".toList) ∧
      (b = true → out.take "place".toList.length = "place".toList.map to_upper) :=
  ⟨by decide,
    evaluate_guess_exact_match "place".toList "place".toList
      (List.replicate 6 (Char.ofNat 0)) 0
      (by decide) (by decide) (by decide) (by decide) (by decide) (by decide)⟩

/-- C3 fails on the code.  With the lowercase secret "place" and the equal guess
"place" the claim gives the return value true and the result "PLACE"; but on a
buffer `char result[6]` that holds "!!" the call stops at the assertion on the
previous contents of the buffer and returns nothing, while on a buffer that
holds the empty string it returns true. -/
theorem evaluate_guess_exact_match_fails :
    assert_lower "place".toList = true ∧
    evaluate_guess "place".toList "place".toList
      ("!!".toList ++ List.replicate 4 (Char.ofNat 0)) = none ∧
    evaluate_guess "place".toList "place".toList (List.replicate 6 (Char.ofNat 0))
      = some (true, "PLACE".toList ++ [Char.ofNat 0]) := by
  decide

/-! ## `find_in_list`: lemmas -/

theorem strcmp_swap (a b : List Char) : strcmp b a = - strcmp a b := by
  induction a generalizing b with
  | nil => cases b <;> simp [strcmp]
  | cons x xs ih =>
    cases b with
    | nil => simp [strcmp]
    | cons y ys =>
      simp only [strcmp]
      by_cases h : x = y
      · subst h; simp [ih]
      · have h' : ¬ y = x := fun e => h e.symm
        rw [if_neg h, if_neg h']; omega

/-- The loop invariant of the binary search on a sorted list of at most
`2 ^ 30` words: the guess occurs neither below `low` nor above `high`. -/
theorem find_in_list_loop_sorted (guess : List Char) (word_list : List (List Char))
    (hsorted : word_list.Pairwise (fun a b => strcmp a b ≤ 0))
    (hcap : word_list.length ≤ 1073741824) :
    ∀ (fuel : Nat) (low high : Int), 0 ≤ low → high < word_list.length →
      high - low + 1 ≤ fuel →
      (∀ (i : Nat), (i : Int) < low → word_list[i]? ≠ some guess) →
      (∀ (i : Nat), high < (i : Int) → word_list[i]? ≠ some guess) →
      ∃ r, find_in_list_loop guess word_list fuel low high = some r ∧
        ((r = -1 ∧ guess ∉ word_list) ∨
         (0 ≤ r ∧ r < word_list.length ∧ word_list[r.toNat]? = some guess)) := by
  intro fuel
  induction fuel with
  | zero =>
    intro low high h0 h1 h2 hl hh
    have hlt : ¬ low ≤ high := by omega
    refine ⟨-1, by simp [find_in_list_loop, hlt], Or.inl ⟨rfl, ?_⟩⟩
    intro hmem
    obtain ⟨i, hi⟩ := List.mem_iff_getElem?.1 hmem
    by_cases h : (i : Int) < low
    · exact hl i h hi
    · exact hh i (by omega) hi
  | succ n ih =>
    intro low high h0 h1 h2 hl hh
    unfold find_in_list_loop
    by_cases hle : low ≤ high
    · rw [if_pos hle]
      have hov : ¬ (2147483647 : Int) < low + high := by omega
      rw [if_neg hov]
      have hm0 : ¬ (low + high) / 2 < 0 := by omega
      have hmlt : ((low + high) / 2).toNat < word_list.length := by omega
      simp only [hm0, if_false]
      rw [List.getElem?_eq_getElem hmlt]
      simp only
      by_cases he : strcmp guess word_list[((low + high) / 2).toNat] = 0
      · rw [if_pos he]
        refine ⟨_, rfl, Or.inr ⟨by omega, by omega, ?_⟩⟩
        rw [List.getElem?_eq_getElem hmlt, ((strcmp_eq_zero_iff _ _).1 he)]
      · rw [if_neg he]
        by_cases hgt : strcmp guess word_list[((low + high) / 2).toNat] > 0
        · rw [if_pos hgt]
          apply ih _ _ (by omega) h1 (by omega) _ hh
          intro i hi hget
          have hilt : i < word_list.length := by
            by_contra hc
            rw [List.getElem?_eq_none (by omega)] at hget
            exact absurd hget (by simp)
          rw [List.getElem?_eq_getElem hilt] at hget
          have hget : word_list[i] = guess := by simpa using hget
          by_cases hlt : i < ((low + high) / 2).toNat
          · have := List.pairwise_iff_getElem.1 hsorted i _ hilt hmlt hlt
            rw [hget] at this
            omega
          · have hieq : i = ((low + high) / 2).toNat := by omega
            subst hieq
            rw [hget] at he
            exact he ((strcmp_eq_zero_iff _ _).2 rfl)
        · rw [if_neg hgt]
          apply ih _ _ h0 (by omega) (by omega) hl
          intro i hi hget
          have hilt : i < word_list.length := by
            by_contra hc
            rw [List.getElem?_eq_none (by omega)] at hget
            exact absurd hget (by simp)
          rw [List.getElem?_eq_getElem hilt] at hget
          have hget : word_list[i] = guess := by simpa using hget
          by_cases hlt : ((low + high) / 2).toNat < i
          · have := List.pairwise_iff_getElem.1 hsorted _ i hmlt hilt hlt
            rw [hget, strcmp_swap] at this
            omega
          · have hieq : i = ((low + high) / 2).toNat := by omega
            subst hieq
            rw [hget] at he
            exact he ((strcmp_eq_zero_iff _ _).2 rfl)
    · rw [if_neg hle]
      refine ⟨-1, rfl, Or.inl ⟨rfl, ?_⟩⟩
      intro hmem
      obtain ⟨i, hi⟩ := List.mem_iff_getElem?.1 hmem
      by_cases h : (i : Int) < low
      · exact hl i h hi
      · exact hh i (by omega) hi

/-- What `find_in_list` does on a word list of at most `2 ^ 30` words sorted in
ascending `strcmp` order, for a lowercase guess: it returns a value `r`; if the
guess occurs in the list then `r` is an index with `0 ≤ r < num_words` and
`word_list[r] = guess`; `r = -1` iff the guess does not occur in the list; for
the empty list `r = -1`. -/
theorem find_in_list_sorted (guess : List Char) (word_list : List (List Char))
    (hsorted : word_list.Pairwise (fun a b => strcmp a b ≤ 0))
    (hcap : word_list.length ≤ 1073741824)
    (hguess : assert_lower guess = true) :
    ∃ r, find_in_list guess word_list = some r ∧
      (guess ∈ word_list →
        0 ≤ r ∧ r < word_list.length ∧ word_list[r.toNat]? = some guess) ∧
      (r = -1 ↔ guess ∉ word_list) ∧
      (word_list = [] → r = -1) := by
  obtain ⟨r, hr, hcase⟩ := find_in_list_loop_sorted guess word_list hsorted hcap
    word_list.length 0
    ((word_list.length : Int) - 1) (le_refl _) (by omega) (by omega)
    (fun i hi => by omega)
    (fun i hi => by rw [List.getElem?_eq_none (by omega)]; simp)
  have hint : ¬ 2147483647 < word_list.length := by omega
  refine ⟨r, by simp [find_in_list, hguess, hr, hint], ?_, ?_, ?_⟩
  · intro hmem
    rcases hcase with ⟨-, h⟩ | h
    · exact absurd hmem h
    · exact h
  · constructor
    · intro h
      rcases hcase with ⟨-, h'⟩ | ⟨h', -, -⟩
      · exact h'
      · omega
    · intro h
      rcases hcase with ⟨h', -⟩ | ⟨-, -, h'⟩
      · exact h'
      · exact absurd (List.mem_iff_getElem?.2 ⟨_, h'⟩) h
  · intro h
    subst h
    rcases hcase with ⟨h', -⟩ | ⟨h0, h', -⟩
    · exact h'
    · simp at h'; omega

/-- The example of `wordle.h`: "goodbye" is found at index 0 of "goodbye",
"hello", "hurray". -/
theorem find_in_list_sorted_examples :
    find_in_list "goodbye".toList ["goodbye".toList, "hello".toList, "hurray".toList] = some 0 ∧
    ∃ r, find_in_list "goodbye".toList ["goodbye".toList, "hello".toList, "hurray".toList]
        = some r ∧
      ("goodbye".toList ∈ ["goodbye".toList, "hello".toList, "hurray".toList] →
        0 ≤ r ∧ r < ["goodbye".toList, "hello".toList, "hurray".toList].length ∧
          ["goodbye".toList, "hello".toList, "hurray".toList][r.toNat]? = some "goodbye".toList) ∧
      (r = -1 ↔ "goodbye".toList ∉ ["goodbye".toList, "hello".toList, "hurray".toList]) ∧
      (["goodbye".toList, "hello".toList, "hurray".toList] = [] → r = -1) :=
  ⟨by decide,
    find_in_list_sorted "goodbye".toList ["goodbye".toList, "hello".toList, "hurray".toList]
      (by decide) (by decide) (by decide)⟩

/-- An iteration of the binary search in which the `int` sum `low + high`
exceeds `INT_MAX` has no result, however many iterations are allowed. -/
theorem find_in_list_loop_overflow (guess : List Char) (word_list : List (List Char))
    (fuel : Nat) (low high : Int) (hle : low ≤ high) (hov : 2147483647 < low + high) :
    find_in_list_loop guess word_list (fuel + 1) low high = none := by
  unfold find_in_list_loop
  rw [if_pos hle, if_pos hov]

/-- An iteration of the binary search in which the guess is greater than
`word_list[mid]` continues with `low = mid + 1`. -/
theorem find_in_list_loop_greater (guess word : List Char) (word_list : List (List Char))
    (fuel : Nat) (low high : Int) (hle : low ≤ high) (hov : low + high ≤ 2147483647)
    (hmid : 0 ≤ (low + high) / 2) (hword : word_list[((low + high) / 2).toNat]? = some word)
    (hgt : strcmp guess word > 0) :
    find_in_list_loop guess word_list (fuel + 1) low high
      = find_in_list_loop guess word_list fuel ((low + high) / 2 + 1) high := by
  have hov' : ¬ (2147483647 : Int) < low + high := by omega
  have hmid' : ¬ (low + high) / 2 < 0 := by omega
  have hne : ¬ strcmp guess word = 0 := by omega
  rw [find_in_list_loop, if_pos hle, if_neg hov']
  simp only [hmid', if_false, hword, hne, hgt, if_true]

/-- The binary search on `INT_MAX` copies of one word, for a lowercase guess
greater than that word.  The first iteration has `low = 0`,
`high = 2147483646` and `mid = 1073741823` and continues with
`low = 1073741824`; in the second iteration `low + high = 3221225470` exceeds
`INT_MAX`.  The loop has no result, however many iterations are allowed. -/
theorem find_in_list_overflow (guess word : List Char) (hguess : assert_lower guess = true)
    (hgt : strcmp guess word > 0) :
    find_in_list guess (List.replicate 2147483647 word) = none ∧
    ∀ (fuel : Nat),
      find_in_list_loop guess (List.replicate 2147483647 word) (fuel + 2) 0 2147483646
        = none := by
  have hloop : ∀ (fuel : Nat),
      find_in_list_loop guess (List.replicate 2147483647 word) (fuel + 2) 0 2147483646
        = none := by
    intro fuel
    have hword : (List.replicate 2147483647 word)[(((0 : Int) + 2147483646) / 2).toNat]?
        = some word := by
      rw [List.getElem?_replicate, if_pos (by omega)]
    rw [find_in_list_loop_greater guess word _ (fuel + 1) 0 2147483646 (by omega) (by omega)
      (by omega) hword hgt]
    exact find_in_list_loop_overflow guess _ fuel _ _ (by omega) (by omega)
  refine ⟨?_, hloop⟩
  unfold find_in_list
  rw [if_neg (by rw [hguess]; exact Bool.noConfusion), List.length_replicate,
    if_neg (by omega)]
  exact hloop 2147483645

/-- C5 fails on the code.  The list of 2147483647 copies of "a" is sorted in
ascending `strcmp` order and the lowercase guess "b" does not occur in it, so
that the claim gives the result -1; but in the second iteration of the binary
search the `int` sum `low + high` is 1073741824 + 2147483646, more than
`INT_MAX`, and the call has no defined result. -/
theorem find_in_list_sorted_fails :
    (List.replicate 2147483647 "a".toList).Pairwise (fun a b => strcmp a b ≤ 0) ∧
    assert_lower "b".toList = true ∧
    "b".toList ∉ List.replicate 2147483647 "a".toList ∧
    find_in_list "b".toList (List.replicate 2147483647 "a".toList) = none ∧
    ∀ (fuel : Nat),
      find_in_list_loop "b".toList (List.replicate 2147483647 "a".toList) (fuel + 2)
        0 2147483646 = none := by
  refine ⟨?_, by decide, ?_,
    (find_in_list_overflow "b".toList "a".toList (by decide) (by decide)).1,
    (find_in_list_overflow "b".toList "a".toList (by decide) (by decide)).2⟩
  · rw [List.pairwise_replicate]
    exact Or.inr (by decide)
  · intro h
    exact absurd (List.eq_of_mem_replicate h) (by decide)

/-! ## `valid_hard_guess`: lemmas -/

theorem has_forbidden_iff (next_guess : List Char) (forbid : Char) :
    has_forbidden next_guess forbid = true ↔ forbid ∈ next_guess := by
  simp [has_forbidden]

theorem is_in_elsewhere_iff (next_guess : List Char) (letter : Char) (j : Nat) :
    is_in_elsewhere next_guess letter j = true ↔
      ∃ k, k ≠ j ∧ next_guess[k]? = some letter := by
  simp only [is_in_elsewhere, List.any_eq_true, List.mem_range, Bool.and_eq_true,
    decide_eq_true_eq]
  constructor
  · rintro ⟨k, -, h1, h2⟩
    exact ⟨k, h2, h1⟩
  · rintro ⟨k, h1, h2⟩
    refine ⟨k, ?_, h2, h1⟩
    by_contra hc
    rw [List.getElem?_eq_none (by omega)] at h2
    exact absurd h2 (by simp)

/-- The check of `valid_hard_guess` at one position of a well-formed record. -/
theorem hard_position_ok_iff (guess result next_guess : List Char) (j : Nat) (g f n : Char)
    (hg : guess[j]? = some g) (hf : result[j]? = some f) (hn : next_guess[j]? = some n)
    (hgl : is_lower g = true) (hwf : f = '.' ∨ f = g ∨ f = to_upper g) :
    hard_position_ok guess result next_guess j = true ↔
      (f = to_upper g → n = g) ∧ (f = '.' → g ∉ next_guess) ∧
      (f = g → n ≠ g ∧ ∃ k, k ≠ j ∧ next_guess[k]? = some g) := by
  obtain ⟨h1, h2, h3, h4, h5, -⟩ := to_upper_facts g hgl
  unfold hard_position_ok
  simp only [List.getD_eq_getElem?_getD, hg, hf, hn, Option.getD_some]
  rcases hwf with h | h | h
  · subst h
    rw [if_pos rfl]
    simp only [Bool.not_eq_true', ← Bool.not_eq_true, has_forbidden_iff]
    exact ⟨fun hh => ⟨fun e => absurd e.symm h2, fun _ => hh, fun e => absurd e.symm h3⟩,
      fun hh => hh.2.1 (by trivial)⟩
  · subst h
    rw [if_neg h3, if_neg h5]
    by_cases hn' : n = f
    · rw [if_pos hn']
      simp only [Bool.false_eq_true, false_iff]
      intro hh
      exact (hh.2.2 (by trivial)).1 hn'
    · rw [if_neg hn', is_in_elsewhere_iff]
      exact ⟨fun hh => ⟨fun e => absurd e.symm h1, fun e => absurd e h3, fun _ => ⟨hn', hh⟩⟩,
        fun hh => (hh.2.2 rfl).2⟩
  · subst h
    rw [if_neg h2, if_pos h4]
    simp only [decide_eq_true_eq]
    exact ⟨fun hh => ⟨fun _ => hh, fun e => absurd e h2, fun e => absurd e h1⟩,
      fun hh => hh.1 (by trivial)⟩

theorem well_formed_iff (rec : List Char × List Char) :
    well_formed rec = true ↔ rec.1.length = rec.2.length ∧ assert_lower rec.1 = true ∧
      ∀ (j : Nat) (g f : Char), rec.1[j]? = some g → rec.2[j]? = some f →
        f = '.' ∨ f = g ∨ f = to_upper g := by
  simp only [well_formed, Bool.and_eq_true, decide_eq_true_eq, List.all_eq_true,
    Bool.or_eq_true, and_assoc]
  refine and_congr_right (fun hlen => and_congr_right (fun _ => ?_))
  constructor
  · intro h j g f hg hf
    have hj : j < rec.1.length := by
      by_contra hc
      rw [List.getElem?_eq_none (by omega)] at hg
      exact absurd hg (by simp)
    have hmem : (g, f) ∈ rec.1.zip rec.2 := by
      apply List.mem_iff_getElem?.2
      exact ⟨j, by simp [List.getElem?_zip_eq_some, hg, hf]⟩
    simpa [or_assoc] using h (g, f) hmem
  · intro h p hp
    obtain ⟨j, hj⟩ := List.mem_iff_getElem?.1 hp
    rw [List.getElem?_zip_eq_some] at hj
    simpa [or_assoc] using h j p.1 p.2 hj.1 hj.2

theorem assert_record_of_well_formed (rec : List Char × List Char)
    (h : well_formed rec = true) : assert_record rec = true := by
  obtain ⟨h1, h2, h3⟩ := (well_formed_iff rec).1 h
  simp only [assert_record, Bool.and_eq_true, decide_eq_true_eq, h1, h2, true_and,
    assert_result, List.all_eq_true, Bool.or_eq_true]
  intro f hf
  obtain ⟨j, hj⟩ := List.mem_iff_getElem?.1 hf
  have hjlt : j < rec.1.length := by
    by_contra hc
    rw [List.getElem?_eq_none (by omega)] at hj
    exact absurd hj (by simp)
  have hg : rec.1[j]? = some rec.1[j] := List.getElem?_eq_getElem hjlt
  have hgl : is_lower rec.1[j] = true := by
    simp only [assert_lower, List.all_eq_true] at h2
    exact h2 _ (List.getElem_mem _)
  rcases h3 j _ f hg hj with h | h | h
  · exact Or.inr h
  · exact Or.inl (Or.inl (h ▸ hgl))
  · exact Or.inl (Or.inr (h ▸ (to_upper_facts _ hgl).2.2.2.2.2.1))

/-- The checks of `valid_hard_guess` over all positions of a well-formed record. -/
theorem hard_record_ok_iff (rec : List Char × List Char) (next_guess : List Char)
    (hwf : well_formed rec = true) (hlen : rec.1.length = next_guess.length) :
    hard_record_ok rec next_guess = true ↔
      ∀ (j : Nat) (g f : Char), rec.1[j]? = some g → rec.2[j]? = some f →
        (f = to_upper g → next_guess[j]? = some g) ∧ (f = '.' → g ∉ next_guess) ∧
        (f = g → next_guess[j]? ≠ some g ∧ ∃ k, k ≠ j ∧ next_guess[k]? = some g) := by
  obtain ⟨h1, h2, h3⟩ := (well_formed_iff rec).1 hwf
  simp only [assert_lower, List.all_eq_true] at h2
  simp only [hard_record_ok, List.all_eq_true, List.mem_range]
  constructor
  · intro h j g f hg hf
    have hj : j < rec.1.length := by
      by_contra hc
      rw [List.getElem?_eq_none (by omega)] at hg
      exact absurd hg (by simp)
    have hn : next_guess[j]? = some next_guess[j] := List.getElem?_eq_getElem (by omega)
    have := (hard_position_ok_iff rec.1 rec.2 next_guess j g f _ hg hf hn
      (h2 g (List.mem_iff_getElem?.2 ⟨j, hg⟩)) (h3 j g f hg hf)).1 (h j hj)
    rw [hn]
    simpa using this
  · intro h j hj
    have hg : rec.1[j]? = some rec.1[j] := List.getElem?_eq_getElem hj
    have hf : rec.2[j]? = some rec.2[j] := List.getElem?_eq_getElem (by omega)
    have hn : next_guess[j]? = some next_guess[j] := List.getElem?_eq_getElem (by omega)
    apply (hard_position_ok_iff rec.1 rec.2 next_guess j _ _ _ hg hf hn
      (h2 _ (List.getElem_mem _)) (h3 j _ _ hg hf)).2
    have := h j _ _ hg hf
    rw [hn] at this
    simpa using this

/-- C4: for a history of well-formed records of the length of a lowercase
`next_guess`, `valid_hard_guess` returns true iff for every record `(G, F)` and
position `j`: `F[j]` Correct implies `next_guess[j] = G[j]`; `F[j]` Absent
implies `G[j]` occurs nowhere in `next_guess`; `F[j]` Present implies
`next_guess[j] ≠ G[j]` and `G[j]` occurs in `next_guess` at a position other
than `j`. -/
theorem valid_hard_guess_iff (history : History) (next_guess : List Char)
    (hwf : ∀ rec ∈ history, well_formed rec = true ∧ rec.1.length = next_guess.length)
    (hnext : assert_lower next_guess = true) :
    ∃ b, valid_hard_guess history next_guess = some b ∧
      (b = true ↔ ∀ rec ∈ history, ∀ (j : Nat) (g f : Char),
        rec.1[j]? = some g → rec.2[j]? = some f →
          (f = to_upper g → next_guess[j]? = some g) ∧ (f = '.' → g ∉ next_guess) ∧
          (f = g → next_guess[j]? ≠ some g ∧ ∃ k, k ≠ j ∧ next_guess[k]? = some g)) := by
  induction history with
  | nil => exact ⟨true, rfl, by simp⟩
  | cons rec rest ih =>
    obtain ⟨b, hb, hiff⟩ := ih (fun r hr => hwf r (List.mem_cons_of_mem _ hr))
    obtain ⟨hw, hlen⟩ := hwf rec (List.mem_cons_self _ _)
    have hrec := hard_record_ok_iff rec next_guess hw hlen
    unfold valid_hard_guess
    simp only [assert_record_of_well_formed rec hw, hlen, hnext, Bool.true_eq_false,
      if_false, decide_True]
    by_cases hok : hard_record_ok rec next_guess = true
    · refine ⟨b, by simp [hok, hb], ?_⟩
      rw [hiff]
      constructor
      · intro h r hr
        rcases List.mem_cons.1 hr with e | e
        · subst e; exact hrec.1 hok
        · exact h r e
      · intro h r hr
        exact h r (List.mem_cons_of_mem _ hr)
    · refine ⟨false, by simp [hok], ?_⟩
      simp only [Bool.false_eq_true, false_iff]
      intro h
      exact hok (hrec.2 (h rec (List.mem_cons_self _ _)))

/-- C4, the examples of `wordle.h`: with the history ("apple", ".pp.."),
"touch" is rejected, "pouch" is accepted and "spout" is rejected. -/
theorem valid_hard_guess_iff_witness :
    valid_hard_guess [("apple".toList, ".pp..".toList)] "touch".toList = some false ∧
    valid_hard_guess [("apple".toList, ".pp..".toList)] "pouch".toList = some true ∧
    valid_hard_guess [("apple".toList, ".pp..".toList)] "spout".toList = some false ∧
    ∃ b, valid_hard_guess [("apple".toList, ".pp..".toList)] "pouch".toList = some b ∧
      (b = true ↔ ∀ rec ∈ [("apple".toList, ".pp..".toList)], ∀ (j : Nat) (g f : Char),
        rec.1[j]? = some g → rec.2[j]? = some f →
          (f = to_upper g → "pouch".toList[j]? = some g) ∧ (f = '.' → g ∉ "pouch".toList) ∧
          (f = g → "pouch".toList[j]? ≠ some g ∧ ∃ k, k ≠ j ∧ "pouch".toList[k]? = some g)) :=
  ⟨by decide, by decide, by decide,
    valid_hard_guess_iff [("apple".toList, ".pp..".toList)] "pouch".toList
      (by decide) (by decide)⟩

/-! ## `available_letters`: lemmas -/

theorem set_range_foldl (f : Nat → Char) (n : Nat) (a : List Char) (hn : n ≤ a.length) :
    ((List.range n).foldl (fun a i => a.set i (f i)) a).length = a.length ∧
    ∀ i, ((List.range n).foldl (fun a i => a.set i (f i)) a)[i]? =
      if i < n then some (f i) else a[i]? := by
  induction n with
  | zero => simp
  | succ m ih =>
    obtain ⟨h1, h2⟩ := ih (by omega)
    rw [List.range_succ, List.foldl_append]
    simp only [List.foldl_cons, List.foldl_nil, List.length_set, h1, true_and]
    intro i
    rw [List.getElem?_set, h2 i]
    by_cases hi : m = i
    · subst hi; simp [h1]; omega
    · have : (i < m + 1) = (i < m) := by apply propext; omega
      simp [hi, this]

theorem init_alphabet_spec (alphabet : List Char) (h : 27 ≤ alphabet.length) :
    (init_alphabet alphabet).length = alphabet.length ∧
    (∀ (c : Char), is_lower c = true → (init_alphabet alphabet)[letter_index c]? = some c) ∧
    (∀ i, 26 ≤ i → (init_alphabet alphabet)[i]? = alphabet[i]?) := by
  obtain ⟨h1, h2⟩ := set_range_foldl (fun i => Char.ofNat ('a'.toNat + i)) 26 alphabet (by omega)
  have h2' : ∀ i, (init_alphabet alphabet)[i]? =
      if i < 26 then some (Char.ofNat ('a'.toNat + i)) else alphabet[i]? := h2
  refine ⟨h1, ?_, ?_⟩
  · intro c hc
    rw [h2', if_pos (letter_index_lt c hc)]
    have := (is_lower_iff c).1 hc
    have e : 'a'.toNat + letter_index c = c.toNat := by
      simp [letter_index]; omega
    rw [e, Char.ofNat_toNat]
  · intro i hi
    rw [h2', if_neg (by omega)]

theorem mark_letter_length (a : List Char) (p : Char × Char) :
    (mark_letter a p).length = a.length := by
  unfold mark_letter
  split <;> simp

theorem mark_letter_getElem? (a : List Char) (p : Char × Char) (i : Nat) :
    (mark_letter a p)[i]? =
      if letter_index p.1 = i ∧ i < a.length then some (if p.2 = '.' then '.' else to_upper p.1)
      else a[i]? := by
  unfold mark_letter
  by_cases h : letter_index p.1 = i ∧ i < a.length
  · rw [if_pos h]
    split <;> rw [List.getElem?_set] <;> simp [h.1, h.2]
  · rw [if_neg h]
    split <;> rw [List.getElem?_set] <;> split <;> simp_all <;>
      rw [if_neg (by omega), List.getElem?_eq_none (by omega)]

theorem mark_letters_length (ps : List (Char × Char)) (a : List Char) :
    (ps.foldl mark_letter a).length = a.length := by
  induction ps generalizing a with
  | nil => rfl
  | cons p ps ih => rw [List.foldl_cons, ih, mark_letter_length]

/-- The entry of a lowercase letter after the marking loop: the mark of the
last occurrence of the letter, or the previous entry if there is none. -/
theorem mark_letters_spec (ps : List (Char × Char)) (a : List Char) (h : 27 ≤ a.length)
    (hps : ∀ p ∈ ps, is_lower p.1 = true) (c : Char) (hc : is_lower c = true) :
    (ps.foldl mark_letter a)[letter_index c]? =
      match (ps.filter (fun p => decide (p.1 = c))).getLast? with
      | none => a[letter_index c]?
      | some p => some (if p.2 = '.' then '.' else to_upper c) := by
  induction ps using List.reverseRecOn with
  | nil => simp
  | append_singleton ps p ih =>
    have ih := ih (fun q hq => hps q (List.mem_append_left _ hq))
    have hp : is_lower p.1 = true := hps p (by simp)
    rw [List.foldl_append, List.filter_append]
    simp only [List.foldl_cons, List.foldl_nil]
    have hlen := mark_letters_length ps a
    have hlt := letter_index_lt c hc
    by_cases hpc : p.1 = c
    · have : List.filter (fun p => decide (p.1 = c)) [p] = [p] := by simp [hpc]
      rw [this, List.getLast?_append]
      simp only [List.getLast?_singleton, Option.or_some]
      rw [mark_letter_getElem?, if_pos ⟨by rw [hpc], by omega⟩, hpc]
    · have : List.filter (fun p => decide (p.1 = c)) [p] = [] := by simp [hpc]
      rw [this, List.append_nil, ← ih]
      have hne : letter_index p.1 ≠ letter_index c :=
        fun e => hpc (letter_index_inj hp ((is_lower_iff c).1 hc).1 e)
      rw [mark_letter_getElem?, if_neg (fun e => hne e.1)]

theorem mark_letters_high (ps : List (Char × Char)) (a : List Char)
    (hps : ∀ p ∈ ps, is_lower p.1 = true) (i : Nat) (hi : 26 ≤ i) :
    (ps.foldl mark_letter a)[i]? = a[i]? := by
  induction ps generalizing a with
  | nil => rfl
  | cons p ps ih =>
    rw [List.foldl_cons, ih _ (fun q hq => hps q (List.mem_cons_of_mem _ hq))]
    have := letter_index_lt p.1 (hps p (List.mem_cons_self _ _))
    rw [mark_letter_getElem?, if_neg (fun e => by omega)]

theorem mark_records_eq (history : History) (a : List Char) :
    history.foldl mark_record a = (occurrences history).foldl mark_letter a := by
  induction history generalizing a with
  | nil => rfl
  | cons rec rest ih =>
    simp only [occurrences, List.map_cons, List.flatten_cons, List.foldl_cons, List.foldl_append]
    rw [ih]
    rfl

theorem mem_occurrences (history : History) (p : Char × Char) :
    p ∈ occurrences history ↔ ∃ rec ∈ history, p ∈ rec.1.zip rec.2 := by
  simp only [occurrences, List.mem_flatten, List.mem_map]
  constructor
  · rintro ⟨l, ⟨rec, hrec, rfl⟩, hp⟩
    exact ⟨rec, hrec, hp⟩
  · rintro ⟨rec, hrec, hp⟩
    exact ⟨_, ⟨rec, hrec, rfl⟩, hp⟩

theorem mem_zip_of_mem_left (g : List Char) (r : List Char) (hlen : g.length = r.length)
    (c : Char) (hc : c ∈ g) : ∃ f, (c, f) ∈ g.zip r := by
  obtain ⟨j, hj⟩ := List.mem_iff_getElem?.1 hc
  have hjlt : j < g.length := by
    by_contra hcon
    rw [List.getElem?_eq_none (by omega)] at hj
    exact absurd hj (by simp)
  refine ⟨r[j], List.mem_iff_getElem?.2 ⟨j, ?_⟩⟩
  rw [List.getElem?_zip_eq_some]
  exact ⟨hj, List.getElem?_eq_getElem (by omega)⟩

theorem occurrences_lower (history : History)
    (hrec : ∀ rec ∈ history, assert_record rec = true) :
    ∀ p ∈ occurrences history, is_lower p.1 = true := by
  intro p hp
  obtain ⟨rec, hr, hz⟩ := (mem_occurrences history p).1 hp
  have := hrec rec hr
  simp only [assert_record, Bool.and_eq_true, assert_lower, List.all_eq_true] at this
  exact this.1.2 p.1 (List.of_mem_zip hz).1

theorem last_occurrence_none (history : History)
    (hrec : ∀ rec ∈ history, assert_record rec = true) (c : Char) :
    last_occurrence history c = none ↔ ∀ rec ∈ history, c ∉ rec.1 := by
  simp only [last_occurrence, List.getLast?_eq_none_iff, List.filter_eq_nil_iff,
    decide_eq_true_eq]
  constructor
  · intro h rec hr hc
    have hlen : rec.1.length = rec.2.length := by
      have := hrec rec hr
      simp only [assert_record, Bool.and_eq_true, decide_eq_true_eq] at this
      exact this.1.1
    obtain ⟨f, hf⟩ := mem_zip_of_mem_left rec.1 rec.2 hlen c hc
    exact h (c, f) ((mem_occurrences history _).2 ⟨rec, hr, hf⟩) rfl
  · intro h p hp hpc
    obtain ⟨rec, hr, hz⟩ := (mem_occurrences history p).1 hp
    exact h rec hr (hpc ▸ (List.of_mem_zip hz).1)

theorem last_occurrence_some (history : History) (c : Char) (p : Char × Char)
    (h : last_occurrence history c = some p) : p ∈ occurrences history ∧ p.1 = c := by
  have := List.mem_of_getLast?_eq_some h
  simpa using this

/-- The buffer after `available_letters`: the entry of a lowercase letter is
the mark of its last occurrence, or the letter itself if there is none; entry
26 is NUL; the entries behind are unchanged. -/
theorem available_letters_eq (history : History) (alphabet : List Char)
    (hrec : ∀ rec ∈ history, assert_record rec = true) (hbuf : 27 ≤ alphabet.length) :
    ∃ out, available_letters history alphabet = some out ∧ out.length = alphabet.length ∧
      out[26]? = some (Char.ofNat 0) ∧
      (∀ i, 27 ≤ i → out[i]? = alphabet[i]?) ∧
      ∀ (c : Char), is_lower c = true →
        out[letter_index c]? =
          match last_occurrence history c with
          | none => some c
          | some p => some (if p.2 = '.' then '.' else to_upper c) := by
  obtain ⟨hi1, hi2, hi3⟩ := init_alphabet_spec alphabet hbuf
  have hlow := occurrences_lower history hrec
  have hlen : (history.foldl mark_record (init_alphabet alphabet)).length = alphabet.length := by
    rw [mark_records_eq, mark_letters_length, hi1]
  have hall : history.all assert_record = true := List.all_eq_true.2 hrec
  have heq : available_letters history alphabet =
      some ((history.foldl mark_record (init_alphabet alphabet)).set 26 (Char.ofNat 0)) := by
    unfold available_letters
    rw [if_neg (by omega), hall]
    rfl
  refine ⟨_, heq, by simp [hlen], ?_, ?_, ?_⟩
  · rw [List.getElem?_set]; simp [hlen]; omega
  · intro i hi
    rw [List.getElem?_set, if_neg (by omega), mark_records_eq,
      mark_letters_high _ _ hlow i (by omega), hi3 i (by omega)]
  · intro c hc
    have hlt := letter_index_lt c hc
    rw [List.getElem?_set, if_neg (by omega), mark_records_eq,
      mark_letters_spec _ _ (by omega) hlow c hc, hi2 c hc]
    rfl

/-- C6: for a history of records with a lowercase guess and a result of the same
length, `available_letters` yields a status in which the entry of a letter `c`
is the lowercase `c` (Unknown) iff `c` occurs in no guess; otherwise the entry
is decided by the last occurrence of `c` in the history: a period (Eliminated)
if the feedback there is a period, the uppercase `c` (Confirmed) if not.  Entry
26 is the terminating NUL. -/
theorem available_letters_status (history : History) (alphabet : List Char)
    (hrec : ∀ rec ∈ history, assert_record rec = true) (hbuf : 27 ≤ alphabet.length) :
    ∃ out, available_letters history alphabet = some out ∧ out.length = alphabet.length ∧
      out[26]? = some (Char.ofNat 0) ∧
      ∀ (c : Char), is_lower c = true →
        (out[letter_index c]? = some c ↔ ∀ rec ∈ history, c ∉ rec.1) ∧
        ((∃ rec ∈ history, c ∈ rec.1) →
          ∃ p, last_occurrence history c = some p ∧ p.1 = c ∧
            out[letter_index c]? = some (if p.2 = '.' then '.' else to_upper c)) := by
  obtain ⟨out, h1, h2, h3, -, h5⟩ := available_letters_eq history alphabet hrec hbuf
  refine ⟨out, h1, h2, h3, ?_⟩
  intro c hc
  have hout := h5 c hc
  have hnone := last_occurrence_none history hrec c
  obtain ⟨u1, u2, u3, -⟩ := to_upper_facts c hc
  cases hl : last_occurrence history c with
  | none =>
    rw [hl] at hout hnone
    simp only [true_iff] at hnone
    refine ⟨⟨fun _ => hnone, fun _ => hout⟩, ?_⟩
    rintro ⟨rec, hr, hcr⟩
    exact absurd hcr (hnone rec hr)
  | some p =>
    rw [hl] at hout hnone
    simp only [false_iff, reduceCtorEq] at hnone
    refine ⟨⟨fun h => ?_, fun h => absurd h hnone⟩,
      fun _ => ⟨p, rfl, (last_occurrence_some history c p hl).2, hout⟩⟩
    rw [hout] at h
    simp only [Option.some.injEq] at h
    split at h
    · exact absurd h.symm u3
    · exact absurd h u1

/-- C6, the example of `wordle.h`: the guesses "apple", "touch" with the results
".pp..", ".OUCH" give ".bCd.fgHijk.mnOPqrs.Uvwxyz". -/
theorem available_letters_status_witness :
    available_letters [("apple".toList, ".pp..".toList), ("touch".toList, ".OUCH".toList)]
        (List.replicate 27 '?')
      = some (".bCd.fgHijk.mnOPqrs.Uvwxyz".toList ++ [Char.ofNat 0]) ∧
    ∃ out, available_letters
        [("apple".toList, ".pp..".toList), ("touch".toList, ".OUCH".toList)]
        (List.replicate 27 '?') = some out ∧
      out.length = (List.replicate 27 '?').length ∧
      out[26]? = some (Char.ofNat 0) ∧
      ∀ (c : Char), is_lower c = true →
        (out[letter_index c]? = some c ↔
          ∀ rec ∈ [("apple".toList, ".pp..".toList), ("touch".toList, ".OUCH".toList)],
            c ∉ rec.1) ∧
        ((∃ rec ∈ [("apple".toList, ".pp..".toList), ("touch".toList, ".OUCH".toList)],
            c ∈ rec.1) →
          ∃ p, last_occurrence
              [("apple".toList, ".pp..".toList), ("touch".toList, ".OUCH".toList)] c = some p ∧
            p.1 = c ∧ out[letter_index c]? = some (if p.2 = '.' then '.' else to_upper c)) :=
  ⟨by decide,
    available_letters_status
      [("apple".toList, ".pp..".toList), ("touch".toList, ".OUCH".toList)]
      (List.replicate 27 '?') (by decide) (by decide)⟩

/-! ## Histories played against a secret -/

theorem evaluate_some (secret guess result : List Char) (b : Bool)
    (hs : assert_lower secret = true) (h : evaluate secret guess = some (b, result)) :
    secret.length = guess.length ∧ assert_lower guess = true ∧
      result = List.zipWith
        (fun s g => if s = g then to_upper g else if g ∈ secret then g else '.') secret guess := by
  have hlen : secret.length = guess.length := by
    by_contra hc
    simp [evaluate, hc] at h
  have hg : assert_lower guess = true := by
    by_contra hc
    simp [evaluate, hc] at h
  rw [evaluate_eq secret guess hs hg hlen] at h
  simp only [Option.some.injEq, Prod.mk.injEq] at h
  exact ⟨hlen, hg, h.2.symm⟩

/-- The positions of a record produced by `evaluate_guess`. -/
theorem played_positions (secret guess result : List Char) (b : Bool)
    (hs : assert_lower secret = true) (h : evaluate secret guess = some (b, result))
    (j : Nat) (g f : Char) (hg : guess[j]? = some g) (hf : result[j]? = some f) :
    is_lower g = true ∧ ∃ s, secret[j]? = some s ∧
      f = (if s = g then to_upper g else if g ∈ secret then g else '.') := by
  obtain ⟨hlen, hgl, hres⟩ := evaluate_some secret guess result b hs h
  simp only [assert_lower, List.all_eq_true] at hgl
  refine ⟨hgl g (List.mem_iff_getElem?.2 ⟨j, hg⟩), ?_⟩
  have hj : j < guess.length := by
    by_contra hc
    rw [List.getElem?_eq_none (by omega)] at hg
    exact absurd hg (by simp)
  have hsj : secret[j]? = some secret[j] := List.getElem?_eq_getElem (by omega)
  refine ⟨_, hsj, ?_⟩
  rw [hres, List.getElem?_zipWith, hsj, hg] at hf
  simpa using hf.symm

theorem played_well_formed (secret guess result : List Char) (b : Bool)
    (hs : assert_lower secret = true) (h : evaluate secret guess = some (b, result)) :
    well_formed (guess, result) = true ∧ guess.length = secret.length := by
  obtain ⟨hlen, hgl, hres⟩ := evaluate_some secret guess result b hs h
  refine ⟨(well_formed_iff _).2 ⟨?_, hgl, ?_⟩, hlen.symm⟩
  · simp [hres, hlen]
  · intro j g f hg hf
    obtain ⟨-, s, -, hfe⟩ := played_positions secret guess result b hs h j g f hg hf
    rw [hfe]
    by_cases h1 : s = g
    · rw [if_pos h1]; exact Or.inr (Or.inr rfl)
    · rw [if_neg h1]
      by_cases h2 : g ∈ secret
      · rw [if_pos h2]; exact Or.inr (Or.inl rfl)
      · rw [if_neg h2]; exact Or.inl rfl

/-- In a history played against a secret, the feedback of a letter is a period
exactly when the letter does not occur in the secret. -/
theorem played_occurrence (secret : List Char) (history : History)
    (hs : assert_lower secret = true)
    (hplay : ∀ rec ∈ history, ∃ b, evaluate secret rec.1 = some (b, rec.2))
    (p : Char × Char) (hp : p ∈ occurrences history) : p.2 = '.' ↔ p.1 ∉ secret := by
  obtain ⟨rec, hr, hz⟩ := (mem_occurrences history p).1 hp
  obtain ⟨b, hb⟩ := hplay rec hr
  obtain ⟨j, hj⟩ := List.mem_iff_getElem?.1 hz
  rw [List.getElem?_zip_eq_some] at hj
  obtain ⟨hgl, s, hsj, hfe⟩ := played_positions secret rec.1 rec.2 b hs hb j p.1 p.2 hj.1 hj.2
  rw [hfe]
  exact (feedback_char_cases secret s p.1 (List.mem_iff_getElem?.2 ⟨j, hsj⟩) hgl).2.2

theorem lower_of_index (i : Nat) (hi : i < 26) :
    ∃ c, is_lower c = true ∧ letter_index c = i :=
  ⟨Char.ofNat ('a'.toNat + i), by interval_cases i <;> decide, by interval_cases i <;> decide⟩

/-- The status computed from a history played against a secret. -/
theorem available_letters_played (secret : List Char) (history : History)
    (alphabet : List Char) (hs : assert_lower secret = true)
    (hplay : ∀ rec ∈ history, ∃ b, evaluate secret rec.1 = some (b, rec.2))
    (hbuf : 27 ≤ alphabet.length) :
    ∃ out, available_letters history alphabet = some out ∧ out.length = alphabet.length ∧
      out[26]? = some (Char.ofNat 0) ∧
      (∀ i, 27 ≤ i → out[i]? = alphabet[i]?) ∧
      ∀ (c : Char), is_lower c = true →
        ((∀ rec ∈ history, c ∉ rec.1) → out[letter_index c]? = some c) ∧
        ((∃ rec ∈ history, c ∈ rec.1) → c ∈ secret →
          out[letter_index c]? = some (to_upper c)) ∧
        ((∃ rec ∈ history, c ∈ rec.1) → c ∉ secret → out[letter_index c]? = some '.') := by
  have hrec : ∀ rec ∈ history, assert_record rec = true := by
    intro rec hr
    obtain ⟨b, hb⟩ := hplay rec hr
    exact assert_record_of_well_formed rec (played_well_formed secret rec.1 rec.2 b hs hb).1
  obtain ⟨out, h1, h2, h3, h4, h5⟩ := available_letters_eq history alphabet hrec hbuf
  refine ⟨out, h1, h2, h3, h4, ?_⟩
  intro c hc
  have hout := h5 c hc
  have hnone := last_occurrence_none history hrec c
  cases hl : last_occurrence history c with
  | none =>
    rw [hl] at hout hnone
    simp only [true_iff] at hnone
    refine ⟨fun _ => hout, ?_, ?_⟩ <;>
    · rintro ⟨rec, hr, hcr⟩
      exact absurd hcr (hnone rec hr)
  | some p =>
    rw [hl] at hout hnone
    simp only [false_iff, reduceCtorEq] at hnone
    obtain ⟨hp1, hp2⟩ := last_occurrence_some history c p hl
    have hocc := played_occurrence secret history hs hplay p hp1
    rw [hp2] at hocc
    refine ⟨fun h => absurd h hnone, fun _ hin => ?_, fun _ hnin => ?_⟩
    · rw [hout]
      show some (if p.2 = '.' then '.' else to_upper c) = _
      rw [if_neg (fun e => (hocc.1 e) hin)]
    · rw [hout]
      show some (if p.2 = '.' then '.' else to_upper c) = _
      rw [if_pos (hocc.2 hnin)]

/-- C10: for a lowercase secret `S` and a history whose results are the ones
`evaluate_guess(S, G)` writes, `available_letters` marks a letter `c` Confirmed
iff `c` occurs in some guess and in `S`, Eliminated iff `c` occurs in some
guess and not in `S`, and Unknown iff `c` occurs in no guess; two occurrences
of one letter never receive conflicting marks, and every reordering of the
records gives the same buffer. -/
theorem available_letters_sound (S : List Char) (history : History) (alphabet : List Char)
    (hS : assert_lower S = true)
    (hplay : ∀ rec ∈ history, ∃ b, evaluate S rec.1 = some (b, rec.2))
    (hbuf : 27 ≤ alphabet.length) :
    ∃ out, available_letters history alphabet = some out ∧
      (∀ (c : Char), is_lower c = true →
        (out[letter_index c]? = some (to_upper c) ↔ (∃ rec ∈ history, c ∈ rec.1) ∧ c ∈ S) ∧
        (out[letter_index c]? = some '.' ↔ (∃ rec ∈ history, c ∈ rec.1) ∧ c ∉ S) ∧
        (out[letter_index c]? = some c ↔ ∀ rec ∈ history, c ∉ rec.1)) ∧
      (∀ p ∈ occurrences history, ∀ q ∈ occurrences history,
        p.1 = q.1 → (p.2 = '.' ↔ q.2 = '.')) ∧
      (∀ (reordered : History), reordered.Perm history →
        available_letters reordered alphabet = some out) := by
  obtain ⟨out, h1, h2, h3, h4, h5⟩ := available_letters_played S history alphabet hS hplay hbuf
  refine ⟨out, h1, ?_, ?_, ?_⟩
  · intro c hc
    obtain ⟨a1, a2, a3⟩ := h5 c hc
    obtain ⟨u1, u2, u3, -⟩ := to_upper_facts c hc
    by_cases hocc : ∃ rec ∈ history, c ∈ rec.1
    · have hno : ¬ ∀ rec ∈ history, c ∉ rec.1 := by
        obtain ⟨rec, hr, hcr⟩ := hocc
        exact fun h => h rec hr hcr
      by_cases hin : c ∈ S
      · rw [a2 hocc hin]
        simp only [Option.some.injEq, true_iff]
        exact ⟨⟨hocc, hin⟩, ⟨fun e => absurd e u2, fun e => absurd hin e.2⟩,
          ⟨fun e => absurd e u1, fun e => absurd e hno⟩⟩
      · rw [a3 hocc hin]
        simp only [Option.some.injEq, true_iff]
        exact ⟨⟨fun e => absurd e.symm u2, fun e => absurd e.2 hin⟩, ⟨hocc, hin⟩,
          ⟨fun e => absurd e.symm u3, fun e => absurd e hno⟩⟩
    · have hno : ∀ rec ∈ history, c ∉ rec.1 := fun rec hr hcr => hocc ⟨rec, hr, hcr⟩
      rw [a1 hno]
      simp only [Option.some.injEq, true_iff]
      exact ⟨⟨fun e => absurd e.symm u1, fun e => absurd e.1 hocc⟩,
        ⟨fun e => absurd e u3, fun e => absurd e.1 hocc⟩, hno⟩
  · intro p hp q hq hpq
    rw [played_occurrence S history hS hplay p hp, played_occurrence S history hS hplay q hq,
      hpq]
  · intro reordered hperm
    have hplay' : ∀ rec ∈ reordered, ∃ b, evaluate S rec.1 = some (b, rec.2) :=
      fun rec hr => hplay rec (hperm.mem_iff.1 hr)
    obtain ⟨out', k1, k2, k3, k4, k5⟩ :=
      available_letters_played S reordered alphabet hS hplay' hbuf
    rw [k1]
    congr 1
    apply List.ext_getElem?
    intro i
    by_cases hi : i < 26
    · obtain ⟨c, hc, hci⟩ := lower_of_index i hi
      obtain ⟨a1, a2, a3⟩ := h5 c hc
      obtain ⟨b1, b2, b3⟩ := k5 c hc
      rw [← hci]
      by_cases hocc : ∃ rec ∈ history, c ∈ rec.1
      · have hocc' : ∃ rec ∈ reordered, c ∈ rec.1 := by
          obtain ⟨rec, hr, hcr⟩ := hocc
          exact ⟨rec, hperm.mem_iff.2 hr, hcr⟩
        by_cases hin : c ∈ S
        · rw [a2 hocc hin, b2 hocc' hin]
        · rw [a3 hocc hin, b3 hocc' hin]
      · have hno : ∀ rec ∈ history, c ∉ rec.1 := fun rec hr hcr => hocc ⟨rec, hr, hcr⟩
        have hno' : ∀ rec ∈ reordered, c ∉ rec.1 := fun rec hr => hno rec (hperm.mem_iff.1 hr)
        rw [a1 hno, b1 hno']
    · by_cases hi2 : i = 26
      · rw [hi2, k3, h3]
      · rw [k4 i (by omega), h4 i (by omega)]

/-- C10 at the secret "apple" with the guesses "paper" and "touch" and the
results "paPe." and "....." that `evaluate_guess` writes for them. -/
theorem available_letters_sound_witness :
    available_letters [("paper".toList, "paPe.".toList), ("touch".toList, ".....".toList)]
        (List.replicate 27 '?')
      = some ("Ab.dEfg.ijklmn.Pq.s..vwxyz".toList ++ [Char.ofNat 0]) ∧
    ∃ out, available_letters
        [("paper".toList, "paPe.".toList), ("touch".toList, ".....".toList)]
        (List.replicate 27 '?') = some out ∧
      (∀ (c : Char), is_lower c = true →
        (out[letter_index c]? = some (to_upper c) ↔
          (∃ rec ∈ [("paper".toList, "paPe.".toList), ("touch".toList, ".....".toList)],
            c ∈ rec.1) ∧ c ∈ "apple".toList) ∧
        (out[letter_index c]? = some '.' ↔
          (∃ rec ∈ [("paper".toList, "paPe.".toList), ("touch".toList, ".....".toList)],
            c ∈ rec.1) ∧ c ∉ "apple".toList) ∧
        (out[letter_index c]? = some c ↔
          ∀ rec ∈ [("paper".toList, "paPe.".toList), ("touch".toList, ".....".toList)],
            c ∉ rec.1)) ∧
      (∀ p ∈ occurrences [("paper".toList, "paPe.".toList), ("touch".toList, ".....".toList)],
        ∀ q ∈ occurrences [("paper".toList, "paPe.".toList), ("touch".toList, ".....".toList)],
          p.1 = q.1 → (p.2 = '.' ↔ q.2 = '.')) ∧
      (∀ (reordered : History),
        reordered.Perm [("paper".toList, "paPe.".toList), ("touch".toList, ".....".toList)] →
        available_letters reordered (List.replicate 27 '?') = some out) :=
  ⟨by decide,
    available_letters_sound "apple".toList
      [("paper".toList, "paPe.".toList), ("touch".toList, ".....".toList)]
      (List.replicate 27 '?') (by decide) (by decide) (by decide)⟩

/-! ## `find_solution`: the first pass -/

theorem passes_of_empty (w g r : List Char) (h : w = [] ∨ g = [] ∨ r = []) :
    passes w g r = true := by
  rcases h with h | h | h <;> subst h
  · simp [passes]
  · cases w <;> simp [passes]
  · cases w <;> cases g <;> simp [passes]

/-- The flags after the loop over the letters of one record. -/
theorem scan_letters_flags (w g r : List Char) (st : Scan) :
    (scan_letters w g r st).is_possible = (st.is_possible && passes w g r) ∧
    (scan_letters w g r st).sol_i =
      if w = [] ∨ g = [] ∨ r = [] then st.sol_i
      else if (st.is_possible && passes w g r) = true then 1 else 0 := by
  induction w generalizing g r st with
  | nil => simp [scan_letters, passes]
  | cons wk w ih =>
    cases g with
    | nil => simp [scan_letters, passes]
    | cons gk g =>
      cases r with
      | nil => simp [scan_letters, passes]
      | cons rk r =>
        rcases st with ⟨mh, ne, s, ip⟩
        have hpe := passes_of_empty w g r
        unfold scan_letters passes position_ok
        generalize 'Z'.toNat = z
        cases ip <;> by_cases h1 : rk = '.' <;> by_cases h3 : rk.toNat ≤ z <;>
          by_cases h2 : wk = gk <;> simp [h1, h2, h3, ih] <;>
          (split <;> simp_all)

theorem marked_set (m : List Nat) (i k : Nat) :
    marked (m.set i 1) k ↔ (k = i ∧ i < m.length) ∨ marked m k := by
  unfold marked
  rw [List.getD_eq_getElem?_getD, List.getD_eq_getElem?_getD, List.getElem?_set]
  by_cases h : i = k
  · subst h
    by_cases h2 : i < m.length
    · simp [h2]
    · simp [h2, List.getElem?_eq_none (Nat.le_of_not_lt h2)]
  · have h' : ¬ k = i := fun e => h e.symm
    simp [h, h']

/-- The marking arrays after the loop over the letters of one record: they keep
their length, no entry is cleared, and an entry that is newly set belongs to a
letter of the record with the matching feedback. -/
theorem scan_letters_marks (w g r : List Char) (st : Scan) :
    (scan_letters w g r st).must_have.length = st.must_have.length ∧
    (scan_letters w g r st).not_exist.length = st.not_exist.length ∧
    (∀ k, marked st.must_have k → marked (scan_letters w g r st).must_have k) ∧
    (∀ k, marked st.not_exist k → marked (scan_letters w g r st).not_exist k) ∧
    (∀ k, marked (scan_letters w g r st).must_have k → marked st.must_have k ∨
      ∃ p ∈ g.zip r, is_present_mark p = true ∧ letter_index p.1 = k) ∧
    (∀ k, marked (scan_letters w g r st).not_exist k → marked st.not_exist k ∨
      ∃ p ∈ g.zip r, p.2 = '.' ∧ letter_index p.1 = k) := by
  induction w generalizing g r st with
  | nil =>
    have e : scan_letters [] g r st = st := by simp [scan_letters]
    rw [e]
    exact ⟨rfl, rfl, fun _ h => h, fun _ h => h, fun _ h => Or.inl h, fun _ h => Or.inl h⟩
  | cons wk w ih =>
    cases g with
    | nil => simp [scan_letters]
    | cons gk g =>
      cases r with
      | nil => simp [scan_letters]
      | cons rk r =>
        rcases st with ⟨mh, ne, s, ip⟩
        unfold scan_letters is_present_mark
        generalize hz : 'Z'.toNat = z
        by_cases h1 : rk = '.'
        · by_cases hc : wk ≠ gk ∧ ip = true
          · simp only [h1, if_true, hc, ne_eq, not_false_eq_true, and_self]
            obtain ⟨i1, i2, i3, i4, i5, i6⟩ := ih g r
              { must_have := mh, not_exist := ne.set (letter_index gk) 1, sol_i := 1,
                is_possible := true }
            refine ⟨i1, by simpa using i2, i3, ?_, ?_, ?_⟩
            · intro k hk
              exact i4 k ((marked_set _ _ _).2 (Or.inr hk))
            · intro k hk
              rcases i5 k hk with h | ⟨p, hp, hp2, hp3⟩
              · exact Or.inl h
              · exact Or.inr ⟨p, List.mem_cons_of_mem _ hp, by simpa [is_present_mark, hz] using hp2, hp3⟩
            · intro k hk
              rcases i6 k hk with h | ⟨p, hp, hp2, hp3⟩
              · rcases (marked_set _ _ _).1 h with h' | h'
                · exact Or.inr ⟨(gk, '.'), by simp, rfl, h'.1.symm⟩
                · exact Or.inl h'
              · exact Or.inr ⟨p, List.mem_cons_of_mem _ hp, hp2, hp3⟩
          · simp only [h1, if_true, hc, if_false, List.length_set, true_and]
            refine ⟨fun k hk => hk, fun k hk => (marked_set _ _ _).2 (Or.inr hk),
              fun k hk => Or.inl hk, ?_⟩
            intro k hk
            rcases (marked_set _ _ _).1 hk with h' | h'
            · exact Or.inr ⟨(gk, '.'), by simp, rfl, h'.1.symm⟩
            · exact Or.inl h'
        · by_cases h3 : rk.toNat ≤ z
          · by_cases hc : wk = gk ∧ ip = true
            · simp only [h1, if_false, h3, if_true, hc, and_self]
              obtain ⟨i1, i2, i3, i4, i5, i6⟩ := ih g r
                { must_have := mh, not_exist := ne, sol_i := 1, is_possible := true }
              refine ⟨i1, i2, i3, i4, ?_, ?_⟩
              · intro k hk
                rcases i5 k hk with h | ⟨p, hp, hp2, hp3⟩
                · exact Or.inl h
                · exact Or.inr ⟨p, List.mem_cons_of_mem _ hp, by simpa [is_present_mark, hz] using hp2, hp3⟩
              · intro k hk
                rcases i6 k hk with h | ⟨p, hp, hp2, hp3⟩
                · exact Or.inl h
                · exact Or.inr ⟨p, List.mem_cons_of_mem _ hp, hp2, hp3⟩
            · simp only [h1, if_false, h3, if_true, hc, true_and]
              exact ⟨fun k hk => hk, fun k hk => hk, fun k hk => Or.inl hk,
                fun k hk => Or.inl hk⟩
          · by_cases hc : wk ≠ gk ∧ ip = true
            · simp only [h1, if_false, h3, hc, ne_eq, not_false_eq_true, and_self, if_true]
              obtain ⟨i1, i2, i3, i4, i5, i6⟩ := ih g r
                { must_have := mh.set (letter_index gk) 1, not_exist := ne, sol_i := 1,
                  is_possible := true }
              refine ⟨by simpa using i1, i2, ?_, i4, ?_, ?_⟩
              · intro k hk
                exact i3 k ((marked_set _ _ _).2 (Or.inr hk))
              · intro k hk
                rcases i5 k hk with h | ⟨p, hp, hp2, hp3⟩
                · rcases (marked_set _ _ _).1 h with h' | h'
                  · exact Or.inr ⟨(gk, rk), by simp, by simp [h1, h3], h'.1.symm⟩
                  · exact Or.inl h'
                · exact Or.inr ⟨p, List.mem_cons_of_mem _ hp, by simpa [is_present_mark, hz] using hp2, hp3⟩
              · intro k hk
                rcases i6 k hk with h | ⟨p, hp, hp2, hp3⟩
                · exact Or.inl h
                · exact Or.inr ⟨p, List.mem_cons_of_mem _ hp, hp2, hp3⟩
            · simp only [h1, if_false, h3, hc, true_and]
              exact ⟨fun k hk => hk, fun k hk => hk, fun k hk => Or.inl hk,
                fun k hk => Or.inl hk⟩

/-- When a word that is still possible passes a record, the loop over the
letters sets the entry of every Present and of every Absent letter of the
record. -/
theorem scan_letters_complete (w g r : List Char) (st : Scan)
    (hp : st.is_possible = true) (hpass : passes w g r = true) (hlen : g.length ≤ w.length)
    (hmh : st.must_have.length = 30) (hne : st.not_exist.length = 30)
    (hg : ∀ c ∈ g, letter_index c < 30) :
    ∀ p ∈ g.zip r,
      (is_present_mark p = true → marked (scan_letters w g r st).must_have (letter_index p.1)) ∧
      (p.2 = '.' → marked (scan_letters w g r st).not_exist (letter_index p.1)) := by
  induction w generalizing g r st with
  | nil =>
    cases g with
    | nil => simp
    | cons gk g => simp at hlen
  | cons wk w ih =>
    cases g with
    | nil => simp
    | cons gk g =>
      cases r with
      | nil => simp
      | cons rk r =>
        rcases st with ⟨mh, ne, s, ip⟩
        simp only at hp hmh hne
        subst hp
        have hgk : letter_index gk < 30 := hg gk (List.mem_cons_self _ _)
        have hg' : ∀ c ∈ g, letter_index c < 30 := fun c hc => hg c (List.mem_cons_of_mem _ hc)
        have hlen' : g.length ≤ w.length := by simpa using hlen
        unfold passes at hpass
        simp only [Bool.and_eq_true] at hpass
        obtain ⟨hpos, hpass'⟩ := hpass
        unfold position_ok at hpos
        unfold scan_letters is_present_mark
        generalize hz : 'Z'.toNat = z at hpos ⊢
        intro p hp
        rw [List.zip_cons_cons, List.mem_cons] at hp
        by_cases h1 : rk = '.'
        · simp only [h1, if_true, decide_eq_true_eq] at hpos
          simp only [h1, if_true, hpos, ne_eq, not_false_eq_true, and_self]
          have hm := scan_letters_marks w g r
            { must_have := mh, not_exist := ne.set (letter_index gk) 1, sol_i := 1,
              is_possible := true }
          have hi := ih g r
            { must_have := mh, not_exist := ne.set (letter_index gk) 1, sol_i := 1,
              is_possible := true } rfl hpass' hlen' hmh (by simpa using hne) hg'
          rcases hp with hp | hp
          · subst hp
            refine ⟨fun h => by simp [h1] at h, fun _ => ?_⟩
            exact hm.2.2.2.1 _ ((marked_set _ _ _).2 (Or.inl ⟨rfl, by omega⟩))
          · have := hi p hp
            exact ⟨fun h => this.1 (by simpa [is_present_mark, hz] using h), this.2⟩
        · by_cases h3 : rk.toNat ≤ z
          · simp only [h1, if_false, h3, if_true, decide_eq_true_eq] at hpos
            simp only [h1, if_false, h3, if_true, hpos, and_self]
            have hi := ih g r
              { must_have := mh, not_exist := ne, sol_i := 1, is_possible := true }
              rfl hpass' hlen' hmh hne hg'
            rcases hp with hp | hp
            · subst hp
              exact ⟨fun h => by simp [h3] at h, fun h => absurd h h1⟩
            · have := hi p hp
              exact ⟨fun h => this.1 (by simpa [is_present_mark, hz] using h), this.2⟩
          · simp only [h1, if_false, h3, decide_eq_true_eq] at hpos
            simp only [h1, if_false, h3, hpos, ne_eq, not_false_eq_true, and_self, if_true]
            have hm := scan_letters_marks w g r
              { must_have := mh.set (letter_index gk) 1, not_exist := ne, sol_i := 1,
                is_possible := true }
            have hi := ih g r
              { must_have := mh.set (letter_index gk) 1, not_exist := ne, sol_i := 1,
                is_possible := true } rfl hpass' hlen' (by simpa using hmh) hne hg'
            rcases hp with hp | hp
            · subst hp
              refine ⟨fun _ => ?_, fun h => absurd h h1⟩
              exact hm.2.2.1 _ ((marked_set _ _ _).2 (Or.inl ⟨rfl, by omega⟩))
            · have := hi p hp
              exact ⟨fun h => this.1 (by simpa [is_present_mark, hz] using h), this.2⟩

/-- The flags after the loop over the guesses for one word. -/
theorem scan_guesses_flags (w : List Char) (history : History) (st : Scan) :
    (scan_guesses w history st).is_possible =
      (st.is_possible && history.all (fun rec => passes w rec.1 rec.2)) ∧
    (w = [] → (scan_guesses w history st).sol_i = st.sol_i) ∧
    (w ≠ [] → (∀ rec ∈ history, rec.1 ≠ [] ∧ rec.2 ≠ []) →
      (scan_guesses w history st).sol_i =
        if history = [] then st.sol_i
        else if (st.is_possible && history.all (fun rec => passes w rec.1 rec.2)) = true then 1
        else 0) := by
  induction history generalizing st with
  | nil => simp [scan_guesses]
  | cons rec rest ih =>
    obtain ⟨f1, f2⟩ := scan_letters_flags w rec.1 rec.2 st
    obtain ⟨i1, i2, i3⟩ := ih (scan_letters w rec.1 rec.2 st)
    have e : scan_guesses w (rec :: rest) st =
        scan_guesses w rest (scan_letters w rec.1 rec.2 st) := rfl
    rw [e]
    refine ⟨by rw [i1, f1, List.all_cons, Bool.and_assoc], ?_, ?_⟩
    · intro hw
      rw [i2 hw, f2, if_pos (Or.inl hw)]
    · intro hw hne
      have hrec := hne rec (List.mem_cons_self _ _)
      have hne3 : ¬ (w = [] ∨ rec.1 = [] ∨ rec.2 = []) := by
        rintro (h | h | h)
        · exact hw h
        · exact hrec.1 h
        · exact hrec.2 h
      rw [i3 hw (fun r hr => hne r (List.mem_cons_of_mem _ hr)), f1, f2,
        if_neg hne3, if_neg (List.cons_ne_nil _ _), List.all_cons, Bool.and_assoc]
      by_cases hr : rest = []
      · subst hr
        rw [if_pos rfl]
        simp
      · rw [if_neg hr]

/-- The marking arrays after the loop over the guesses for one word. -/
theorem scan_guesses_marks (w : List Char) (history : History) (st : Scan) :
    (scan_guesses w history st).must_have.length = st.must_have.length ∧
    (scan_guesses w history st).not_exist.length = st.not_exist.length ∧
    (∀ k, marked st.must_have k → marked (scan_guesses w history st).must_have k) ∧
    (∀ k, marked st.not_exist k → marked (scan_guesses w history st).not_exist k) ∧
    (∀ k, marked (scan_guesses w history st).must_have k → marked st.must_have k ∨
      ∃ p ∈ occurrences history, is_present_mark p = true ∧ letter_index p.1 = k) ∧
    (∀ k, marked (scan_guesses w history st).not_exist k → marked st.not_exist k ∨
      ∃ p ∈ occurrences history, p.2 = '.' ∧ letter_index p.1 = k) := by
  induction history generalizing st with
  | nil =>
    exact ⟨rfl, rfl, fun _ h => h, fun _ h => h, fun _ h => Or.inl h, fun _ h => Or.inl h⟩
  | cons rec rest ih =>
    obtain ⟨m1, m2, m3, m4, m5, m6⟩ := scan_letters_marks w rec.1 rec.2 st
    obtain ⟨i1, i2, i3, i4, i5, i6⟩ := ih (scan_letters w rec.1 rec.2 st)
    have e : scan_guesses w (rec :: rest) st =
        scan_guesses w rest (scan_letters w rec.1 rec.2 st) := rfl
    have hocc : ∀ p, p ∈ occurrences (rec :: rest) ↔
        p ∈ rec.1.zip rec.2 ∨ p ∈ occurrences rest := by
      intro p
      simp [occurrences]
    rw [e]
    refine ⟨i1.trans m1, i2.trans m2, fun k hk => i3 k (m3 k hk), fun k hk => i4 k (m4 k hk),
      ?_, ?_⟩
    · intro k hk
      rcases i5 k hk with h | ⟨p, hp, hp2⟩
      · rcases m5 k h with h' | ⟨p, hp, hp2⟩
        · exact Or.inl h'
        · exact Or.inr ⟨p, (hocc p).2 (Or.inl hp), hp2⟩
      · exact Or.inr ⟨p, (hocc p).2 (Or.inr hp), hp2⟩
    · intro k hk
      rcases i6 k hk with h | ⟨p, hp, hp2⟩
      · rcases m6 k h with h' | ⟨p, hp, hp2⟩
        · exact Or.inl h'
        · exact Or.inr ⟨p, (hocc p).2 (Or.inl hp), hp2⟩
      · exact Or.inr ⟨p, (hocc p).2 (Or.inr hp), hp2⟩

/-- When a word passes every record, the loop over the guesses sets the entry
of every Present and of every Absent letter of the history. -/
theorem scan_guesses_complete (w : List Char) (history : History) (st : Scan)
    (hp : st.is_possible = true)
    (hpass : history.all (fun rec => passes w rec.1 rec.2) = true)
    (hlen : ∀ rec ∈ history, rec.1.length ≤ w.length ∧ ∀ c ∈ rec.1, letter_index c < 30)
    (hmh : st.must_have.length = 30) (hne : st.not_exist.length = 30) :
    ∀ p ∈ occurrences history,
      (is_present_mark p = true →
        marked (scan_guesses w history st).must_have (letter_index p.1)) ∧
      (p.2 = '.' → marked (scan_guesses w history st).not_exist (letter_index p.1)) := by
  induction history generalizing st with
  | nil => intro p hp; simp [occurrences] at hp
  | cons rec rest ih =>
    have e : scan_guesses w (rec :: rest) st =
        scan_guesses w rest (scan_letters w rec.1 rec.2 st) := rfl
    rw [List.all_cons, Bool.and_eq_true] at hpass
    obtain ⟨hl1, hl2⟩ := hlen rec (List.mem_cons_self _ _)
    obtain ⟨f1, -⟩ := scan_letters_flags w rec.1 rec.2 st
    obtain ⟨m1, m2, -⟩ := scan_letters_marks w rec.1 rec.2 st
    obtain ⟨-, -, n3, n4, -⟩ := scan_guesses_marks w rest (scan_letters w rec.1 rec.2 st)
    have hc := scan_letters_complete w rec.1 rec.2 st hp hpass.1 hl1 hmh hne hl2
    have hi := ih (scan_letters w rec.1 rec.2 st) (by rw [f1, hp, hpass.1]; rfl) hpass.2
      (fun r hr => hlen r (List.mem_cons_of_mem _ hr)) (m1.trans hmh) (m2.trans hne)
    intro p hp
    rw [e]
    have hocc : p ∈ rec.1.zip rec.2 ∨ p ∈ occurrences rest := by
      simpa [occurrences] using hp
    rcases hocc with h | h
    · exact ⟨fun hh => n3 _ ((hc p h).1 hh), fun hh => n4 _ ((hc p h).2 hh)⟩
    · exact hi p h

/-- The entry `sol[i]` after the first pass for one word. -/
theorem scan_guesses_sol (w : List Char) (history : History) (mh ne : List Nat)
    (hlen : ∀ rec ∈ history, rec.1.length = w.length ∧ rec.1.length = rec.2.length) :
    (scan_guesses w history
      { must_have := mh, not_exist := ne, sol_i := 0, is_possible := true }).sol_i =
      if phase_one history w = true then 1 else 0 := by
  obtain ⟨-, f2, f3⟩ := scan_guesses_flags w history
    { must_have := mh, not_exist := ne, sol_i := 0, is_possible := true }
  unfold phase_one
  by_cases hw : w = []
  · rw [f2 hw]; simp [hw]
  · have hne : ∀ rec ∈ history, rec.1 ≠ [] ∧ rec.2 ≠ [] := by
      intro rec hr
      obtain ⟨h1, h2⟩ := hlen rec hr
      have : 0 < w.length := List.length_pos.2 hw
      constructor
      · apply List.ne_nil_of_length_pos; omega
      · apply List.ne_nil_of_length_pos; omega
    rw [f3 hw hne]
    by_cases hh : history = []
    · subst hh; simp
    · have hw' : w.isEmpty = false := by cases w <;> simp_all
      have hh' : history.isEmpty = false := by cases history <;> simp_all
      rw [if_neg hh, hw', hh']
      rfl

/-- The first pass over a word list: the entries `sol[i]`, and the marking
arrays, which hold only letters of the history and hold all of them as soon
as one word of the list passes every record. -/
theorem first_pass_spec (history : History) (word_list : List (List Char)) (mh ne : List Nat)
    (hlen : ∀ w ∈ word_list, ∀ rec ∈ history,
      rec.1.length = w.length ∧ rec.1.length = rec.2.length ∧ assert_lower rec.1 = true)
    (hmh : mh.length = 30) (hne : ne.length = 30) :
    (first_pass history word_list mh ne).2.2 =
      word_list.map (fun w => if phase_one history w = true then 1 else 0) ∧
    (first_pass history word_list mh ne).1.length = 30 ∧
    (first_pass history word_list mh ne).2.1.length = 30 ∧
    (∀ k, marked mh k → marked (first_pass history word_list mh ne).1 k) ∧
    (∀ k, marked ne k → marked (first_pass history word_list mh ne).2.1 k) ∧
    (∀ k, marked (first_pass history word_list mh ne).1 k → marked mh k ∨
      ∃ p ∈ occurrences history, is_present_mark p = true ∧ letter_index p.1 = k) ∧
    (∀ k, marked (first_pass history word_list mh ne).2.1 k → marked ne k ∨
      ∃ p ∈ occurrences history, p.2 = '.' ∧ letter_index p.1 = k) ∧
    ((∃ w ∈ word_list, phase_one history w = true) →
      ∀ p ∈ occurrences history,
        (is_present_mark p = true →
          marked (first_pass history word_list mh ne).1 (letter_index p.1)) ∧
        (p.2 = '.' → marked (first_pass history word_list mh ne).2.1 (letter_index p.1))) := by
  induction word_list generalizing mh ne with
  | nil =>
    refine ⟨rfl, hmh, hne, fun _ h => h, fun _ h => h, fun _ h => Or.inl h,
      fun _ h => Or.inl h, ?_⟩
    rintro ⟨w, hw, -⟩
    simp at hw
  | cons w rest ih =>
    have hlw := hlen w (List.mem_cons_self _ _)
    obtain ⟨m1, m2, m3, m4, m5, m6⟩ := scan_guesses_marks w history
      { must_have := mh, not_exist := ne, sol_i := 0, is_possible := true }
    have hsol := scan_guesses_sol w history mh ne (fun rec hr => ⟨(hlw rec hr).1, (hlw rec hr).2.1⟩)
    obtain ⟨i1, i2, i3, i4, i5, i6, i7, i8⟩ := ih
      (scan_guesses w history
        { must_have := mh, not_exist := ne, sol_i := 0, is_possible := true }).must_have
      (scan_guesses w history
        { must_have := mh, not_exist := ne, sol_i := 0, is_possible := true }).not_exist
      (fun w' hw' => hlen w' (List.mem_cons_of_mem _ hw')) (m1.trans hmh) (m2.trans hne)
    unfold first_pass
    simp only [List.map_cons]
    refine ⟨by rw [i1, hsol], i2, i3, fun k hk => i4 k (m3 k hk), fun k hk => i5 k (m4 k hk),
      ?_, ?_, ?_⟩
    · intro k hk
      rcases i6 k hk with h | h
      · exact m5 k h
      · exact Or.inr h
    · intro k hk
      rcases i7 k hk with h | h
      · exact m6 k h
      · exact Or.inr h
    · rintro ⟨w', hw', hp'⟩
      rcases List.mem_cons.1 hw' with e | e
      · subst e
        have hall : history.all (fun rec => passes w' rec.1 rec.2) = true := by
          unfold phase_one at hp'
          simp only [Bool.and_eq_true] at hp'
          exact hp'.2
        have hc := scan_guesses_complete w' history
          { must_have := mh, not_exist := ne, sol_i := 0, is_possible := true } rfl hall
          (fun rec hr => ⟨by rw [(hlw rec hr).1], fun c hc => by
            have := (hlw rec hr).2.2
            simp only [assert_lower, List.all_eq_true] at this
            have := letter_index_lt c (this c hc)
            omega⟩) hmh hne
        intro p hp
        exact ⟨fun hh => i4 _ ((hc p hp).1 hh), fun hh => i5 _ ((hc p hp).2 hh)⟩
      · exact i8 ⟨w', e, hp'⟩

/-! ## `find_solution`: the second pass and the output loop -/

/-- A loop that can only clear a non-zero flag leaves it non-zero exactly when
no iteration is a clearing one. -/
theorem foldl_clear (bad : Nat → Prop) (step : Nat → Nat → Nat)
    (hstep : ∀ s j, (bad j → step s j = 0) ∧ (¬ bad j → step s j = s))
    (l : List Nat) (s : Nat) :
    l.foldl step s ≠ 0 ↔ s ≠ 0 ∧ ∀ j ∈ l, ¬ bad j := by
  induction l generalizing s with
  | nil => simp
  | cons j l ih =>
    rw [List.foldl_cons, ih]
    by_cases hb : bad j
    · rw [(hstep s j).1 hb]
      simp [hb]
    · rw [(hstep s j).2 hb]
      simp [hb]

theorem has_letter_iff (w : List Char) (c : Char) (hc : is_lower c = true) :
    has_letter w w.length (letter_index c) = true ↔ c ∈ w := by
  have h := (is_lower_iff c).1 hc
  simp only [has_letter, List.take_length, List.any_eq_true, decide_eq_true_eq]
  constructor
  · rintro ⟨d, hd, he⟩
    have : d = c := by
      apply char_eq_of_toNat_eq
      simp [letter_index] at he
      omega
    exact this ▸ hd
  · intro hm
    refine ⟨c, hm, ?_⟩
    simp [letter_index]
    omega

/-- The second pass for one word, in terms of the marking arrays. -/
theorem second_pass_word_ne_zero (mh ne : List Nat) (len_word : Nat) (w : List Char) (s : Nat) :
    second_pass_word mh ne len_word w s ≠ 0 ↔
      s ≠ 0 ∧ (∀ j, j < 30 → marked mh j → has_letter w len_word j = true) ∧
        (∀ j, j < 30 → marked ne j → has_letter w len_word j = false) := by
  unfold second_pass_word
  by_cases hs : s ≠ 0
  · rw [if_pos hs]
    rw [foldl_clear (fun j => marked ne j ∧ has_letter w len_word j = true),
      foldl_clear (fun j => marked mh j ∧ has_letter w len_word j = false)]
    · simp only [List.mem_range, not_and, Bool.not_eq_false, Bool.not_eq_true, and_assoc]
    · intro s j
      unfold marked
      constructor
      · rintro ⟨h1, h2⟩
        rw [if_pos h1, if_pos h2]
      · intro h
        by_cases h1 : mh.getD j 0 ≠ 0
        · rw [if_pos h1, if_neg (fun h2 => h ⟨h1, h2⟩)]
        · rw [if_neg h1]
    · intro s j
      unfold marked
      constructor
      · rintro ⟨h1, h2⟩
        rw [if_pos h1, if_pos h2]
      · intro h
        by_cases h1 : ne.getD j 0 ≠ 0
        · rw [if_pos h1, if_neg (fun h2 => h ⟨h1, h2⟩)]
        · rw [if_neg h1]
  · rw [if_neg hs]
    simp only [hs, false_and]

/-- The output loop stores the first words whose entry `sol[i]` is non-zero,
until `solution_index` reaches `max_solutions`. -/
theorem store_solutions_eq (max_solutions : Nat) (l : List (List Char × Nat)) (idx : Nat)
    (h : idx ≤ max_solutions) :
    store_solutions max_solutions l idx =
      ((l.filter (fun p => decide (p.2 ≠ 0))).map Prod.fst).take (max_solutions - idx) := by
  induction l generalizing idx with
  | nil => simp [store_solutions]
  | cons p l ih =>
    obtain ⟨w, s⟩ := p
    unfold store_solutions
    by_cases h1 : idx = max_solutions
    · rw [if_pos h1]; simp [h1]
    · rw [if_neg h1]
      by_cases h2 : s ≠ 0
      · rw [if_pos h2, ih (idx + 1) (by omega)]
        have e : max_solutions - idx = (max_solutions - (idx + 1)) + 1 := by omega
        rw [e]
        simp [h2]
      · rw [if_neg h2, ih idx h]
        simp only [ne_eq, Decidable.not_not] at h2
        simp [h2]

theorem zipWith_map_self (F : List Char → Nat → Nat) (g : List Char → Nat)
    (wl : List (List Char)) :
    List.zipWith F wl (wl.map g) = wl.map (fun w => F w (g w)) := by
  induction wl with
  | nil => rfl
  | cons w wl ih => rw [List.map_cons, List.zipWith_cons_cons, ih, List.map_cons]

theorem zip_map_filter (h : List Char → Nat) (wl : List (List Char)) :
    ((wl.zip (wl.map h)).filter (fun p => decide (p.2 ≠ 0))).map Prod.fst =
      wl.filter (fun w => decide (h w ≠ 0)) := by
  induction wl with
  | nil => rfl
  | cons w wl ih =>
    rw [List.map_cons, List.zip_cons_cons, List.filter_cons, List.filter_cons]
    by_cases hw : h w ≠ 0
    · rw [if_pos (by simpa using hw), if_pos (by simpa using hw), List.map_cons, ih]
    · rw [if_neg (by simpa using hw), if_neg (by simpa using hw), ih]

theorem phase_two_iff (history : History) (w : List Char) :
    phase_two history w = true ↔
      (∀ p ∈ occurrences history, is_present_mark p = true → p.1 ∈ w) ∧
      (∀ p ∈ occurrences history, p.2 = '.' → p.1 ∉ w) := by
  simp only [phase_two, present_letters, absent_letters, Bool.and_eq_true, List.all_eq_true,
    List.mem_map, List.mem_filter, decide_eq_true_eq, Bool.not_eq_true', decide_eq_false_iff_not]
  constructor
  · rintro ⟨h1, h2⟩
    exact ⟨fun p hp hm => h1 p.1 ⟨p, ⟨hp, hm⟩, rfl⟩, fun p hp hm => h2 p.1 ⟨p, ⟨hp, hm⟩, rfl⟩⟩
  · rintro ⟨h1, h2⟩
    refine ⟨?_, ?_⟩
    · rintro c ⟨p, ⟨hp, hm⟩, rfl⟩
      exact h1 p hp hm
    · rintro c ⟨p, ⟨hp, hm⟩, rfl⟩
      exact h2 p hp hm

/-- With marking arrays that hold exactly the Present and the Absent letters of
the history, the tests of the second pass are phase 2 of the filter. -/
theorem second_pass_phase_two (history : History) (w : List Char) (mh ne : List Nat)
    (hlow : ∀ p ∈ occurrences history, is_lower p.1 = true)
    (hs1 : ∀ k, marked mh k →
      ∃ p ∈ occurrences history, is_present_mark p = true ∧ letter_index p.1 = k)
    (hs2 : ∀ k, marked ne k → ∃ p ∈ occurrences history, p.2 = '.' ∧ letter_index p.1 = k)
    (hc : ∀ p ∈ occurrences history,
      (is_present_mark p = true → marked mh (letter_index p.1)) ∧
      (p.2 = '.' → marked ne (letter_index p.1))) :
    ((∀ j, j < 30 → marked mh j → has_letter w w.length j = true) ∧
      (∀ j, j < 30 → marked ne j → has_letter w w.length j = false)) ↔
      phase_two history w = true := by
  rw [phase_two_iff]
  constructor
  · rintro ⟨h1, h2⟩
    refine ⟨fun p hp hm => ?_, fun p hp hm => ?_⟩
    · have hl := hlow p hp
      have := h1 _ (by have := letter_index_lt p.1 hl; omega) ((hc p hp).1 hm)
      exact (has_letter_iff w p.1 hl).1 this
    · have hl := hlow p hp
      have := h2 _ (by have := letter_index_lt p.1 hl; omega) ((hc p hp).2 hm)
      intro hin
      rw [(has_letter_iff w p.1 hl).2 hin] at this
      exact absurd this (by simp)
  · rintro ⟨h1, h2⟩
    refine ⟨fun j _ hj => ?_, fun j _ hj => ?_⟩
    · obtain ⟨p, hp, hm, hidx⟩ := hs1 j hj
      rw [← hidx]
      exact (has_letter_iff w p.1 (hlow p hp)).2 (h1 p hp hm)
    · obtain ⟨p, hp, hm, hidx⟩ := hs2 j hj
      rw [← hidx]
      have := h2 p hp hm
      rw [← has_letter_iff w p.1 (hlow p hp)] at this
      simpa using this

theorem assert_solution_iff (history : History) (word_list : List (List Char)) :
    assert_solution history word_list = true ↔
      ∀ w ∈ word_list, ∀ rec ∈ history,
        rec.1.length = w.length ∧ rec.1.length = rec.2.length ∧ assert_lower rec.1 = true ∧
          assert_result rec.2 = true := by
  simp only [assert_solution, assert_record, List.all_eq_true, Bool.and_eq_true,
    decide_eq_true_eq, and_assoc]

/-- What `find_solution` computes: the first `max_solutions` words of the list
that the two-phase filter keeps, and their number. -/
theorem find_solution_eq (history : History) (word_list : List (List Char))
    (max_solutions : Nat) (hmax : 1 ≤ max_solutions) (hcap : word_list.length ≤ 10000)
    (hassert : assert_solution history word_list = true) :
    find_solution history word_list max_solutions =
      some (((word_list.filter (two_phase history)).take max_solutions).length,
        (word_list.filter (two_phase history)).take max_solutions) := by
  have ha := (assert_solution_iff history word_list).1 hassert
  obtain ⟨p1, p2, p3, -, -, p6, p7, p8⟩ := first_pass_spec history word_list
    (List.replicate 30 0) (List.replicate 30 0)
    (fun w hw rec hr => ⟨(ha w hw rec hr).1, (ha w hw rec hr).2.1, (ha w hw rec hr).2.2.1⟩)
    (List.length_replicate _ _) (List.length_replicate _ _)
  have hzero : ∀ k, ¬ marked (List.replicate 30 0) k := by
    intro k h
    exact h (replicate_zero_getD 30 k)
  have hkey : (store_solutions max_solutions
      (word_list.zip (List.zipWith
        (second_pass_word
          (first_pass history word_list (List.replicate 30 0) (List.replicate 30 0)).1
          (first_pass history word_list (List.replicate 30 0) (List.replicate 30 0)).2.1
          (word_list.getLast?.getD []).length)
        word_list
        (first_pass history word_list (List.replicate 30 0) (List.replicate 30 0)).2.2)) 0)
      = (word_list.filter (two_phase history)).take max_solutions := by
    rw [p1, zipWith_map_self, store_solutions_eq _ _ 0 (Nat.zero_le _), zip_map_filter,
      Nat.sub_zero]
    congr 1
    apply List.filter_congr
    intro w hw
    rw [Bool.eq_iff_iff, decide_eq_true_eq, second_pass_word_ne_zero]
    unfold two_phase
    rw [Bool.and_eq_true]
    by_cases hp : phase_one history w = true
    · have hne : history ≠ [] := by
        intro e
        simp [phase_one, e] at hp
      obtain ⟨rec0, hrec0⟩ := List.exists_mem_of_ne_nil _ hne
      have hlast : (word_list.getLast?.getD []).length = w.length := by
        have hwl : word_list ≠ [] := List.ne_nil_of_mem hw
        rw [List.getLast?_eq_getLast _ hwl, Option.getD_some,
          ← (ha _ (List.getLast_mem hwl) rec0 hrec0).1, (ha w hw rec0 hrec0).1]
      have hlow : ∀ p ∈ occurrences history, is_lower p.1 = true := by
        apply occurrences_lower
        intro rec hr
        obtain ⟨a1, a2, a3, a4⟩ := ha w hw rec hr
        simp [assert_record, a2, a3, a4]
      have h2 := second_pass_phase_two history w _ _ hlow
        (fun k hk => (p6 k hk).resolve_left (hzero k))
        (fun k hk => (p7 k hk).resolve_left (hzero k)) (p8 ⟨w, hw, hp⟩)
      rw [hlast, h2, hp]
      simp
    · simp [hp]
  unfold find_solution
  rw [if_neg (by omega), if_neg (by omega), hassert]
  simp only [Bool.true_eq_false, if_false]
  rw [hkey]

/-! ## The two-phase filter and consistency with `evaluate_guess` -/

theorem passes_iff (w g r : List Char) :
    passes w g r = true ↔
      ∀ (j : Nat) (wk gk rk : Char), w[j]? = some wk → g[j]? = some gk → r[j]? = some rk →
        position_ok wk gk rk = true := by
  induction w generalizing g r with
  | nil => simp [passes]
  | cons a w ih =>
    cases g with
    | nil => simp [passes]
    | cons b g =>
      cases r with
      | nil => simp [passes]
      | cons c r =>
        unfold passes
        rw [Bool.and_eq_true, ih]
        constructor
        · rintro ⟨h1, h2⟩ j wk gk rk hw hg hr
          cases j with
          | zero =>
            simp only [List.getElem?_cons_zero, Option.some.injEq] at hw hg hr
            subst hw hg hr
            exact h1
          | succ j =>
            simp only [List.getElem?_cons_succ] at hw hg hr
            exact h2 j wk gk rk hw hg hr
        · intro h
          refine ⟨h 0 a b c (by simp) (by simp) (by simp), fun j wk gk rk hw hg hr => ?_⟩
          exact h (j + 1) wk gk rk (by simpa using hw) (by simpa using hg) (by simpa using hr)

theorem mem_occurrences_iff (history : History) (p : Char × Char) :
    p ∈ occurrences history ↔
      ∃ rec ∈ history, ∃ (j : Nat), rec.1[j]? = some p.1 ∧ rec.2[j]? = some p.2 := by
  rw [mem_occurrences]
  constructor
  · rintro ⟨rec, hr, hz⟩
    obtain ⟨j, hj⟩ := List.mem_iff_getElem?.1 hz
    rw [List.getElem?_zip_eq_some] at hj
    exact ⟨rec, hr, j, hj⟩
  · rintro ⟨rec, hr, j, hj⟩
    exact ⟨rec, hr, List.mem_iff_getElem?.2 ⟨j, List.getElem?_zip_eq_some.2 hj⟩⟩

theorem getElem?_of_length_eq (w g : List Char) (hlen : g.length = w.length) (j : Nat)
    (gk : Char) (hg : g[j]? = some gk) : ∃ wk, w[j]? = some wk := by
  have hj : j < g.length := by
    by_contra hc
    rw [List.getElem?_eq_none (by omega)] at hg
    exact absurd hg (by simp)
  exact ⟨w[j], List.getElem?_eq_getElem (by omega)⟩

/-- The two-phase filter, position by position. -/
theorem two_phase_iff_pos (history : History) (w : List Char) (hh : history ≠ [])
    (hw : w ≠ []) (hlen : ∀ rec ∈ history, rec.1.length = w.length) :
    two_phase history w = true ↔
      ∀ rec ∈ history, ∀ (j : Nat) (wk gk rk : Char),
        w[j]? = some wk → rec.1[j]? = some gk → rec.2[j]? = some rk →
          position_ok wk gk rk = true ∧ (is_present_mark (gk, rk) = true → gk ∈ w) ∧
            (rk = '.' → gk ∉ w) := by
  have hw' : w.isEmpty = false := by cases w <;> simp_all
  have hh' : history.isEmpty = false := by cases history <;> simp_all
  unfold two_phase phase_one
  rw [Bool.and_eq_true, phase_two_iff, hw', hh']
  simp only [Bool.not_false, Bool.true_and, List.all_eq_true, passes_iff]
  constructor
  · rintro ⟨h1, h2, h3⟩ rec hr j wk gk rk hwj hgj hrj
    have hocc : (gk, rk) ∈ occurrences history :=
      (mem_occurrences_iff history _).2 ⟨rec, hr, j, hgj, hrj⟩
    exact ⟨h1 rec hr j wk gk rk hwj hgj hrj, h2 _ hocc, h3 _ hocc⟩
  · intro h
    refine ⟨fun rec hr j wk gk rk hwj hgj hrj => (h rec hr j wk gk rk hwj hgj hrj).1, ?_, ?_⟩
    · intro p hp hm
      obtain ⟨rec, hr, j, hgj, hrj⟩ := (mem_occurrences_iff history p).1 hp
      obtain ⟨wk, hwj⟩ := getElem?_of_length_eq w rec.1 (hlen rec hr) j p.1 hgj
      exact (h rec hr j wk p.1 p.2 hwj hgj hrj).2.1 hm
    · intro p hp hm
      obtain ⟨rec, hr, j, hgj, hrj⟩ := (mem_occurrences_iff history p).1 hp
      obtain ⟨wk, hwj⟩ := getElem?_of_length_eq w rec.1 (hlen rec hr) j p.1 hgj
      exact (h rec hr j wk p.1 p.2 hwj hgj hrj).2.2 hm

/-- Consistency with `evaluate_guess`, position by position. -/
theorem consistent_iff_pos (history : History) (w : List Char) (hwl : assert_lower w = true)
    (hlen : ∀ rec ∈ history, rec.1.length = w.length ∧ rec.1.length = rec.2.length ∧
      assert_lower rec.1 = true) :
    consistent history w = true ↔
      ∀ rec ∈ history, ∀ (j : Nat) (wk gk rk : Char),
        w[j]? = some wk → rec.1[j]? = some gk → rec.2[j]? = some rk →
          (if wk = gk then to_upper gk else if gk ∈ w then gk else '.') = rk := by
  unfold consistent
  rw [List.all_eq_true]
  apply forall_congr'
  intro rec
  apply imp_congr_right
  intro hr
  obtain ⟨h1, h2, h3⟩ := hlen rec hr
  rw [evaluate_eq w rec.1 hwl h3 h1.symm]
  simp only [decide_eq_true_eq]
  constructor
  · intro h j wk gk rk hwj hgj hrj
    rw [← h, List.getElem?_zipWith, hwj, hgj] at hrj
    simpa using hrj
  · intro h
    apply List.ext_getElem?
    intro j
    rw [List.getElem?_zipWith]
    by_cases hj : j < w.length
    · have e1 : w[j]? = some w[j] := List.getElem?_eq_getElem hj
      have e2 : rec.1[j]? = some (rec.1[j]) := List.getElem?_eq_getElem (by omega)
      have e3 : rec.2[j]? = some (rec.2[j]) := List.getElem?_eq_getElem (by omega)
      rw [e1, e2, e3]
      simp only [Option.map_some', Option.bind_some, Option.some.injEq]
      exact h j _ _ _ e1 e2 e3
    · rw [List.getElem?_eq_none (Nat.le_of_not_lt hj),
        List.getElem?_eq_none (show rec.1.length ≤ j by omega),
        List.getElem?_eq_none (show rec.2.length ≤ j by omega)]

/-- At one position of a well-formed record, `evaluate_guess` reproduces the
recorded character exactly when the tests of both passes hold. -/
theorem position_consistent (w : List Char) (wk gk rk : Char) (hwk : wk ∈ w)
    (hgl : is_lower gk = true) (hwf : rk = '.' ∨ rk = gk ∨ rk = to_upper gk) :
    (if wk = gk then to_upper gk else if gk ∈ w then gk else '.') = rk ↔
      position_ok wk gk rk = true ∧ (is_present_mark (gk, rk) = true → gk ∈ w) ∧
        (rk = '.' → gk ∉ w) := by
  obtain ⟨c1, c2, c3⟩ := feedback_char_cases w wk gk hwk hgl
  obtain ⟨u1, u2, u3, u4, u5, -⟩ := to_upper_facts gk hgl
  unfold position_ok is_present_mark
  rcases hwf with h | h | h
  · subst h
    rw [c3, if_pos rfl]
    simp only [decide_True, Bool.not_true, Bool.false_and, Bool.false_eq_true, false_implies,
      true_and, forall_const, decide_eq_true_eq, ne_eq]
    exact ⟨fun hh => ⟨fun e => hh (e ▸ hwk), hh⟩, fun hh => hh.2⟩
  · subst h
    rw [c2, if_neg u3, if_neg u5]
    simp only [u3, u5, decide_False, Bool.not_false, Bool.and_self, forall_const,
      false_implies, and_true, decide_eq_true_eq, ne_eq]
    exact ⟨fun hh => ⟨fun e => hh.1 e.symm, hh.2⟩, fun hh => ⟨fun e => hh.1 e.symm, hh.2⟩⟩
  · subst h
    rw [c1, if_neg u2, if_pos u4]
    simp only [u2, u4, decide_False, decide_True, Bool.not_false, Bool.not_true,
      Bool.and_false, Bool.false_eq_true, false_implies, and_true, decide_eq_true_eq]
    exact ⟨fun hh => hh.symm, fun hh => hh.symm⟩

/-- On a non-empty history of well-formed records and a non-empty lowercase word
of their length, the two-phase filter keeps exactly the consistent candidates. -/
theorem two_phase_eq_consistent (history : History) (w : List Char) (hh : history ≠ [])
    (hw : w ≠ []) (hwl : assert_lower w = true)
    (hwf : ∀ rec ∈ history, well_formed rec = true ∧ rec.1.length = w.length) :
    two_phase history w = consistent history w := by
  rw [Bool.eq_iff_iff, two_phase_iff_pos history w hh hw (fun rec hr => (hwf rec hr).2),
    consistent_iff_pos history w hwl (fun rec hr => by
      obtain ⟨h1, h2⟩ := hwf rec hr
      obtain ⟨a1, a2, -⟩ := (well_formed_iff rec).1 h1
      exact ⟨h2, a1, a2⟩)]
  apply forall_congr'
  intro rec
  apply imp_congr_right
  intro hr
  obtain ⟨h1, h2⟩ := hwf rec hr
  obtain ⟨a1, a2, a3⟩ := (well_formed_iff rec).1 h1
  simp only [assert_lower, List.all_eq_true] at a2
  apply forall_congr'
  intro j
  apply forall_congr'
  intro wk
  apply forall_congr'
  intro gk
  apply forall_congr'
  intro rk
  apply imp_congr_right
  intro hwj
  apply imp_congr_right
  intro hgj
  apply imp_congr_right
  intro hrj
  exact (position_consistent w wk gk rk (List.mem_iff_getElem?.2 ⟨j, hwj⟩)
    (a2 gk (List.mem_iff_getElem?.2 ⟨j, hgj⟩)) (a3 j gk rk hgj hrj)).symm

/-- The meaning of `consistent`: for every record `(G, F)` of the history,
`evaluate_guess` with the word as the secret and `G` as the guess writes `F`. -/
theorem consistent_iff (history : History) (w : List Char) :
    consistent history w = true ↔
      ∀ rec ∈ history, ∃ b, evaluate w rec.1 = some (b, rec.2) := by
  unfold consistent
  rw [List.all_eq_true]
  apply forall_congr'
  intro rec
  apply imp_congr_right
  intro _
  cases h : evaluate w rec.1 with
  | none => simp
  | some p =>
    obtain ⟨b, res⟩ := p
    simp

/-- A word list with more than 10000 words gives no result: `sol[10000]` is
read outside the array. -/
theorem find_solution_capacity (history : History) (word_list : List (List Char))
    (max_solutions : Nat) (h : 10000 < word_list.length) :
    find_solution history word_list max_solutions = none := by
  unfold find_solution
  by_cases hm : max_solutions < 1
  · rw [if_pos hm]
  · rw [if_neg hm, if_pos h]

/-- A run of `find_solution` that has a result satisfied the assertions, with a
list of at most 10000 words. -/
theorem find_solution_some (history : History) (word_list : List (List Char))
    (max_solutions n : Nat) (s : List (List Char))
    (h : find_solution history word_list max_solutions = some (n, s)) :
    1 ≤ max_solutions ∧ word_list.length ≤ 10000 ∧
      assert_solution history word_list = true := by
  unfold find_solution at h
  by_cases h1 : max_solutions < 1
  · rw [if_pos h1] at h; exact absurd h (by simp)
  · rw [if_neg h1] at h
    by_cases h2 : 10000 < word_list.length
    · rw [if_pos h2] at h; exact absurd h (by simp)
    · rw [if_neg h2] at h
      by_cases h3 : assert_solution history word_list = false
      · rw [if_pos h3] at h; exact absurd h (by simp)
      · exact ⟨by omega, by omega, by simpa using h3⟩

/-- What `find_solution` does on a non-empty history of well-formed records of
length `L ≥ 1`, a list of at most 10000 lowercase words of length `L` and
`max_solutions ≥ 1`: it stores, in word-list order, exactly the first
`max_solutions` words `W` of the list for which `evaluate_guess(W, G)` writes
the recorded result for every record, and returns how many it stored. -/
theorem find_solution_consistent (history : History) (word_list : List (List Char))
    (max_solutions L : Nat) (hhist : history ≠ []) (hL : 1 ≤ L)
    (hwf : ∀ rec ∈ history, well_formed rec = true ∧ rec.1.length = L)
    (hwords : ∀ w ∈ word_list, assert_lower w = true ∧ w.length = L)
    (hcap : word_list.length ≤ 10000) (hmax : 1 ≤ max_solutions) :
    ∃ stored, find_solution history word_list max_solutions = some (stored.length, stored) ∧
      stored = (word_list.filter (consistent history)).take max_solutions ∧
      ∀ W, consistent history W = true ↔
        ∀ rec ∈ history, ∃ b, evaluate W rec.1 = some (b, rec.2) := by
  refine ⟨_, ?_, rfl, consistent_iff history⟩
  have hassert : assert_solution history word_list = true := by
    rw [assert_solution_iff]
    intro w hw rec hr
    obtain ⟨h1, h2⟩ := hwf rec hr
    have ha := assert_record_of_well_formed rec h1
    simp only [assert_record, Bool.and_eq_true, decide_eq_true_eq] at ha
    exact ⟨by rw [h2, (hwords w hw).2], ha.1.1, ha.1.2, ha.2⟩
  rw [find_solution_eq history word_list max_solutions hmax hcap hassert]
  have hfilter : word_list.filter (two_phase history) = word_list.filter (consistent history) := by
    apply List.filter_congr
    intro w hw
    obtain ⟨h1, h2⟩ := hwords w hw
    apply two_phase_eq_consistent history w hhist _ h1
    · intro rec hr
      exact ⟨(hwf rec hr).1, by rw [(hwf rec hr).2, h2]⟩
    · apply List.ne_nil_of_length_pos
      omega
  rw [hfilter]

/-- The example of `wordle.h` on a nine-word list: the guesses "funky", "plane"
with the results ".....", "pla.E" leave "ample", "apple", "lapse", "maple". -/
theorem find_solution_consistent_examples :
    find_solution [("funky".toList, ".....".toList), ("plane".toList, "pla.E".toList)]
        ["about".toList, "ample".toList, "apple".toList, "funky".toList, "lapse".toList,
          "maple".toList, "pales".toList, "plane".toList, "zebra".toList] 20
      = some (4, ["ample".toList, "apple".toList, "lapse".toList, "maple".toList]) ∧
    ∃ stored,
      find_solution [("funky".toList, ".....".toList), ("plane".toList, "pla.E".toList)]
        ["about".toList, "ample".toList, "apple".toList, "funky".toList, "lapse".toList,
          "maple".toList, "pales".toList, "plane".toList, "zebra".toList] 20
        = some (stored.length, stored) ∧
      stored = (["about".toList, "ample".toList, "apple".toList, "funky".toList,
          "lapse".toList, "maple".toList, "pales".toList, "plane".toList,
          "zebra".toList].filter
        (consistent [("funky".toList, ".....".toList), ("plane".toList, "pla.E".toList)])).take
          20 ∧
      ∀ W, consistent [("funky".toList, ".....".toList), ("plane".toList, "pla.E".toList)] W
          = true ↔
        ∀ rec ∈ [("funky".toList, ".....".toList), ("plane".toList, "pla.E".toList)],
          ∃ b, evaluate W rec.1 = some (b, rec.2) :=
  ⟨by decide,
    find_solution_consistent
      [("funky".toList, ".....".toList), ("plane".toList, "pla.E".toList)]
      ["about".toList, "ample".toList, "apple".toList, "funky".toList, "lapse".toList,
        "maple".toList, "pales".toList, "plane".toList, "zebra".toList] 20 5
      (by decide) (by decide) (by decide) (by decide) (by decide) (by decide)⟩

/-- C1 fails on the code.  With the empty history every word of the list is a
consistent candidate, so that for the list "apple" and the cap 1 the claim and
`wordle.h` give the count 1 and the stored word "apple"; the code returns 0 and
stores nothing, because `sol[i]` is only set while a position of some guess is
scanned.  For the same reason a record of length 0 leaves nothing stored
although the empty word is consistent with it.  And on a list of 10001 words
the code reads `sol[10000]`, outside `int sol[10000]`: the call has no defined
result, where the claim gives "a" for the record ("a", "A"). -/
theorem find_solution_consistent_fails :
    (find_solution [] ["apple".toList] 1 = some (0, []) ∧
      (["apple".toList].filter (consistent [])).take 1 = ["apple".toList]) ∧
    (find_solution [([], [])] [[]] 1 = some (0, []) ∧
      ([[]].filter (consistent [([], [])])).take 1 = [[]]) ∧
    (find_solution [("a".toList, "A".toList)] (List.replicate 10001 "a".toList) 1 = none ∧
      consistent [("a".toList, "A".toList)] "a".toList = true) :=
  ⟨⟨by decide, by decide⟩, ⟨by decide, by decide⟩,
    find_solution_capacity _ _ _ (by rw [List.length_replicate]; decide), by decide⟩

/-! ## `find_solution`: relations between two runs -/

theorem two_phase_append (history extra : History) (w : List Char) (hh : history ≠ [])
    (h : two_phase (history ++ extra) w = true) : two_phase history w = true := by
  unfold two_phase at h ⊢
  rw [Bool.and_eq_true] at h ⊢
  obtain ⟨h1, h2⟩ := h
  constructor
  · unfold phase_one at h1 ⊢
    simp only [Bool.and_eq_true, List.all_append] at h1
    have hh' : history.isEmpty = false := by cases history <;> simp_all
    rw [hh', h1.1.2, h1.2.1]
    rfl
  · rw [phase_two_iff] at h2 ⊢
    have hsub : ∀ p ∈ occurrences history, p ∈ occurrences (history ++ extra) := by
      intro p hp
      obtain ⟨rec, hr, hz⟩ := (mem_occurrences history p).1 hp
      exact (mem_occurrences _ p).2 ⟨rec, List.mem_append_left _ hr, hz⟩
    exact ⟨fun p hp hm => h2.1 p (hsub p hp) hm, fun p hp hm => h2.2 p (hsub p hp) hm⟩

theorem two_phase_perm (history reordered : History) (w : List Char)
    (hperm : reordered.Perm history) : two_phase reordered w = two_phase history w := by
  have hocc : ∀ p, p ∈ occurrences reordered ↔ p ∈ occurrences history := by
    intro p
    rw [mem_occurrences, mem_occurrences]
    constructor
    · rintro ⟨rec, hr, hz⟩
      exact ⟨rec, hperm.mem_iff.1 hr, hz⟩
    · rintro ⟨rec, hr, hz⟩
      exact ⟨rec, hperm.mem_iff.2 hr, hz⟩
  have hempty : reordered.isEmpty = history.isEmpty := by
    cases history with
    | nil => rw [List.Perm.eq_nil hperm]
    | cons a l =>
      cases reordered with
      | nil => exact absurd (List.Perm.eq_nil hperm.symm) (by simp)
      | cons b k => rfl
  have hall : reordered.all (fun rec => passes w rec.1 rec.2) =
      history.all (fun rec => passes w rec.1 rec.2) := by
    rw [Bool.eq_iff_iff, List.all_eq_true, List.all_eq_true]
    exact ⟨fun h rec hr => h rec (hperm.mem_iff.2 hr), fun h rec hr => h rec (hperm.mem_iff.1 hr)⟩
  have htwo : phase_two reordered w = phase_two history w := by
    rw [Bool.eq_iff_iff, phase_two_iff, phase_two_iff]
    constructor
    · rintro ⟨h1, h2⟩
      exact ⟨fun p hp => h1 p ((hocc p).2 hp), fun p hp => h2 p ((hocc p).2 hp)⟩
    · rintro ⟨h1, h2⟩
      exact ⟨fun p hp => h1 p ((hocc p).1 hp), fun p hp => h2 p ((hocc p).1 hp)⟩
  unfold two_phase phase_one
  rw [hempty, hall, htwo]

theorem assert_solution_perm (history reordered : History) (word_list : List (List Char))
    (hperm : reordered.Perm history) (h : assert_solution history word_list = true) :
    assert_solution reordered word_list = true := by
  rw [assert_solution_iff] at h ⊢
  exact fun w hw rec hr => h w hw rec (hperm.mem_iff.1 hr)

theorem assert_solution_append (history extra : History) (word_list : List (List Char))
    (h : assert_solution (history ++ extra) word_list = true) :
    assert_solution history word_list = true := by
  rw [assert_solution_iff] at h ⊢
  exact fun w hw rec hr => h w hw rec (List.mem_append_left _ hr)

/-- What holds of `find_solution` when a record is added to a non-empty history:
for a non-empty history `H`, an additional record `r`, a list of at most 10000
words and a cap `max_solutions ≥ num_words`, every word that `find_solution`
stores for `H` followed by `r` is also stored for `H`. -/
theorem find_solution_monotone (history : History) (r : List Char × List Char)
    (word_list : List (List Char)) (max_solutions : Nat) (hhist : history ≠ [])
    (hassert : assert_solution (history ++ [r]) word_list = true)
    (hcap : word_list.length ≤ 10000) (hmax : 1 ≤ max_solutions)
    (hall : word_list.length ≤ max_solutions) :
    ∃ n s n' s', find_solution history word_list max_solutions = some (n, s) ∧
      find_solution (history ++ [r]) word_list max_solutions = some (n', s') ∧
      ∀ w ∈ s', w ∈ s := by
  refine ⟨_, _, _, _,
    find_solution_eq history word_list max_solutions hmax hcap
      (assert_solution_append history [r] word_list hassert),
    find_solution_eq (history ++ [r]) word_list max_solutions hmax hcap hassert, ?_⟩
  intro w hw
  have hlen : ∀ (f : List Char → Bool), (word_list.filter f).length ≤ max_solutions :=
    fun f => le_trans (List.length_filter_le _ _) hall
  rw [List.take_of_length_le (hlen _)] at hw ⊢
  rw [List.mem_filter] at hw ⊢
  exact ⟨hw.1, two_phase_append history [r] w hhist hw.2⟩

/-- The history ("funky", ".....") extended by ("plane", "pla.E"). -/
theorem find_solution_monotone_examples :
    ∃ n s n' s',
      find_solution [("funky".toList, ".....".toList)]
        ["ample".toList, "apple".toList, "funky".toList, "pales".toList] 4 = some (n, s) ∧
      find_solution ([("funky".toList, ".....".toList)] ++ [("plane".toList, "pla.E".toList)])
        ["ample".toList, "apple".toList, "funky".toList, "pales".toList] 4 = some (n', s') ∧
      ∀ w ∈ s', w ∈ s :=
  find_solution_monotone [("funky".toList, ".....".toList)] ("plane".toList, "pla.E".toList)
    ["ample".toList, "apple".toList, "funky".toList, "pales".toList] 4
    (by decide) (by decide) (by decide) (by decide) (by decide)

/-- C7 fails on the code.  With the empty history `H`, the well-formed record
("a", "A"), the word list "a" and the cap 1, which is not below `num_words`, the
claim gives that the word "a" returned for `H` followed by the record is also
returned for `H`; the code returns 0 words for `H` and the word "a" for `H`
followed by the record, so that adding a record adds a word to the result set. -/
theorem find_solution_monotone_fails :
    well_formed ("a".toList, "A".toList) = true ∧
    find_solution [] ["a".toList] 1 = some (0, []) ∧
    find_solution ([] ++ [("a".toList, "A".toList)]) ["a".toList] 1
      = some (1, ["a".toList]) ∧
    consistent [] "a".toList = true := by
  decide

/-- A run of `find_solution` on a permutation of the history has the result of
the run on the history. -/
theorem find_solution_perm_some (history reordered : History)
    (word_list : List (List Char)) (max_solutions n : Nat) (s : List (List Char))
    (hperm : reordered.Perm history)
    (h : find_solution history word_list max_solutions = some (n, s)) :
    find_solution reordered word_list max_solutions = some (n, s) := by
  obtain ⟨hmax, hcap, hassert⟩ := find_solution_some history word_list max_solutions n s h
  rw [← h, find_solution_eq history word_list max_solutions hmax hcap hassert,
    find_solution_eq reordered word_list max_solutions hmax hcap
      (assert_solution_perm history reordered word_list hperm hassert)]
  have hfilter : word_list.filter (two_phase reordered) =
      word_list.filter (two_phase history) :=
    List.filter_congr (fun w _ => two_phase_perm history reordered w hperm)
  rw [hfilter]

/-- C8: truncation never reorders.  For every history, every word list and caps
`1 ≤ m ≤ m'`, whenever the run with cap `m'` has a result, a count `n'` and a
stored sequence, the run with cap `m` has a result too, and the sequence it
stores is exactly the prefix of length `min m n'` of the sequence stored with
cap `m'`; each returned count is the number of stored words and is at most the
cap; the stored words form a subsequence of the word list, at strictly
increasing word-list indices.  A run with cap `m'` that has no result leaves
the run with cap `m` without a result; and both runs have a result whenever the
assertions of the source hold and the list has at most 10000 words. -/
theorem find_solution_truncation (history : History) (word_list : List (List Char))
    (m m' : Nat) (hm : 1 ≤ m) (hmm : m ≤ m') :
    (∀ (n' : Nat) (s' : List (List Char)),
      find_solution history word_list m' = some (n', s') →
      ∃ n s, find_solution history word_list m = some (n, s) ∧
        s = s'.take (min m n') ∧ n = s.length ∧ n' = s'.length ∧ n ≤ m ∧ n' ≤ m' ∧
        s'.Sublist word_list ∧
        ∃ f : Fin s'.length ↪o Fin word_list.length,
          ∀ ix, s'.get ix = word_list.get (f ix)) ∧
    (find_solution history word_list m' = none → find_solution history word_list m = none) ∧
    (assert_solution history word_list = true → word_list.length ≤ 10000 →
      ∃ n' s', find_solution history word_list m' = some (n', s')) := by
  refine ⟨?_, ?_, ?_⟩
  · intro n' s' h
    obtain ⟨hm', hcap, hassert⟩ := find_solution_some history word_list m' n' s' h
    rw [find_solution_eq history word_list m' hm' hcap hassert] at h
    simp only [Option.some.injEq, Prod.mk.injEq] at h
    obtain ⟨hn', hs'⟩ := h
    have hsub : ((word_list.filter (two_phase history)).take m').Sublist word_list :=
      (List.take_sublist _ _).trans (List.filter_sublist _)
    subst hs'
    subst hn'
    refine ⟨_, _, find_solution_eq history word_list m hm hcap hassert, ?_, rfl, rfl,
      ?_, ?_, hsub, List.sublist_iff_exists_fin_orderEmbedding_get_eq.1 hsub⟩
    · rw [List.take_take, List.take_eq_take]
      simp only [List.length_take]
      omega
    · rw [List.length_take]; omega
    · rw [List.length_take]; omega
  · intro h
    cases h' : find_solution history word_list m with
    | none => rfl
    | some p =>
      obtain ⟨n, s⟩ := p
      obtain ⟨-, hcap, hassert⟩ := find_solution_some history word_list m n s h'
      rw [find_solution_eq history word_list m' (le_trans hm hmm) hcap hassert] at h
      exact absurd h (by simp)
  · intro hassert hcap
    exact ⟨_, _, find_solution_eq history word_list m' (le_trans hm hmm) hcap hassert⟩

/-- C8 on the example of `wordle.h` with the caps 2 and 20: the two words stored
with the cap 2 are the first two of the four words stored with the cap 20. -/
theorem find_solution_truncation_witness :
    find_solution [("funky".toList, ".....".toList), ("plane".toList, "pla.E".toList)]
        ["about".toList, "ample".toList, "apple".toList, "funky".toList, "lapse".toList,
          "maple".toList, "pales".toList, "plane".toList, "zebra".toList] 2
      = some (2, ["ample".toList, "apple".toList]) ∧
    find_solution [("funky".toList, ".....".toList), ("plane".toList, "pla.E".toList)]
        ["about".toList, "ample".toList, "apple".toList, "funky".toList, "lapse".toList,
          "maple".toList, "pales".toList, "plane".toList, "zebra".toList] 20
      = some (4, ["ample".toList, "apple".toList, "lapse".toList, "maple".toList]) ∧
    (1 ≤ 2 ∧ 2 ≤ 20) ∧
    (∀ (n' : Nat) (s' : List (List Char)),
      find_solution [("funky".toList, ".....".toList), ("plane".toList, "pla.E".toList)]
        ["about".toList, "ample".toList, "apple".toList, "funky".toList, "lapse".toList,
          "maple".toList, "pales".toList, "plane".toList, "zebra".toList] 20
        = some (n', s') →
      ∃ n s,
        find_solution [("funky".toList, ".....".toList), ("plane".toList, "pla.E".toList)]
          ["about".toList, "ample".toList, "apple".toList, "funky".toList, "lapse".toList,
            "maple".toList, "pales".toList, "plane".toList, "zebra".toList] 2 = some (n, s) ∧
        s = s'.take (min 2 n') ∧ n = s.length ∧ n' = s'.length ∧ n ≤ 2 ∧ n' ≤ 20 ∧
        s'.Sublist ["about".toList, "ample".toList, "apple".toList, "funky".toList,
          "lapse".toList, "maple".toList, "pales".toList, "plane".toList, "zebra".toList] ∧
        ∃ f : Fin s'.length ↪o Fin ["about".toList, "ample".toList, "apple".toList,
            "funky".toList, "lapse".toList, "maple".toList, "pales".toList, "plane".toList,
            "zebra".toList].length,
          ∀ ix, s'.get ix = ["about".toList, "ample".toList, "apple".toList, "funky".toList,
            "lapse".toList, "maple".toList, "pales".toList, "plane".toList,
            "zebra".toList].get (f ix)) ∧
    (find_solution [("funky".toList, ".....".toList), ("plane".toList, "pla.E".toList)]
        ["about".toList, "ample".toList, "apple".toList, "funky".toList, "lapse".toList,
          "maple".toList, "pales".toList, "plane".toList, "zebra".toList] 20 = none →
      find_solution [("funky".toList, ".....".toList), ("plane".toList, "pla.E".toList)]
        ["about".toList, "ample".toList, "apple".toList, "funky".toList, "lapse".toList,
          "maple".toList, "pales".toList, "plane".toList, "zebra".toList] 2 = none) ∧
    (assert_solution [("funky".toList, ".....".toList), ("plane".toList, "pla.E".toList)]
        ["about".toList, "ample".toList, "apple".toList, "funky".toList, "lapse".toList,
          "maple".toList, "pales".toList, "plane".toList, "zebra".toList] = true →
      ["about".toList, "ample".toList, "apple".toList, "funky".toList, "lapse".toList,
        "maple".toList, "pales".toList, "plane".toList, "zebra".toList].length ≤ 10000 →
      ∃ n' s',
        find_solution [("funky".toList, ".....".toList), ("plane".toList, "pla.E".toList)]
          ["about".toList, "ample".toList, "apple".toList, "funky".toList, "lapse".toList,
            "maple".toList, "pales".toList, "plane".toList, "zebra".toList] 20
          = some (n', s')) :=
  ⟨by decide, by decide, ⟨by decide, by decide⟩,
    find_solution_truncation
      [("funky".toList, ".....".toList), ("plane".toList, "pla.E".toList)]
      ["about".toList, "ample".toList, "apple".toList, "funky".toList, "lapse".toList,
        "maple".toList, "pales".toList, "plane".toList, "zebra".toList] 2 20
      (by decide) (by decide)⟩

/-- C9: constraints are commutative.  For every history, every permutation of
that history, every word list and every `max_solutions`, the run of
`find_solution` on the permuted history and the run on the original history
have the same outcome: the same returned count and the same stored sequence of
words when one of them has a result, and no result for either otherwise.  Both
runs have a result whenever `max_solutions ≥ 1`, the assertions of the source
hold on the history and the list has at most 10000 words. -/
theorem find_solution_permutation (history reordered : History)
    (word_list : List (List Char)) (max_solutions : Nat) (hperm : reordered.Perm history) :
    find_solution reordered word_list max_solutions
      = find_solution history word_list max_solutions ∧
    (1 ≤ max_solutions → assert_solution history word_list = true →
      word_list.length ≤ 10000 →
      ∃ n s, find_solution history word_list max_solutions = some (n, s) ∧
        find_solution reordered word_list max_solutions = some (n, s)) := by
  constructor
  · cases h : find_solution history word_list max_solutions with
    | some p =>
      exact find_solution_perm_some history reordered word_list max_solutions p.1 p.2 hperm h
    | none =>
      cases h' : find_solution reordered word_list max_solutions with
      | none => rfl
      | some p =>
        have h2 := find_solution_perm_some reordered history word_list max_solutions p.1 p.2
          hperm.symm h'
        rw [h] at h2
        exact absurd h2 (by simp)
  · intro hmax hassert hcap
    have h := find_solution_eq history word_list max_solutions hmax hcap hassert
    exact ⟨_, _, h,
      find_solution_perm_some history reordered word_list max_solutions _ _ hperm h⟩

/-- C9 on the example of `wordle.h` with its two records exchanged. -/
theorem find_solution_permutation_witness :
    find_solution [("plane".toList, "pla.E".toList), ("funky".toList, ".....".toList)]
        ["about".toList, "ample".toList, "apple".toList, "funky".toList, "lapse".toList,
          "maple".toList, "pales".toList, "plane".toList, "zebra".toList] 3
      = some (3, ["ample".toList, "apple".toList, "lapse".toList]) ∧
    List.Perm [("plane".toList, "pla.E".toList), ("funky".toList, ".....".toList)]
      [("funky".toList, ".....".toList), ("plane".toList, "pla.E".toList)] ∧
    find_solution [("plane".toList, "pla.E".toList), ("funky".toList, ".....".toList)]
        ["about".toList, "ample".toList, "apple".toList, "funky".toList, "lapse".toList,
          "maple".toList, "pales".toList, "plane".toList, "zebra".toList] 3
      = find_solution [("funky".toList, ".....".toList), ("plane".toList, "pla.E".toList)]
        ["about".toList, "ample".toList, "apple".toList, "funky".toList, "lapse".toList,
          "maple".toList, "pales".toList, "plane".toList, "zebra".toList] 3 ∧
    (1 ≤ 3 →
      assert_solution [("funky".toList, ".....".toList), ("plane".toList, "pla.E".toList)]
        ["about".toList, "ample".toList, "apple".toList, "funky".toList, "lapse".toList,
          "maple".toList, "pales".toList, "plane".toList, "zebra".toList] = true →
      ["about".toList, "ample".toList, "apple".toList, "funky".toList, "lapse".toList,
        "maple".toList, "pales".toList, "plane".toList, "zebra".toList].length ≤ 10000 →
      ∃ n s,
        find_solution [("funky".toList, ".....".toList), ("plane".toList, "pla.E".toList)]
          ["about".toList, "ample".toList, "apple".toList, "funky".toList, "lapse".toList,
            "maple".toList, "pales".toList, "plane".toList, "zebra".toList] 3 = some (n, s) ∧
        find_solution [("plane".toList, "pla.E".toList), ("funky".toList, ".....".toList)]
          ["about".toList, "ample".toList, "apple".toList, "funky".toList, "lapse".toList,
            "maple".toList, "pales".toList, "plane".toList, "zebra".toList] 3 = some (n, s)) :=
  ⟨by decide, List.Perm.swap _ _ _,
    find_solution_permutation
      [("funky".toList, ".....".toList), ("plane".toList, "pla.E".toList)]
      [("plane".toList, "pla.E".toList), ("funky".toList, ".....".toList)]
      ["about".toList, "ample".toList, "apple".toList, "funky".toList, "lapse".toList,
        "maple".toList, "pales".toList, "plane".toList, "zebra".toList] 3
      (List.Perm.swap _ _ _)⟩

/-! ## `available_letters`: independence of the previous buffer -/

/-- The first 27 entries of the buffer after `available_letters` are fixed by
the history. -/
theorem available_letters_prefix (history : History) (a1 a2 o1 o2 : List Char)
    (hrec : ∀ rec ∈ history, assert_record rec = true)
    (h1 : 27 ≤ a1.length) (h2 : 27 ≤ a2.length)
    (e1 : available_letters history a1 = some o1)
    (e2 : available_letters history a2 = some o2) (i : Nat) (hi : i < 27) :
    o1[i]? = o2[i]? := by
  obtain ⟨p1, f1, -, f3, -, f5⟩ := available_letters_eq history a1 hrec h1
  obtain ⟨p2, g1, -, g3, -, g5⟩ := available_letters_eq history a2 hrec h2
  rw [e1] at f1
  rw [e2] at g1
  cases f1
  cases g1
  by_cases h26 : i = 26
  · rw [h26, f3, g3]
  · obtain ⟨c, hc, hci⟩ := lower_of_index i (by omega)
    rw [← hci, f5 c hc, g5 c hc]

/-- C11: for every history (of records as the source asserts them) the 26-letter
status and the NUL at index 26 that `available_letters` produces do not depend
on the previous contents of the buffer, and a second call on the buffer that
the first call produced leaves that buffer unchanged. -/
theorem available_letters_idempotent (history : History) (a1 a2 : List Char)
    (hrec : ∀ rec ∈ history, assert_record rec = true)
    (h1 : 27 ≤ a1.length) (h2 : 27 ≤ a2.length) :
    ∃ o1 o2, available_letters history a1 = some o1 ∧
      available_letters history a2 = some o2 ∧
      o1.take 27 = o2.take 27 ∧ available_letters history o1 = some o1 := by
  obtain ⟨o1, e1, l1, -, r1, -⟩ := available_letters_eq history a1 hrec h1
  obtain ⟨o2, e2, l2, -, -, -⟩ := available_letters_eq history a2 hrec h2
  obtain ⟨o3, e3, l3, -, r3, -⟩ := available_letters_eq history o1 hrec (by omega)
  refine ⟨o1, o2, e1, e2, ?_, ?_⟩
  · apply List.ext_getElem?
    intro i
    rw [List.getElem?_take, List.getElem?_take]
    by_cases hi : i < 27
    · rw [if_pos hi, if_pos hi]
      exact available_letters_prefix history a1 a2 o1 o2 hrec h1 h2 e1 e2 i hi
    · rw [if_neg hi, if_neg hi]
  · rw [e3]
    congr 1
    apply List.ext_getElem?
    intro i
    by_cases hi : i < 27
    · exact available_letters_prefix history o1 a1 o3 o1 hrec (by omega) h1 e3 e1 i hi
    · exact r3 i (by omega)

/-- C11 on the example of `wordle.h`, from a buffer of question marks and from
a buffer of 30 hash signs. -/
theorem available_letters_idempotent_witness :
    ∃ o1 o2,
      available_letters [("apple".toList, ".pp..".toList), ("touch".toList, ".OUCH".toList)]
        (List.replicate 27 '?') = some o1 ∧
      available_letters [("apple".toList, ".pp..".toList), ("touch".toList, ".OUCH".toList)]
        (List.replicate 30 '#') = some o2 ∧
      o1.take 27 = o2.take 27 ∧
      available_letters [("apple".toList, ".pp..".toList), ("touch".toList, ".OUCH".toList)]
        o1 = some o1 :=
  available_letters_idempotent
    [("apple".toList, ".pp..".toList), ("touch".toList, ".OUCH".toList)]
    (List.replicate 27 '?') (List.replicate 30 '#') (by decide) (by decide) (by decide)

/-! ## `evaluate_guess`: repeated letters -/

/-- A position of the result holds a period exactly when the guess letter at
that position does not occur in the secret. -/
theorem evaluate_absent_iff (secret guess result : List Char) (b : Bool)
    (hs : assert_lower secret = true) (h : evaluate secret guess = some (b, result))
    (i : Nat) (g : Char) (hg : guess[i]? = some g) :
    result[i]? = some '.' ↔ g ∉ secret := by
  obtain ⟨hlen, -, hres⟩ := evaluate_some secret guess result b hs h
  have hi : i < guess.length := by
    by_contra hc
    rw [List.getElem?_eq_none (by omega)] at hg
    exact absurd hg (by simp)
  have hrl : result.length = guess.length := by rw [hres]; simp [hlen]
  have hri : result[i]? = some result[i] := List.getElem?_eq_getElem (by omega)
  obtain ⟨hgl, s, hsi, hfe⟩ := played_positions secret guess result b hs h i g _ hg hri
  rw [hri, Option.some.injEq, hfe]
  exact (feedback_char_cases secret s g (List.mem_iff_getElem?.2 ⟨i, hsi⟩) hgl).2.2

/-- C12 (as amended): for every lowercase secret and lowercase guess of equal
length, a letter of the guess that `evaluate_guess` tags Absent at one of its
occurrences is tagged Absent at every occurrence in that guess, and is neither
Present nor Correct at another occurrence.  This holds for every call that has
a result, whatever the buffer, and the call has a result on every buffer whose
previous contents pass the assertion of the source and which has room for the
guess. -/
theorem evaluate_guess_absent_everywhere (S G : List Char) (hS : assert_lower S = true)
    (hG : assert_lower G = true) (hlen : S.length = G.length) :
    (∀ (buffer : List Char) (n : Nat), strlen buffer = some n →
      assert_result (buffer.take n) = true → G.length ≤ buffer.length →
      ∃ b out, evaluate_guess S G buffer = some (b, out)) ∧
    ∀ (buffer out : List Char) (b : Bool), evaluate_guess S G buffer = some (b, out) →
      ∀ (i j : Nat) (g : Char), G[i]? = some g → G[j]? = some g → out[i]? = some '.' →
        out[j]? = some '.' ∧ out[j]? ≠ some g ∧ out[j]? ≠ some (to_upper g) := by
  constructor
  · intro buffer n hn hres hsize
    exact ⟨_, _, (evaluate_guess_iff S G buffer _ _).2
      ⟨⟨n, hn, hres⟩, hsize, _, evaluate_eq S G hS hG hlen, rfl⟩⟩
  · intro buffer out b h i j g hi hj hdot
    obtain ⟨-, -, written, heq, hout⟩ := (evaluate_guess_iff S G buffer out b).1 h
    have hwl : written.length = G.length := by
      rw [(evaluate_some S G written b hS heq).2.2]
      simp [hlen]
    have hlt : ∀ (k : Nat), G[k]? = some g → k < written.length := by
      intro k hk
      rw [hwl]
      by_contra hc
      rw [List.getElem?_eq_none (by omega)] at hk
      exact absurd hk (by simp)
    have hgl : is_lower g = true := by
      simp only [assert_lower, List.all_eq_true] at hG
      exact hG g (List.mem_iff_getElem?.2 ⟨i, hi⟩)
    obtain ⟨-, u2, u3, -⟩ := to_upper_facts g hgl
    rw [hout] at hdot ⊢
    rw [List.getElem?_append_left (hlt i hi)] at hdot
    rw [List.getElem?_append_left (hlt j hj)]
    have hnot := (evaluate_absent_iff S G written b hS heq i g hi).1 hdot
    have hj' := (evaluate_absent_iff S G written b hS heq j g hj).2 hnot
    refine ⟨hj', ?_, ?_⟩
    · rw [hj']
      intro e
      exact u3 (Option.some.inj e).symm
    · rw [hj']
      intro e
      exact u2 (Option.some.inj e).symm

/-- C12 (as amended) at secret "apple" and guess "teeth", on a buffer that holds
the empty string: the letter "t", which does not occur in "apple", is Absent at
both of its occurrences (positions 0 and 3), while the repeated letter "e" is
Present at both of its occurrences; the result is ".ee..". -/
theorem evaluate_guess_absent_everywhere_witness :
    evaluate_guess "apple".toList "teeth".toList (List.replicate 6 (Char.ofNat 0))
      = some (false, ".ee..".toList ++ [Char.ofNat 0]) ∧
    "teeth".toList[0]? = some 't' ∧ "teeth".toList[3]? = some 't' ∧
    (∀ (buffer : List Char) (n : Nat), strlen buffer = some n →
      assert_result (buffer.take n) = true → "teeth".toList.length ≤ buffer.length →
      ∃ b out, evaluate_guess "apple".toList "teeth".toList buffer = some (b, out)) ∧
    ∀ (buffer out : List Char) (b : Bool),
      evaluate_guess "apple".toList "teeth".toList buffer = some (b, out) →
      ∀ (i j : Nat) (g : Char), "teeth".toList[i]? = some g → "teeth".toList[j]? = some g →
        out[i]? = some '.' →
          out[j]? = some '.' ∧ out[j]? ≠ some g ∧ out[j]? ≠ some (to_upper g) :=
  ⟨by decide, by decide, by decide,
    evaluate_guess_absent_everywhere "apple".toList "teeth".toList
      (by decide) (by decide) (by decide)⟩

/-- C12 fails as stated: there are no lowercase secret, lowercase guess of equal
length and buffer for which `evaluate_guess` writes a period at one occurrence
of a letter of the guess and that letter, in lower or upper case, at another
occurrence. -/
theorem evaluate_guess_absent_everywhere_counterexample :
    ¬ ∃ (S G buffer out : List Char) (b : Bool) (i j : Nat) (g : Char),
      assert_lower S = true ∧ assert_lower G = true ∧ S.length = G.length ∧
      evaluate_guess S G buffer = some (b, out) ∧ G[i]? = some g ∧ G[j]? = some g ∧
      out[i]? = some '.' ∧ (out[j]? = some g ∨ out[j]? = some (to_upper g)) := by
  rintro ⟨S, G, buffer, out, b, i, j, g, hS, hG, hlen, h, hi, hj, hdot, hother⟩
  obtain ⟨-, -, written, heq, hout⟩ := (evaluate_guess_iff S G buffer out b).1 h
  have hwl : written.length = G.length := by
    rw [(evaluate_some S G written b hS heq).2.2]
    simp [hlen]
  have hlt : ∀ (k : Nat), G[k]? = some g → k < written.length := by
    intro k hk
    rw [hwl]
    by_contra hc
    rw [List.getElem?_eq_none (by omega)] at hk
    exact absurd hk (by simp)
  have hgl : is_lower g = true := by
    simp only [assert_lower, List.all_eq_true] at hG
    exact hG g (List.mem_iff_getElem?.2 ⟨i, hi⟩)
  obtain ⟨-, u2, u3, -⟩ := to_upper_facts g hgl
  rw [hout] at hdot hother
  rw [List.getElem?_append_left (hlt i hi)] at hdot
  rw [List.getElem?_append_left (hlt j hj)] at hother
  have hnot := (evaluate_absent_iff S G written b hS heq i g hi).1 hdot
  have hj' := (evaluate_absent_iff S G written b hS heq j g hj).2 hnot
  rw [hj'] at hother
  rcases hother with e | e
  · exact u3 (Option.some.inj e).symm
  · exact u2 (Option.some.inj e).symm

/-! ## `find_solution`: soundness and completeness of the stored words -/

/-- C13: for every history of well-formed records, every list of lowercase words
and every `max_solutions`, each word that `find_solution` stores is an element
of the word list and, used as the secret, makes `evaluate_guess` write the
recorded result for every record of the history.  The run has a result when
`max_solutions ≥ 1`, the list has at most 10000 words and the records have the
length of the words. -/
theorem find_solution_sound (history : History) (word_list : List (List Char))
    (max_solutions : Nat) (hwf : ∀ rec ∈ history, well_formed rec = true)
    (hwords : ∀ w ∈ word_list, assert_lower w = true) :
    (∀ n s, find_solution history word_list max_solutions = some (n, s) →
      ∀ W ∈ s, W ∈ word_list ∧
        ∀ rec ∈ history, ∃ b, evaluate W rec.1 = some (b, rec.2)) ∧
    (1 ≤ max_solutions → word_list.length ≤ 10000 →
      (∀ w ∈ word_list, ∀ rec ∈ history, rec.1.length = w.length) →
      ∃ n s, find_solution history word_list max_solutions = some (n, s)) := by
  constructor
  · intro n s h W hW
    obtain ⟨hmax, hcap, hassert⟩ := find_solution_some history word_list max_solutions n s h
    rw [find_solution_eq history word_list max_solutions hmax hcap hassert] at h
    simp only [Option.some.injEq, Prod.mk.injEq] at h
    rw [← h.2] at hW
    have hmem := List.mem_of_mem_take hW
    rw [List.mem_filter] at hmem
    obtain ⟨hin, htwo⟩ := hmem
    refine ⟨hin, ?_⟩
    have hone : phase_one history W = true := by
      unfold two_phase at htwo
      rw [Bool.and_eq_true] at htwo
      exact htwo.1
    have hh : history ≠ [] := by
      intro e
      simp [phase_one, e] at hone
    have hne : W ≠ [] := by
      intro e
      simp [phase_one, e] at hone
    have ha := (assert_solution_iff history word_list).1 hassert W hin
    rw [two_phase_eq_consistent history W hh hne (hwords W hin)
      (fun rec hr => ⟨hwf rec hr, (ha rec hr).1⟩)] at htwo
    exact (consistent_iff history W).1 htwo
  · intro hmax hcap hlen
    have hassert : assert_solution history word_list = true := by
      rw [assert_solution_iff]
      intro w hw rec hr
      have har := assert_record_of_well_formed rec (hwf rec hr)
      simp only [assert_record, Bool.and_eq_true, decide_eq_true_eq] at har
      exact ⟨hlen w hw rec hr, har.1.1, har.1.2, har.2⟩
    exact ⟨_, _, find_solution_eq history word_list max_solutions hmax hcap hassert⟩

/-- C13 on the example of `wordle.h` with a nine-word list. -/
theorem find_solution_sound_witness :
    find_solution [("funky".toList, ".....".toList), ("plane".toList, "pla.E".toList)]
        ["about".toList, "ample".toList, "apple".toList, "funky".toList, "lapse".toList,
          "maple".toList, "pales".toList, "plane".toList, "zebra".toList] 20
      = some (4, ["ample".toList, "apple".toList, "lapse".toList, "maple".toList]) ∧
    ((∀ n s,
        find_solution [("funky".toList, ".....".toList), ("plane".toList, "pla.E".toList)]
          ["about".toList, "ample".toList, "apple".toList, "funky".toList, "lapse".toList,
            "maple".toList, "pales".toList, "plane".toList, "zebra".toList] 20 = some (n, s) →
        ∀ W ∈ s,
          W ∈ ["about".toList, "ample".toList, "apple".toList, "funky".toList,
            "lapse".toList, "maple".toList, "pales".toList, "plane".toList,
            "zebra".toList] ∧
          ∀ rec ∈ [("funky".toList, ".....".toList), ("plane".toList, "pla.E".toList)],
            ∃ b, evaluate W rec.1 = some (b, rec.2)) ∧
      (1 ≤ 20 →
        ["about".toList, "ample".toList, "apple".toList, "funky".toList, "lapse".toList,
          "maple".toList, "pales".toList, "plane".toList, "zebra".toList].length ≤ 10000 →
        (∀ w ∈ ["about".toList, "ample".toList, "apple".toList, "funky".toList,
            "lapse".toList, "maple".toList, "pales".toList, "plane".toList, "zebra".toList],
          ∀ rec ∈ [("funky".toList, ".....".toList), ("plane".toList, "pla.E".toList)],
            rec.1.length = w.length) →
        ∃ n s,
          find_solution [("funky".toList, ".....".toList), ("plane".toList, "pla.E".toList)]
            ["about".toList, "ample".toList, "apple".toList, "funky".toList, "lapse".toList,
              "maple".toList, "pales".toList, "plane".toList, "zebra".toList] 20
            = some (n, s))) :=
  ⟨by decide,
    find_solution_sound
      [("funky".toList, ".....".toList), ("plane".toList, "pla.E".toList)]
      ["about".toList, "ample".toList, "apple".toList, "funky".toList, "lapse".toList,
        "maple".toList, "pales".toList, "plane".toList, "zebra".toList] 20
      (by decide) (by decide)⟩

/-- The feedback classes of `find_solution` on a well-formed position: the test
of the first pass and the Present mark, in terms of the recorded character. -/
theorem position_classes (wk gk rk : Char) (hgl : is_lower gk = true)
    (hwf : rk = '.' ∨ rk = gk ∨ rk = to_upper gk) :
    (position_ok wk gk rk = true ↔
      (rk = to_upper gk → wk = gk) ∧ ((rk = '.' ∨ rk = gk) → wk ≠ gk)) ∧
    (is_present_mark (gk, rk) = true ↔ rk = gk) := by
  obtain ⟨u1, u2, u3, u4, u5, -⟩ := to_upper_facts gk hgl
  generalize hz : 'Z'.toNat = z at u4 u5
  have hpm : ((!decide (rk = '.') && !decide (rk.toNat ≤ z)) = true) ↔
      (rk ≠ '.' ∧ ¬ rk.toNat ≤ z) := by
    rw [Bool.and_eq_true, Bool.not_eq_true', Bool.not_eq_true', decide_eq_false_iff_not,
      decide_eq_false_iff_not]
  have hgoal : ((if rk = '.' then decide (wk ≠ gk)
        else if rk.toNat ≤ z then decide (wk = gk) else decide (wk ≠ gk)) = true ↔
      (rk = to_upper gk → wk = gk) ∧ ((rk = '.' ∨ rk = gk) → wk ≠ gk)) ∧
      ((!decide (rk = '.') && !decide (rk.toNat ≤ z)) = true ↔ rk = gk) := by
    rw [hpm]
    rcases hwf with h | h | h
    · have f1 : rk ≠ to_upper gk := fun e => u2 (e.symm.trans h)
      have f2 : rk ≠ gk := fun e => u3 (e.symm.trans h)
      rw [if_pos h]
      exact ⟨⟨fun hh => ⟨fun e => absurd e f1, fun _ => of_decide_eq_true hh⟩,
        fun hh => decide_eq_true (hh.2 (Or.inl h))⟩,
        ⟨fun hh => absurd h hh.1, fun e => absurd e f2⟩⟩
    · have g1 : rk ≠ '.' := fun e => u3 (h.symm.trans e)
      have g2 : ¬ rk.toNat ≤ z := by rw [h]; exact u5
      have g3 : rk ≠ to_upper gk := fun e => u1 (e.symm.trans h)
      rw [if_neg g1, if_neg g2]
      exact ⟨⟨fun hh => ⟨fun e => absurd e g3, fun _ => of_decide_eq_true hh⟩,
        fun hh => decide_eq_true (hh.2 (Or.inr h))⟩,
        ⟨fun _ => h, fun _ => ⟨g1, g2⟩⟩⟩
    · have k1 : rk ≠ '.' := fun e => u2 (h.symm.trans e)
      have k2 : rk.toNat ≤ z := by rw [h]; exact u4
      have k3 : rk ≠ gk := fun e => u1 (h.symm.trans e)
      rw [if_neg k1, if_pos k2]
      exact ⟨⟨fun hh => ⟨fun _ => of_decide_eq_true hh,
          fun e => e.elim (fun e => absurd e k1) (fun e => absurd e k3)⟩,
        fun hh => decide_eq_true (hh.1 h)⟩,
        ⟨fun hh => absurd k2 hh.2, fun e => absurd e k3⟩⟩
  rw [← hz] at hgoal
  exact hgoal

/-- C14: for a non-empty history of well-formed records of length `L ≥ 1`, a
list of at most 10000 words of length `L` and a cap that does not truncate, a
word `W` of the list is stored by `find_solution` iff (phase 1) at every
position `k` of every record `(G, F)`, `F[k]` Correct implies `W[k] = G[k]` and
`F[k]` Absent or Present implies `W[k] ≠ G[k]`, and (phase 2) `W` contains
every letter that is Present somewhere in the history and no letter that is
Absent somewhere in the history. -/
theorem find_solution_two_phase (history : History) (word_list : List (List Char))
    (max_solutions L : Nat) (hhist : history ≠ []) (hL : 1 ≤ L)
    (hwf : ∀ rec ∈ history, well_formed rec = true ∧ rec.1.length = L)
    (hwords : ∀ w ∈ word_list, w.length = L)
    (hcap : word_list.length ≤ 10000) (hmax : 1 ≤ max_solutions)
    (hall : word_list.length ≤ max_solutions) :
    ∃ n s, find_solution history word_list max_solutions = some (n, s) ∧
      ∀ W ∈ word_list, (W ∈ s ↔
        (∀ rec ∈ history, ∀ (k : Nat) (w g f : Char),
          W[k]? = some w → rec.1[k]? = some g → rec.2[k]? = some f →
            (f = to_upper g → w = g) ∧ ((f = '.' ∨ f = g) → w ≠ g)) ∧
        (∀ rec ∈ history, ∀ (k : Nat) (g : Char),
          rec.1[k]? = some g → rec.2[k]? = some g → g ∈ W) ∧
        (∀ rec ∈ history, ∀ (k : Nat) (g : Char),
          rec.1[k]? = some g → rec.2[k]? = some '.' → g ∉ W)) := by
  have hassert : assert_solution history word_list = true := by
    rw [assert_solution_iff]
    intro w hw rec hr
    obtain ⟨h1, h2⟩ := hwf rec hr
    have har := assert_record_of_well_formed rec h1
    simp only [assert_record, Bool.and_eq_true, decide_eq_true_eq] at har
    exact ⟨by rw [h2, hwords w hw], har.1.1, har.1.2, har.2⟩
  refine ⟨_, _, find_solution_eq history word_list max_solutions hmax hcap hassert, ?_⟩
  intro W hW
  rw [List.take_of_length_le (le_trans (List.length_filter_le _ _) hall), List.mem_filter]
  have hne : W ≠ [] := by
    apply List.ne_nil_of_length_pos
    rw [hwords W hW]; omega
  have hW' : W.isEmpty = false := by cases W <;> simp_all
  have hh' : history.isEmpty = false := by cases history <;> simp_all
  have hcls : ∀ rec ∈ history, ∀ (k : Nat) (g f : Char),
      rec.1[k]? = some g → rec.2[k]? = some f →
        is_lower g = true ∧ (f = '.' ∨ f = g ∨ f = to_upper g) := by
    intro rec hr k g f hg hf
    obtain ⟨-, a2, a3⟩ := (well_formed_iff rec).1 (hwf rec hr).1
    simp only [assert_lower, List.all_eq_true] at a2
    exact ⟨a2 g (List.mem_iff_getElem?.2 ⟨k, hg⟩), a3 k g f hg hf⟩
  unfold two_phase phase_one
  rw [Bool.and_eq_true, phase_two_iff, hW', hh']
  simp only [Bool.not_false, Bool.true_and, List.all_eq_true, passes_iff, hW, true_and]
  constructor
  · rintro ⟨h1, h2, h3⟩
    refine ⟨?_, ?_, ?_⟩
    · intro rec hr k w g f hw hg hf
      obtain ⟨c1, c2⟩ := hcls rec hr k g f hg hf
      exact (position_classes w g f c1 c2).1.1 (h1 rec hr k w g f hw hg hf)
    · intro rec hr k g hg hf
      obtain ⟨c1, c2⟩ := hcls rec hr k g g hg hf
      exact h2 (g, g) ((mem_occurrences_iff history _).2 ⟨rec, hr, k, hg, hf⟩)
        ((position_classes g g g c1 c2).2.2 rfl)
    · intro rec hr k g hg hf
      exact h3 (g, '.') ((mem_occurrences_iff history _).2 ⟨rec, hr, k, hg, hf⟩) rfl
  · rintro ⟨h1, h2, h3⟩
    refine ⟨?_, ?_, ?_⟩
    · intro rec hr k w g f hw hg hf
      obtain ⟨c1, c2⟩ := hcls rec hr k g f hg hf
      exact (position_classes w g f c1 c2).1.2 (h1 rec hr k w g f hw hg hf)
    · intro p hp hm
      obtain ⟨rec, hr, k, hg, hf⟩ := (mem_occurrences_iff history p).1 hp
      obtain ⟨c1, c2⟩ := hcls rec hr k p.1 p.2 hg hf
      have e : p.2 = p.1 := (position_classes p.1 p.1 p.2 c1 c2).2.1 hm
      rw [e] at hf
      exact h2 rec hr k p.1 hg hf
    · intro p hp hm
      obtain ⟨rec, hr, k, hg, hf⟩ := (mem_occurrences_iff history p).1 hp
      rw [hm] at hf
      exact h3 rec hr k p.1 hg hf

/-- C14 on the example of `wordle.h` with a nine-word list and the cap 9. -/
theorem find_solution_two_phase_witness :
    find_solution [("funky".toList, ".....".toList), ("plane".toList, "pla.E".toList)]
        ["about".toList, "ample".toList, "apple".toList, "funky".toList, "lapse".toList,
          "maple".toList, "pales".toList, "plane".toList, "zebra".toList] 9
      = some (4, ["ample".toList, "apple".toList, "lapse".toList, "maple".toList]) ∧
    ∃ n s,
      find_solution [("funky".toList, ".....".toList), ("plane".toList, "pla.E".toList)]
        ["about".toList, "ample".toList, "apple".toList, "funky".toList, "lapse".toList,
          "maple".toList, "pales".toList, "plane".toList, "zebra".toList] 9 = some (n, s) ∧
      ∀ W ∈ ["about".toList, "ample".toList, "apple".toList, "funky".toList, "lapse".toList,
          "maple".toList, "pales".toList, "plane".toList, "zebra".toList], (W ∈ s ↔
        (∀ rec ∈ [("funky".toList, ".....".toList), ("plane".toList, "pla.E".toList)],
          ∀ (k : Nat) (w g f : Char),
            W[k]? = some w → rec.1[k]? = some g → rec.2[k]? = some f →
              (f = to_upper g → w = g) ∧ ((f = '.' ∨ f = g) → w ≠ g)) ∧
        (∀ rec ∈ [("funky".toList, ".....".toList), ("plane".toList, "pla.E".toList)],
          ∀ (k : Nat) (g : Char), rec.1[k]? = some g → rec.2[k]? = some g → g ∈ W) ∧
        (∀ rec ∈ [("funky".toList, ".....".toList), ("plane".toList, "pla.E".toList)],
          ∀ (k : Nat) (g : Char), rec.1[k]? = some g → rec.2[k]? = some '.' → g ∉ W)) :=
  ⟨by decide,
    find_solution_two_phase
      [("funky".toList, ".....".toList), ("plane".toList, "pla.E".toList)]
      ["about".toList, "ample".toList, "apple".toList, "funky".toList, "lapse".toList,
        "maple".toList, "pales".toList, "plane".toList, "zebra".toList] 9 5
      (by decide) (by decide) (by decide) (by decide) (by decide) (by decide) (by decide)⟩

/-! ## Hard mode and consistency with `evaluate_guess` -/

/-- One step of `valid_hard_guess` on a record on which its assertions hold. -/
theorem valid_hard_guess_cons (rec : List Char × List Char) (rest : History)
    (next_guess : List Char) (hwf : well_formed rec = true)
    (hlen : rec.1.length = next_guess.length) (hnext : assert_lower next_guess = true) :
    valid_hard_guess (rec :: rest) next_guess =
      if hard_record_ok rec next_guess = false then some false
      else valid_hard_guess rest next_guess := by
  have e : valid_hard_guess (rec :: rest) next_guess =
      (if assert_record rec = false then none
        else if decide (rec.1.length = next_guess.length) = false then none
        else if assert_lower next_guess = false then none
        else if hard_record_ok rec next_guess = false then some false
        else valid_hard_guess rest next_guess) := rfl
  rw [e, assert_record_of_well_formed rec hwf, hnext, decide_eq_true hlen]
  rfl

/-- At one position of a well-formed record, `evaluate_guess` with the word as
the secret reproduces the recorded character exactly when the three rules of
hard mode hold at that position. -/
theorem position_hard_consistent (w : List Char) (j : Nat) (wk gk rk : Char)
    (hwk : w[j]? = some wk) (hgl : is_lower gk = true)
    (hwf : rk = '.' ∨ rk = gk ∨ rk = to_upper gk) :
    (if wk = gk then to_upper gk else if gk ∈ w then gk else '.') = rk ↔
      (rk = to_upper gk → w[j]? = some gk) ∧ (rk = '.' → gk ∉ w) ∧
        (rk = gk → w[j]? ≠ some gk ∧ ∃ k, k ≠ j ∧ w[k]? = some gk) := by
  obtain ⟨c1, c2, c3⟩ := feedback_char_cases w wk gk (List.mem_iff_getElem?.2 ⟨j, hwk⟩) hgl
  obtain ⟨u1, u2, u3, -⟩ := to_upper_facts gk hgl
  have hj : w[j]? = some gk ↔ wk = gk := by rw [hwk, Option.some.injEq]
  rw [hj]
  rcases hwf with h | h | h
  · have f1 : rk ≠ to_upper gk := fun e => u2 (e.symm.trans h)
    have f2 : rk ≠ gk := fun e => u3 (e.symm.trans h)
    rw [h, c3]
    exact ⟨fun hh => ⟨fun e => absurd e.symm u2, fun _ => hh, fun e => absurd e.symm u3⟩,
      fun hh => hh.2.1 rfl⟩
  · rw [h, c2]
    constructor
    · rintro ⟨h1, h2⟩
      refine ⟨fun e => absurd e.symm u1, fun e => absurd e u3, fun _ => ⟨fun e => h1 (hj.1 e).symm, ?_⟩⟩
      obtain ⟨k, hk⟩ := List.mem_iff_getElem?.1 h2
      refine ⟨k, ?_, hk⟩
      intro e
      rw [e, hwk, Option.some.injEq] at hk
      exact h1 hk.symm
    · intro hh
      obtain ⟨h1, k, -, hk⟩ := hh.2.2 rfl
      exact ⟨fun e => h1 (hj.2 e.symm), List.mem_iff_getElem?.2 ⟨k, hk⟩⟩
  · rw [h, c1]
    exact ⟨fun hh => ⟨fun _ => hh.symm, fun e => absurd e u2, fun e => absurd e u1⟩,
      fun hh => (hh.1 rfl).symm⟩

/-- For a well-formed record of the length of a lowercase word, the check of
`valid_hard_guess` on the record succeeds exactly when `evaluate_guess`, with
the word as the secret, writes the recorded result. -/
theorem hard_record_ok_consistent (rec : List Char × List Char) (w : List Char)
    (hwf : well_formed rec = true) (hlen : rec.1.length = w.length)
    (hw : assert_lower w = true) :
    hard_record_ok rec w = true ↔ ∃ b, evaluate w rec.1 = some (b, rec.2) := by
  obtain ⟨a1, a2, a3⟩ := (well_formed_iff rec).1 hwf
  have hcons := consistent_iff_pos [rec] w hw (fun r hr => by
    rw [List.mem_singleton] at hr
    subst hr
    exact ⟨hlen, a1, a2⟩)
  rw [consistent_iff] at hcons
  simp only [List.mem_singleton, forall_eq] at hcons
  rw [hcons, hard_record_ok_iff rec w hwf hlen]
  simp only [assert_lower, List.all_eq_true] at a2
  constructor
  · intro h j wk gk rk hwj hgj hrj
    exact (position_hard_consistent w j wk gk rk hwj
      (a2 gk (List.mem_iff_getElem?.2 ⟨j, hgj⟩)) (a3 j gk rk hgj hrj)).2 (h j gk rk hgj hrj)
  · intro h j gk rk hgj hrj
    obtain ⟨wk, hwj⟩ := getElem?_of_length_eq w rec.1 hlen j gk hgj
    exact (position_hard_consistent w j wk gk rk hwj
      (a2 gk (List.mem_iff_getElem?.2 ⟨j, hgj⟩)) (a3 j gk rk hgj hrj)).1
      (h j wk gk rk hwj hgj hrj)

/-- C15: for a history of well-formed records of the length of a lowercase word
`W`, `valid_hard_guess(history, W)` returns true iff, for every record `(G, F)`,
`evaluate_guess` with `W` as the secret and `G` as the guess writes exactly `F`. -/
theorem valid_hard_guess_consistent (history : History) (W : List Char)
    (hwf : ∀ rec ∈ history, well_formed rec = true ∧ rec.1.length = W.length)
    (hW : assert_lower W = true) :
    ∃ b, valid_hard_guess history W = some b ∧
      (b = true ↔ ∀ rec ∈ history, ∃ b', evaluate W rec.1 = some (b', rec.2)) := by
  induction history with
  | nil => exact ⟨true, rfl, by simp⟩
  | cons rec rest ih =>
    obtain ⟨b, hb, hiff⟩ := ih (fun r hr => hwf r (List.mem_cons_of_mem _ hr))
    obtain ⟨hw, hlen⟩ := hwf rec (List.mem_cons_self _ _)
    have hrec := hard_record_ok_consistent rec W hw hlen hW
    rw [valid_hard_guess_cons rec rest W hw hlen hW]
    by_cases hok : hard_record_ok rec W = true
    · rw [if_neg (by rw [hok]; exact Bool.noConfusion)]
      refine ⟨b, hb, ?_⟩
      rw [hiff]
      constructor
      · intro h r hr
        rcases List.mem_cons.1 hr with e | e
        · rw [e]; exact hrec.1 hok
        · exact h r e
      · intro h r hr
        exact h r (List.mem_cons_of_mem _ hr)
    · rw [if_pos (by simpa using hok)]
      refine ⟨false, rfl, ?_⟩
      constructor
      · intro h
        exact absurd h (by simp)
      · intro h
        exact absurd (hrec.2 (h rec (List.mem_cons_self _ _))) hok

/-- C15 at the history ("paper", "paPe.") played against "apple": the word
"apple" is accepted and reproduces the record; the word "maple" is rejected and
gives another result. -/
theorem valid_hard_guess_consistent_witness :
    valid_hard_guess [("paper".toList, "paPe.".toList)] "apple".toList = some true ∧
    valid_hard_guess [("paper".toList, "paPe.".toList)] "maple".toList = some false ∧
    evaluate "maple".toList "paper".toList = some (false, "pAPe.".toList) ∧
    ∃ b, valid_hard_guess [("paper".toList, "paPe.".toList)] "apple".toList = some b ∧
      (b = true ↔ ∀ rec ∈ [("paper".toList, "paPe.".toList)],
        ∃ b', evaluate "apple".toList rec.1 = some (b', rec.2)) :=
  ⟨by decide, by decide, by decide,
    valid_hard_guess_consistent [("paper".toList, "paPe.".toList)] "apple".toList
      (by decide) (by decide)⟩

/-! ## `find_solution`: the empty history and the true secret -/

/-- What `find_solution` does on the empty history and a list of at most 10000
words, for `max_solutions ≥ 1`: it returns 0 and stores nothing. -/
theorem find_solution_empty_history (word_list : List (List Char)) (max_solutions : Nat)
    (hcap : word_list.length ≤ 10000) (hmax : 1 ≤ max_solutions) :
    find_solution [] word_list max_solutions = some (0, []) := by
  have hassert : assert_solution [] word_list = true := by
    rw [assert_solution_iff]
    intro w _ rec hr
    exact absurd hr (List.not_mem_nil _)
  have hfilter : word_list.filter (two_phase []) = [] := by
    rw [List.filter_eq_nil_iff]
    intro w _
    simp [two_phase, phase_one]
  rw [find_solution_eq [] word_list max_solutions hmax hcap hassert, hfilter, List.take_nil]
  rfl

/-- The empty history on the word list "apple", "maple" with the cap 2. -/
theorem find_solution_empty_history_examples :
    find_solution [] ["apple".toList, "maple".toList] 2 = some (0, []) :=
  find_solution_empty_history ["apple".toList, "maple".toList] 2 (by decide) (by decide)

/-- C16 fails on the code.  With the empty history, the non-empty list of 10001
copies of "apple" and the cap 1, the claim gives the return value 0 and nothing
stored; the code reads the candidate flag `sol[10000]`, outside
`int sol[10000]`, and the call has no defined result. -/
theorem find_solution_empty_history_fails :
    List.replicate 10001 "apple".toList ≠ [] ∧
    find_solution [] (List.replicate 10001 "apple".toList) 1 = none :=
  ⟨by
    intro h
    have := congrArg List.length h
    rw [List.length_replicate] at this
    exact absurd this (by decide),
   find_solution_capacity _ _ _ (by rw [List.length_replicate]; decide)⟩

/-- C17: for a lowercase secret `S` of length `L ≥ 1` that occurs in a list of
at most 10000 words of length `L`, a non-empty history whose results are the
ones `evaluate_guess(S, G)` writes, and a cap `max_solutions ≥ num_words`, `S`
is among the words that `find_solution` stores. -/
theorem find_solution_keeps_secret (S : List Char) (history : History)
    (word_list : List (List Char)) (max_solutions L : Nat)
    (hS : assert_lower S = true) (hSL : S.length = L) (hL : 1 ≤ L) (hin : S ∈ word_list)
    (hwords : ∀ w ∈ word_list, w.length = L) (hcap : word_list.length ≤ 10000)
    (hhist : history ≠ [])
    (hplay : ∀ rec ∈ history, ∃ b, evaluate S rec.1 = some (b, rec.2))
    (hall : word_list.length ≤ max_solutions) :
    ∃ n s, find_solution history word_list max_solutions = some (n, s) ∧ S ∈ s := by
  have hwf : ∀ rec ∈ history, well_formed rec = true ∧ rec.1.length = S.length := by
    intro rec hr
    obtain ⟨b, hb⟩ := hplay rec hr
    exact played_well_formed S rec.1 rec.2 b hS hb
  have hassert : assert_solution history word_list = true := by
    rw [assert_solution_iff]
    intro w hw rec hr
    obtain ⟨h1, h2⟩ := hwf rec hr
    have har := assert_record_of_well_formed rec h1
    simp only [assert_record, Bool.and_eq_true, decide_eq_true_eq] at har
    exact ⟨by rw [h2, hSL, hwords w hw], har.1.1, har.1.2, har.2⟩
  have hmax : 1 ≤ max_solutions := by
    have : 0 < word_list.length := List.length_pos_of_mem hin
    omega
  have hne : S ≠ [] := by
    apply List.ne_nil_of_length_pos
    omega
  refine ⟨_, _, find_solution_eq history word_list max_solutions hmax hcap hassert, ?_⟩
  rw [List.take_of_length_le (le_trans (List.length_filter_le _ _) hall), List.mem_filter]
  refine ⟨hin, ?_⟩
  rw [two_phase_eq_consistent history S hhist hne hS hwf, consistent_iff]
  exact hplay

/-- C17 at the secret "apple" with the guesses "funky" and "plane". -/
theorem find_solution_keeps_secret_witness :
    ∃ n s,
      find_solution [("funky".toList, ".....".toList), ("plane".toList, "pla.E".toList)]
        ["about".toList, "ample".toList, "apple".toList, "funky".toList] 4 = some (n, s) ∧
      "apple".toList ∈ s :=
  find_solution_keeps_secret "apple".toList
    [("funky".toList, ".....".toList), ("plane".toList, "pla.E".toList)]
    ["about".toList, "ample".toList, "apple".toList, "funky".toList] 4 5
    (by decide) (by decide) (by decide) (by decide) (by decide) (by decide) (by decide)
    (by
      intro rec hr
      simp only [List.mem_cons, List.mem_singleton, List.not_mem_nil, or_false] at hr
      rcases hr with e | e
      · exact ⟨false, by rw [e]; decide⟩
      · exact ⟨false, by rw [e]; decide⟩)
    (by decide)

/-- C18: for a lowercase secret `S` and a history whose results are the ones
`evaluate_guess(S, G)` writes, `valid_hard_guess(history, S)` returns true. -/
theorem valid_hard_guess_secret (S : List Char) (history : History)
    (hS : assert_lower S = true)
    (hplay : ∀ rec ∈ history, ∃ b, evaluate S rec.1 = some (b, rec.2)) :
    valid_hard_guess history S = some true := by
  induction history with
  | nil => rfl
  | cons rec rest ih =>
    obtain ⟨b, hb⟩ := hplay rec (List.mem_cons_self _ _)
    obtain ⟨hw, hlen⟩ := played_well_formed S rec.1 rec.2 b hS hb
    have hok : hard_record_ok rec S = true :=
      (hard_record_ok_consistent rec S hw hlen hS).2 ⟨b, hb⟩
    rw [valid_hard_guess_cons rec rest S hw hlen hS,
      if_neg (by rw [hok]; exact Bool.noConfusion)]
    exact ih (fun r hr => hplay r (List.mem_cons_of_mem _ hr))

/-- C18 at the secret "apple" with the guesses "paper" and "touch". -/
theorem valid_hard_guess_secret_witness :
    valid_hard_guess [("paper".toList, "paPe.".toList), ("touch".toList, ".....".toList)]
      "apple".toList = some true :=
  valid_hard_guess_secret "apple".toList
    [("paper".toList, "paPe.".toList), ("touch".toList, ".....".toList)] (by decide)
    (by
      intro rec hr
      simp only [List.mem_cons, List.mem_singleton, List.not_mem_nil, or_false] at hr
      rcases hr with e | e
      · exact ⟨false, by rw [e]; decide⟩
      · exact ⟨false, by rw [e]; decide⟩)

/-! ## `find_in_list` on an arbitrary list -/

/-- The binary search on any list of at most `2 ^ 30` words, sorted or not: with
as many iterations as there are indices in `low .. high` the loop returns, it
reads only inside the list, and what it returns is -1 or an index in
`low .. high` that holds the guess. -/
theorem find_in_list_loop_safe (guess : List Char) (word_list : List (List Char))
    (hcap : word_list.length ≤ 1073741824) :
    ∀ (fuel : Nat) (low high : Int), 0 ≤ low → high < word_list.length →
      high - low + 1 ≤ fuel →
      ∃ r, find_in_list_loop guess word_list fuel low high = some r ∧
        (r = -1 ∨ (low ≤ r ∧ r ≤ high ∧ word_list[r.toNat]? = some guess)) := by
  intro fuel
  induction fuel with
  | zero =>
    intro low high _ _ h2
    have hlt : ¬ low ≤ high := by omega
    exact ⟨-1, by simp [find_in_list_loop, hlt], Or.inl rfl⟩
  | succ n ih =>
    intro low high h0 h1 h2
    unfold find_in_list_loop
    by_cases hle : low ≤ high
    · rw [if_pos hle]
      have hov : ¬ (2147483647 : Int) < low + high := by omega
      rw [if_neg hov]
      have hm0 : ¬ (low + high) / 2 < 0 := by omega
      have hmlt : ((low + high) / 2).toNat < word_list.length := by omega
      simp only [hm0, if_false]
      rw [List.getElem?_eq_getElem hmlt]
      simp only
      by_cases he : strcmp guess word_list[((low + high) / 2).toNat] = 0
      · rw [if_pos he]
        refine ⟨_, rfl, Or.inr ⟨by omega, by omega, ?_⟩⟩
        rw [List.getElem?_eq_getElem hmlt, (strcmp_eq_zero_iff _ _).1 he]
      · rw [if_neg he]
        by_cases hgt : strcmp guess word_list[((low + high) / 2).toNat] > 0
        · rw [if_pos hgt]
          obtain ⟨r, hr, hcase⟩ := ih ((low + high) / 2 + 1) high (by omega) h1 (by omega)
          refine ⟨r, hr, ?_⟩
          rcases hcase with h | ⟨a, b, c⟩
          · exact Or.inl h
          · exact Or.inr ⟨by omega, b, c⟩
        · rw [if_neg hgt]
          obtain ⟨r, hr, hcase⟩ := ih low ((low + high) / 2 - 1) h0 (by omega) (by omega)
          refine ⟨r, hr, ?_⟩
          rcases hcase with h | ⟨a, b, c⟩
          · exact Or.inl h
          · exact Or.inr ⟨a, by omega, c⟩
    · rw [if_neg hle]
      exact ⟨-1, rfl, Or.inl rfl⟩

/-- What `find_in_list` does on a word list of at most `2 ^ 30` words, sorted or
not, for a lowercase guess: the binary search terminates within `num_words`
iterations, reads `word_list` only at indices `0 .. num_words - 1`, and returns
-1 or an index `i` with `0 ≤ i < num_words` and `word_list[i] = guess`. -/
theorem find_in_list_safe (guess : List Char) (word_list : List (List Char))
    (hcap : word_list.length ≤ 1073741824) (hguess : assert_lower guess = true) :
    ∃ r, find_in_list guess word_list = some r ∧
      (r = -1 ∨ (0 ≤ r ∧ r < word_list.length ∧ word_list[r.toNat]? = some guess)) := by
  obtain ⟨r, hr, hcase⟩ := find_in_list_loop_safe guess word_list hcap word_list.length 0
    ((word_list.length : Int) - 1) (le_refl _) (by omega) (by omega)
  refine ⟨r, ?_, ?_⟩
  · unfold find_in_list
    rw [if_neg (by rw [hguess]; exact Bool.noConfusion), if_neg (by omega)]
    exact hr
  · rcases hcase with h | ⟨a, b, c⟩
    · exact Or.inl h
    · exact Or.inr ⟨a, by omega, c⟩

/-- An unsorted list: "hello" is found at index 1, "goodbye" is missed and -1 is
returned. -/
theorem find_in_list_safe_examples :
    find_in_list "hello".toList ["hurray".toList, "hello".toList, "goodbye".toList] = some 1 ∧
    find_in_list "goodbye".toList ["hurray".toList, "hello".toList, "goodbye".toList]
      = some (-1) ∧
    ∃ r, find_in_list "goodbye".toList
        ["hurray".toList, "hello".toList, "goodbye".toList] = some r ∧
      (r = -1 ∨ (0 ≤ r ∧
        r < ["hurray".toList, "hello".toList, "goodbye".toList].length ∧
        ["hurray".toList, "hello".toList, "goodbye".toList][r.toNat]?
          = some "goodbye".toList)) :=
  ⟨by decide, by decide,
    find_in_list_safe "goodbye".toList ["hurray".toList, "hello".toList, "goodbye".toList]
      (by decide) (by decide)⟩

/-- C19 fails on the code.  On the list of 2147483647 copies of "hello" and the
lowercase guess "world" the claim gives a terminating search that reads only
indices `0 .. num_words - 1` and returns -1 or an index; but in the second
iteration the `int` sum `low + high` is 1073741824 + 2147483646, more than
`INT_MAX`: the value of `mid`, and with it the index at which `word_list` is
read, is undefined, and the call has no defined result. -/
theorem find_in_list_safe_fails :
    assert_lower "world".toList = true ∧
    find_in_list "world".toList (List.replicate 2147483647 "hello".toList) = none ∧
    ∀ (fuel : Nat),
      find_in_list_loop "world".toList (List.replicate 2147483647 "hello".toList) (fuel + 2)
        0 2147483646 = none :=
  ⟨by decide, (find_in_list_overflow "world".toList "hello".toList (by decide) (by decide)).1,
    (find_in_list_overflow "world".toList "hello".toList (by decide) (by decide)).2⟩

end Wordle
